import Mathlib

/-!
Verification of the maze-solver repository: a shallow embedding of the
maze data model (`models.py`, `maze.py`), the randomized recursive
wall-breaking generator, the depth-first backtracking solver, and the
spec-described solver dispatch / A* solver, together with theorems
settling the specification claims.

Conventions of the embedding:
* Python's in-place mutation of `Cell` objects becomes functional update
  of a `MazeState` whose `cells` field is a total function from (row, col)
  coordinates to `Cell` values (positions outside the grid carry the
  freshly-constructed cell for their coordinates and are never touched by
  any operation).
* Python exceptions become `Except String`; the `ValueError` raised by
  `neighbors, indices = zip(*combined)` on an empty `combined` list is
  modelled explicitly.
* `random.shuffle` is modelled by an oracle `σ : Pos → List Pos → List Pos`
  applied to the neighbor list of the cell being processed (each cell is
  processed at most once per traversal, so the oracle captures every
  possible sequence of shuffle outcomes); theorems quantify over all
  oracles that permute their input.
* The recursive traversals take an explicit fuel argument; the top-level
  entry points pass `rows*cols` (resp. `rows*cols + 1`) fuel, and the
  fuel-exhaustion branch is proved unreachable.
* `window.draw_move(cell, neighbor, undo)` in `_solve_r` is modelled as
  emission of a `Step` triple into the returned trace, matching the step
  sequence described in the spec (§3); rendering itself is out of scope.
-/

namespace MazeSolver

/-- Grid coordinates (row, col) of a cell. -/
abbrev Pos := Nat × Nat

/-- A solver step: (from-cell position, to-cell position, isUndo). -/
abbrev Step := Pos × Pos × Bool

/-- Models `Cell` from maze.py: bounding geometry, four wall flags
(each defaulting to present) and the transient `visited` flag. -/
structure Cell where
  x1 : Int
  y1 : Int
  x2 : Int
  y2 : Int
  has_left_wall : Bool := true
  has_top_wall : Bool := true
  has_right_wall : Bool := true
  has_bottom_wall : Bool := true
  visited : Bool := false
deriving Repr, DecidableEq

/-- Models the body of `MazeFactory.create_cells` for one (row, col):
`x_start = x1 + col*cell_size_x`, `y_start = y1 + row*cell_size_y`,
`x_end = x_start + cell_size_x`, `y_end = y_start + cell_size_y`. -/
def createCell (x1 y1 cell_size_x cell_size_y : Int) (row col : Nat) : Cell :=
  { x1 := x1 + (col : Int) * cell_size_x
    y1 := y1 + (row : Int) * cell_size_y
    x2 := x1 + (col : Int) * cell_size_x + cell_size_x
    y2 := y1 + (row : Int) * cell_size_y + cell_size_y }

/-- Models `MazeFactory.create_cells`: the row-major list of lists of
freshly constructed cells. -/
def create_cells (x1 y1 : Int) (num_rows num_cols : Nat)
    (cell_size_x cell_size_y : Int) : List (List Cell) :=
  (List.range num_rows).map fun row =>
    (List.range num_cols).map fun col => createCell x1 y1 cell_size_x cell_size_y row col

/-- Models the `Maze` dataclass as stored (lazy `_cells` field), used for
the lazy-initialization claims about the `cells` property. -/
structure MazeLazy where
  x1 : Int
  y1 : Int
  num_rows : Nat
  num_cols : Nat
  cell_size_x : Int
  cell_size_y : Int
  lazy_cells : Option (List (List Cell)) := none
  seed : Option Int := none
deriving Repr, DecidableEq

/-- Models the `Maze.cells` property: materialize the cell storage via
`MazeFactory.create_cells` on first access, returning the (possibly
updated) maze together with the storage it now holds. -/
def MazeLazy.cellsAccess (m : MazeLazy) : MazeLazy × List (List Cell) :=
  match m.lazy_cells with
  | none =>
      let cs := create_cells m.x1 m.y1 m.num_rows m.num_cols m.cell_size_x m.cell_size_y
      ({ m with lazy_cells := some cs }, cs)
  | some cs => (m, cs)

/-- The `Maze` dataclass with its cell storage materialized, as
manipulated by the generation/solving algorithms: `cells` maps each
(row, col) to the current value of that cell. -/
structure MazeState where
  x1 : Int
  y1 : Int
  num_rows : Nat
  num_cols : Nat
  cell_size_x : Int
  cell_size_y : Int
  cells : Pos → Cell
  seed : Option Int := none

/-- Fresh maze with all cells as constructed by `MazeFactory.create_cells`. -/
def mkMaze (x1 y1 : Int) (num_rows num_cols : Nat)
    (cell_size_x cell_size_y : Int) : MazeState :=
  { x1 := x1, y1 := y1, num_rows := num_rows, num_cols := num_cols
    cell_size_x := cell_size_x, cell_size_y := cell_size_y
    cells := fun p => createCell x1 y1 cell_size_x cell_size_y p.1 p.2 }

/-- Functional update of one cell (models in-place mutation of a single
`Cell` object). -/
def setCell (s : MazeState) (p : Pos) (f : Cell → Cell) : MazeState :=
  { s with cells := fun q => if q = p then f (s.cells p) else s.cells q }

/-- Models `cell.visited = True`. -/
def markVisited (s : MazeState) (p : Pos) : MazeState :=
  setCell s p fun c => { c with visited := true }

/-- Models `Maze.toggle_cell_walls`: toggle all four wall flags of the
cell at (row, col). -/
def toggle_cell_walls (s : MazeState) (row col : Nat) : MazeState :=
  setCell s (row, col) fun c =>
    { c with has_left_wall := !c.has_left_wall, has_top_wall := !c.has_top_wall,
             has_right_wall := !c.has_right_wall, has_bottom_wall := !c.has_bottom_wall }

/-- Models `Maze._break_entrance_and_exit`: clear the left and top walls
of cell (0,0) and the right and bottom walls of cell (rows-1, cols-1). -/
def break_entrance_and_exit (s : MazeState) : MazeState :=
  let s1 := setCell s (0, 0) fun c => { c with has_left_wall := false }
  let s2 := setCell s1 (0, 0) fun c => { c with has_top_wall := false }
  let s3 := setCell s2 (s.num_rows - 1, s.num_cols - 1) fun c => { c with has_right_wall := false }
  setCell s3 (s.num_rows - 1, s.num_cols - 1) fun c => { c with has_bottom_wall := false }

/-- Models `Maze._get_neighbors`: the up / left / down / right in-bounds
neighbors of (i, j), in that fixed order. -/
def get_neighbors (s : MazeState) (i j : Nat) : List Pos :=
  (if 0 < i then [(i - 1, j)] else []) ++
  (if 0 < j then [(i, j - 1)] else []) ++
  (if i < s.num_rows - 1 then [(i + 1, j)] else []) ++
  (if j < s.num_cols - 1 then [(i, j + 1)] else [])

/-- Models `Maze._break_walls_between`: clear the facing wall flags of the
two cells according to their relative position; cells differing in both
coordinates raise `Exception("Cells are not adjacent")`. -/
def break_walls_between (s : MazeState) (p1 p2 : Pos) : Except String MazeState :=
  if p1.1 = p2.1 then
    if p1.2 < p2.2 then
      .ok (setCell (setCell s p1 fun c => { c with has_right_wall := false })
            p2 fun c => { c with has_left_wall := false })
    else
      .ok (setCell (setCell s p1 fun c => { c with has_left_wall := false })
            p2 fun c => { c with has_right_wall := false })
  else if p1.2 = p2.2 then
    if p1.1 < p2.1 then
      .ok (setCell (setCell s p1 fun c => { c with has_bottom_wall := false })
            p2 fun c => { c with has_top_wall := false })
    else
      .ok (setCell (setCell s p1 fun c => { c with has_top_wall := false })
            p2 fun c => { c with has_bottom_wall := false })
  else .error "Cells are not adjacent"

/-- Models `Maze._reset_cells_visited`: clear `visited` on every cell of
the grid. -/
def reset_cells_visited (s : MazeState) : MazeState :=
  { s with cells := fun q =>
      if q.1 < s.num_rows ∧ q.2 < s.num_cols then { s.cells q with visited := false }
      else s.cells q }

/-- Error message for the `ValueError` raised by
`neighbors, indices = zip(*combined)` when `combined` is empty. -/
def zipUnpackError : String := "ValueError: not enough values to unpack (expected 2, got 0)"

/-- Models `Maze._break_walls_r` with explicit fuel and shuffle oracle:
mark the cell visited, shuffle its neighbors, and for each still-unvisited
neighbor break the connecting wall pair and recurse. The empty-neighbor
case reproduces the `zip(*combined)` `ValueError`. -/
def break_walls_r (σ : Pos → List Pos → List Pos) :
    Nat → MazeState → Pos → Except String MazeState
  | 0, _, _ => .error "fuel exhausted"
  | fuel + 1, s, p =>
      let s1 := markVisited s p
      let shuffled := σ p (get_neighbors s1 p.1 p.2)
      if shuffled.isEmpty then .error zipUnpackError
      else
        shuffled.foldl (fun acc n =>
          match acc with
          | .error e => .error e
          | .ok t =>
            if (t.cells n).visited then .ok t
            else
              match break_walls_between t p n with
              | .error e => .error e
              | .ok t2 => break_walls_r σ fuel t2 n) (.ok s1)

/-- The neighbor loop of `_break_walls_r`, named for reasoning: fold the
loop body of `break_walls_r` over the shuffled neighbor list. -/
def carveList (σ : Pos → List Pos → List Pos) (fuel : Nat) (p : Pos)
    (acc : Except String MazeState) (l : List Pos) : Except String MazeState :=
  l.foldl (fun acc n =>
    match acc with
    | .error e => .error e
    | .ok t =>
      if (t.cells n).visited then .ok t
      else
        match break_walls_between t p n with
        | .error e => .error e
        | .ok t2 => break_walls_r σ fuel t2 n) acc

/-- Models `Generate` (spec §6) / the `__main__` wiring of maze.py:
break entrance and exit, carve from cell (0,0), then reset `visited`. -/
def generate (σ : Pos → List Pos → List Pos) (s : MazeState) : Except String MazeState :=
  match break_walls_r σ (s.num_rows * s.num_cols) (break_entrance_and_exit s) (0, 0) with
  | .error e => .error e
  | .ok t => .ok (reset_cells_visited t)

/-- Models the wall test of `_solve_r` (maze.py lines 214-217): the move
from `p` to `n` is allowed when the wall of the current cell facing `n`
is absent, tested in the direction given by the coordinate comparison. -/
def passable (s : MazeState) (p n : Pos) : Bool :=
  (p.1 = n.1 && p.2 < n.2 && !(s.cells p).has_right_wall) ||
  (p.1 = n.1 && n.2 < p.2 && !(s.cells p).has_left_wall) ||
  (p.2 = n.2 && p.1 < n.1 && !(s.cells p).has_bottom_wall) ||
  (p.2 = n.2 && n.1 < p.1 && !(s.cells p).has_top_wall)

/-- Models `Maze._solve_r` with explicit fuel and shuffle oracle. The
returned triple is (success flag, final state, emitted step trace), where
`window.draw_move(cell, neighbor)` becomes emission of a forward step and
`window.draw_move(cell, neighbor, undo=True)` emission of an undo step. -/
def solve_r (σ : Pos → List Pos → List Pos) :
    Nat → MazeState → Pos → Except String (Bool × MazeState × List Step)
  | 0, _, _ => .error "fuel exhausted"
  | fuel + 1, s, p =>
      let s1 := markVisited s p
      if p.1 = s1.num_rows - 1 ∧ p.2 = s1.num_cols - 1 then .ok (true, s1, [])
      else
        let shuffled := σ p (get_neighbors s1 p.1 p.2)
        if shuffled.isEmpty then .error zipUnpackError
        else
          shuffled.foldl (fun acc n =>
            match acc with
            | .error e => .error e
            | .ok (true, t, tr) => .ok (true, t, tr)
            | .ok (false, t, tr) =>
              if (t.cells n).visited then .ok (false, t, tr)
              else if passable t p n then
                match solve_r σ fuel t n with
                | .error e => .error e
                | .ok (true, t2, tr2) => .ok (true, t2, tr ++ (p, n, false) :: tr2)
                | .ok (false, t2, tr2) =>
                    .ok (false, t2, tr ++ (p, n, false) :: (tr2 ++ [(p, n, true)]))
              else .ok (false, t, tr)) (.ok (false, s1, []))

/-- The neighbor loop of `_solve_r`, named for reasoning: fold the loop
body of `solve_r` over the shuffled neighbor list. -/
def solveList (σ : Pos → List Pos → List Pos) (fuel : Nat) (p : Pos)
    (acc : Except String (Bool × MazeState × List Step)) (l : List Pos) :
    Except String (Bool × MazeState × List Step) :=
  l.foldl (fun acc n =>
    match acc with
    | .error e => .error e
    | .ok (true, t, tr) => .ok (true, t, tr)
    | .ok (false, t, tr) =>
      if (t.cells n).visited then .ok (false, t, tr)
      else if passable t p n then
        match solve_r σ fuel t n with
        | .error e => .error e
        | .ok (true, t2, tr2) => .ok (true, t2, tr ++ (p, n, false) :: tr2)
        | .ok (false, t2, tr2) =>
            .ok (false, t2, tr ++ (p, n, false) :: (tr2 ++ [(p, n, true)]))
      else .ok (false, t, tr)) acc

/-- Models `Maze.solve`: run the recursive depth-first solution from cell
(0, 0). -/
def solve (σ : Pos → List Pos → List Pos) (s : MazeState) :
    Except String (Bool × MazeState × List Step) :=
  solve_r σ (s.num_rows * s.num_cols + 1) s (0, 0)

/-- Position (row, col) lies inside the grid. -/
def validPos (s : MazeState) (p : Pos) : Prop :=
  p.1 < s.num_rows ∧ p.2 < s.num_cols

instance (s : MazeState) (p : Pos) : Decidable (validPos s p) := by
  unfold validPos; infer_instance

/-- All in-grid positions. -/
def posFinset (s : MazeState) : Finset Pos :=
  Finset.range s.num_rows ×ˢ Finset.range s.num_cols

/-- Number of in-grid cells not yet marked visited. -/
def unvis (s : MazeState) : Nat :=
  ((posFinset s).filter fun p => (s.cells p).visited = false).card

/-- The interior wall pair between `p` and its right or bottom neighbor
`q` is broken: both matching flags are absent. Each interior wall pair is
identified by its canonically oriented cell pair. -/
def openPair (s : MazeState) (p q : Pos) : Prop :=
  (q = (p.1, p.2 + 1) ∧ (s.cells p).has_right_wall = false ∧
    (s.cells q).has_left_wall = false) ∨
  (q = (p.1 + 1, p.2) ∧ (s.cells p).has_bottom_wall = false ∧
    (s.cells q).has_top_wall = false)

instance (s : MazeState) (p q : Pos) : Decidable (openPair s p q) := by
  unfold openPair; infer_instance

/-- The broken interior wall pairs of the grid, as canonically oriented
in-grid cell pairs. -/
def brokenPairs (s : MazeState) : Finset (Pos × Pos) :=
  ((posFinset s) ×ˢ (posFinset s)).filter fun e => openPair s e.1 e.2

/-- The carved graph: cells are vertices, broken interior wall pairs are
edges. -/
def mazeGraph (s : MazeState) : SimpleGraph Pos where
  Adj a b := openPair s a b ∨ openPair s b a
  symm := by intro a b h; tauto
  loopless := by
    intro a h
    have hne : a.2 ≠ a.2 + 1 ∧ a.1 ≠ a.1 + 1 := by omega
    rcases h with (⟨he, _⟩ | ⟨he, _⟩) | (⟨he, _⟩ | ⟨he, _⟩)
    · exact hne.1 (congrArg Prod.snd he)
    · exact hne.2 (congrArg Prod.fst he)
    · exact hne.1 (congrArg Prod.snd he)
    · exact hne.2 (congrArg Prod.fst he)

/-- Spec §3 WallRelation, stated from the spec's words for comparison
with the code's behavior: two cells are adjacent iff they differ by
exactly one unit in exactly one of (row, col). -/
def adjacentPos (p q : Pos) : Prop :=
  (p.1 = q.1 ∧ (p.2 + 1 = q.2 ∨ q.2 + 1 = p.2)) ∨
  (p.2 = q.2 ∧ (p.1 + 1 = q.1 ∨ q.1 + 1 = p.1))

instance (p q : Pos) : Decidable (adjacentPos p q) := by
  unfold adjacentPos; infer_instance

/-- The wall flag of the cell at `p` facing the adjacent cell `q`
(`true` when `q` is not adjacent to `p`). -/
def wallFacing (s : MazeState) (p q : Pos) : Bool :=
  if q = (p.1, p.2 + 1) then (s.cells p).has_right_wall
  else if p = (q.1, q.2 + 1) then (s.cells p).has_left_wall
  else if q = (p.1 + 1, p.2) then (s.cells p).has_bottom_wall
  else if p = (q.1 + 1, q.2) then (s.cells p).has_top_wall
  else true

/-- Spec invariant (§3 Grid): every interior wall is mutually consistent:
for adjacent in-grid cells A and B, A's wall facing B is absent iff B's
wall facing A is absent. -/
def pairConsistent (s : MazeState) : Prop :=
  ∀ p q : Pos, validPos s p → validPos s q → adjacentPos p q →
    wallFacing s p q = wallFacing s q p

/-- One legal solver move: `n` is an in-bounds grid neighbor of `p` and
the wall test of `_solve_r` allows the move. -/
def canMove (s : MazeState) (p n : Pos) : Prop :=
  n ∈ get_neighbors s p.1 p.2 ∧ passable s p n = true

/-- Cell `z` is reachable from `p` along solver moves through cells that
are currently unvisited (the start `p` itself exempted); `z = p` via the
empty move list. -/
def reachU (s : MazeState) (p z : Pos) : Prop :=
  ∃ l : List Pos, List.Chain (canMove s) p l ∧
    (∀ q ∈ l, (s.cells q).visited = false) ∧
    (p :: l).getLast? = some z

/-- Manhattan distance between (row, col) coordinates. -/
def manhattan (p q : Pos) : Nat := Nat.dist p.1 q.1 + Nat.dist p.2 q.2

/-- The exit position (rows-1, cols-1). -/
def exitPos (s : MazeState) : Pos := (s.num_rows - 1, s.num_cols - 1)

/-- Open-graph adjacency used by the A* solver: in-bounds grid neighbors
whose connecting wall pair has been broken. -/
def openNeighbors (s : MazeState) (p : Pos) : List Pos :=
  (get_neighbors s p.1 p.2).filter fun n =>
    decide (openPair s p n ∨ openPair s n p)

/-- A list of cells is a path through broken walls from `a` to `z`. -/
def openPathFrom (s : MazeState) (a z : Pos) (l : List Pos) : Prop :=
  l ≠ [] ∧ l.head? = some a ∧ l.getLast? = some z ∧
    List.Chain' (fun x y => openPair s x y ∨ openPair s y x) l

/-- Modelled from the spec: working state of the A* solver (§4.4, open /
closed cost-and-frontier tracking with parent pointers). The A* solver is
called from gui.py's `animate_solution` but its implementation is not
under src/. -/
structure AStarState where
  openL : List Pos
  closedL : List Pos
  gmap : Pos → Option Nat
  parent : Pos → Option Pos

/-- Evaluation value f = g + h of a discovered cell. -/
def fOf (s : MazeState) (st : AStarState) (p : Pos) : Nat :=
  (st.gmap p).getD 0 + manhattan p (exitPos s)

/-- First element with minimal f among `x :: l` (ties resolved by
first-found order, a deterministic rule as the spec allows). -/
def pickMin (s : MazeState) (st : AStarState) (x : Pos) (l : List Pos) : Pos :=
  l.foldl (fun best n => if fOf s st n < fOf s st best then n else best) x

/-- Modelled from the spec (§4.4): relax one open-graph neighbor `n` of
the cell `p` being expanded, with unit edge cost. -/
def relaxNeighbor (p : Pos) (st : AStarState) (n : Pos) : AStarState :=
  if n ∈ st.closedL then st
  else
    match st.gmap n with
    | none =>
        { st with openL := n :: st.openL,
                  gmap := fun q => if q = n then some ((st.gmap p).getD 0 + 1) else st.gmap q,
                  parent := fun q => if q = n then some p else st.parent q }
    | some gn =>
        if (st.gmap p).getD 0 + 1 < gn then
          { st with gmap := fun q => if q = n then some ((st.gmap p).getD 0 + 1) else st.gmap q,
                    parent := fun q => if q = n then some p else st.parent q }
        else st

/-- Modelled from the spec (§4.4): move `p` from the open frontier to the
closed set and relax its open-graph neighbors. -/
def expand (s : MazeState) (st : AStarState) (p : Pos) : AStarState :=
  (openNeighbors s p).foldl (relaxNeighbor p)
    { st with openL := st.openL.erase p, closedL := p :: st.closedL }

/-- Walk the parent-pointer map backward from `p`, producing the cell
sequence forward from the start. -/
def buildPath (parent : Pos → Option Pos) : Nat → Pos → List Pos
  | 0, p => [p]
  | k + 1, p =>
      match parent p with
      | none => [p]
      | some q => buildPath parent k q ++ [p]

/-- Forward-only step sequence tracing a cell sequence. -/
def stepsOfPath : List Pos → List Step
  | [] => []
  | [_] => []
  | a :: b :: rest => (a, b, false) :: stepsOfPath (b :: rest)

/-- Modelled from the spec (§4.4): the A* main loop with explicit fuel.
Empty frontier means the exit is unreachable: the defined result is the
empty step sequence. -/
def astarLoop (s : MazeState) : Nat → AStarState → Except String (List Step)
  | 0, _ => .error "fuel exhausted"
  | fuel + 1, st =>
      match st.openL with
      | [] => .ok []
      | x :: rest =>
          let p := pickMin s st x rest
          if p = exitPos s then
            .ok (stepsOfPath (buildPath st.parent ((st.gmap p).getD 0) p))
          else astarLoop s fuel (expand s st p)

/-- Modelled from the spec (§4.4 `SolveAStar`): A* from cell (0,0) over
the open graph with the Manhattan heuristic and unit edge costs,
returning a forward-only Step sequence, empty when the exit is
unreachable. The implementation is missing from src/ (gui.py's
`animate_solution` is its caller). -/
def SolveAStar (s : MazeState) : Except String (List Step) :=
  astarLoop s (s.num_rows * s.num_cols + 1)
    { openL := [(0, 0)], closedL := [],
      gmap := fun q => if q = (0, 0) then some 0 else none,
      parent := fun _ => none }

/-- Modelled from the spec (§6): `Solve(grid, algorithm)` dispatches on
the algorithm name; unknown names fail with UnsupportedAlgorithmError.
The dispatching solve is missing from src/ (gui.py's `animate_solution`
passes `algorithm=` and consumes the returned Step triples; the `solve`
in src/maze.py takes a window argument instead). -/
def Solve (σ : Pos → List Pos → List Pos) (s : MazeState) (algorithm : String) :
    Except String (List Step) :=
  if algorithm = "dfs" then
    match solve σ s with
    | .error e => .error e
    | .ok (_, _, tr) => .ok tr
  else if algorithm = "astar" then SolveAStar s
  else .error "UnsupportedAlgorithmError"

/-- Fresh lazy maze record as constructed (`Maze(x1, y1, rows, cols, ...)`
with the `_cells` field at its default `None`). -/
def mkMazeLazy (x1 y1 : Int) (num_rows num_cols : Nat)
    (cell_size_x cell_size_y : Int) : MazeLazy :=
  { x1 := x1, y1 := y1, num_rows := num_rows, num_cols := num_cols
    cell_size_x := cell_size_x, cell_size_y := cell_size_y }

/-- Override the seed field (models passing a different `seed=` to the
`Maze` constructor). -/
def setSeed (s : MazeState) (v : Option Int) : MazeState :=
  { s with seed := v }

/-- Walls of every out-of-grid position are intact; such positions are
artifacts of the total `cells` function and are never touched. -/
def wallsIntactOutside (s : MazeState) : Prop :=
  ∀ p : Pos, ¬ validPos s p →
    (s.cells p).has_left_wall = true ∧ (s.cells p).has_top_wall = true ∧
    (s.cells p).has_right_wall = true ∧ (s.cells p).has_bottom_wall = true

/-- Every broken interior wall pair connects two visited cells. -/
def openOnlyVisited (s : MazeState) : Prop :=
  ∀ a b : Pos, openPair s a b →
    (s.cells a).visited = true ∧ (s.cells b).visited = true

/-- Variant of `openOnlyVisited` holding at entry to `_break_walls_r`:
the cell about to be marked is exempt (its connecting wall was just
broken by the caller). -/
def openOnlyVisitedExcept (s : MazeState) (p : Pos) : Prop :=
  ∀ a b : Pos, openPair s a b →
    ((s.cells a).visited = true ∨ a = p) ∧ ((s.cells b).visited = true ∨ b = p)

/-- Postcondition of one `_break_walls_r` call from an unvisited cell `p`
of state `s`, yielding `s'`. -/
structure CarvePost (s : MazeState) (p : Pos) (s' : MazeState) : Prop where
  rows_eq : s'.num_rows = s.num_rows
  cols_eq : s'.num_cols = s.num_cols
  vis_mono : ∀ q, (s.cells q).visited = true → (s'.cells q).visited = true
  start_vis : (s'.cells p).visited = true
  new_valid : ∀ q, (s'.cells q).visited = true →
    (s.cells q).visited = true ∨ validPos s q
  wall_mono : ∀ x y, openPair s x y → openPair s' x y
  oor : wallsIntactOutside s'
  oov : openOnlyVisited s'
  acyclic : (mazeGraph s').IsAcyclic
  conserve : (brokenPairs s').card + unvis s' + 1 = (brokenPairs s).card + unvis s
  reach : ∀ q, (s'.cells q).visited = true → (s.cells q).visited = false →
    (mazeGraph s').Reachable q p
  closed : ∀ q, (s'.cells q).visited = true → (s.cells q).visited = false →
    ∀ m ∈ get_neighbors s' q.1 q.2, (s'.cells m).visited = true

/-- Postcondition of the neighbor loop of `_break_walls_r` over list `l`
around the (already marked) cell `p`, from state `t` to `t'`. -/
structure CarveLoopPost (t : MazeState) (p : Pos) (l : List Pos) (t' : MazeState) : Prop where
  rows_eq : t'.num_rows = t.num_rows
  cols_eq : t'.num_cols = t.num_cols
  vis_mono : ∀ q, (t.cells q).visited = true → (t'.cells q).visited = true
  new_valid : ∀ q, (t'.cells q).visited = true →
    (t.cells q).visited = true ∨ validPos t q
  wall_mono : ∀ x y, openPair t x y → openPair t' x y
  oor : wallsIntactOutside t'
  oov : openOnlyVisited t'
  acyclic : (mazeGraph t').IsAcyclic
  conserve : (brokenPairs t').card + unvis t' = (brokenPairs t).card + unvis t
  reach : ∀ q, (t'.cells q).visited = true → (t.cells q).visited = false →
    (mazeGraph t').Reachable q p
  closed : ∀ q, (t'.cells q).visited = true → (t.cells q).visited = false →
    ∀ m ∈ get_neighbors t' q.1 q.2, (t'.cells m).visited = true
  cover : ∀ n ∈ l, (t'.cells n).visited = true

/-- Postcondition of one `_solve_r` call from cell `p`: walls untouched,
visited flags only grow, success reported iff the exit is reachable from
`p` through currently-unvisited cells, failure saturates everything so
reachable, and every newly visited cell was so reachable. -/
structure SolvePost (s : MazeState) (p : Pos) (b : Bool) (s' : MazeState) : Prop where
  rows_eq : s'.num_rows = s.num_rows
  cols_eq : s'.num_cols = s.num_cols
  wallsL : ∀ q, (s'.cells q).has_left_wall = (s.cells q).has_left_wall
  wallsT : ∀ q, (s'.cells q).has_top_wall = (s.cells q).has_top_wall
  wallsR : ∀ q, (s'.cells q).has_right_wall = (s.cells q).has_right_wall
  wallsB : ∀ q, (s'.cells q).has_bottom_wall = (s.cells q).has_bottom_wall
  vis_mono : ∀ q, (s.cells q).visited = true → (s'.cells q).visited = true
  start_vis : (s'.cells p).visited = true
  complete : reachU s p (exitPos s) → b = true
  sound : b = true → reachU s p (exitPos s)
  absorb : b = false → ∀ z, reachU s p z → (s'.cells z).visited = true
  newly : ∀ z, (s'.cells z).visited = true →
    (s.cells z).visited = true ∨ reachU s p z
  exit_vis : b = true → (s'.cells (exitPos s)).visited = true

/-- Postcondition of the neighbor loop of `_solve_r` over the list `l`
around the (already marked) cell `p`, from state `t` to `t'` with result
flag `b`. -/
structure SolveLoopPost (t : MazeState) (p : Pos) (l : List Pos) (b : Bool)
    (t' : MazeState) : Prop where
  rows_eq : t'.num_rows = t.num_rows
  cols_eq : t'.num_cols = t.num_cols
  wallsL : ∀ q, (t'.cells q).has_left_wall = (t.cells q).has_left_wall
  wallsT : ∀ q, (t'.cells q).has_top_wall = (t.cells q).has_top_wall
  wallsR : ∀ q, (t'.cells q).has_right_wall = (t.cells q).has_right_wall
  wallsB : ∀ q, (t'.cells q).has_bottom_wall = (t.cells q).has_bottom_wall
  vis_mono : ∀ q, (t.cells q).visited = true → (t'.cells q).visited = true
  complete : ∀ n ∈ l, passable t p n = true → (t.cells n).visited = false →
    reachU t n (exitPos t) → b = true
  sound : b = true → ∃ n ∈ l, passable t p n = true ∧ (t.cells n).visited = false ∧
    reachU t n (exitPos t)
  absorb : b = false → ∀ n ∈ l, passable t p n = true → (t.cells n).visited = false →
    ∀ z, reachU t n z → (t'.cells z).visited = true
  newly : ∀ z, (t'.cells z).visited = true → (t.cells z).visited = true ∨
    ∃ n ∈ l, passable t p n = true ∧ (t.cells n).visited = false ∧ reachU t n z
  exit_vis : b = true → (t'.cells (exitPos t)).visited = true

/-- Concrete 1x2 carved maze used as a test fixture: entrance walls of
(0,0) and exit walls of (0,1) open, and the single interior wall pair
between them broken (exactly the state generation produces on a 1x2
grid). -/
def demoMaze : MazeState :=
  { x1 := 0, y1 := 0, num_rows := 1, num_cols := 2, cell_size_x := 10, cell_size_y := 10
    cells := fun p =>
      if p = ((0 : Nat), (0 : Nat)) then
        { x1 := 0, y1 := 0, x2 := 10, y2 := 10
          has_left_wall := false, has_top_wall := false, has_right_wall := false }
      else if p = ((0 : Nat), (1 : Nat)) then
        { x1 := 10, y1 := 0, x2 := 20, y2 := 10
          has_left_wall := false, has_right_wall := false, has_bottom_wall := false }
      else createCell 0 0 10 10 p.1 p.2 }

/-- Invariant of the A* working state over the open graph of `s`:
discovered cells are exactly the open and closed ones, closed cells carry
their exact shortest distance from the start, every g-value is realizable
through the parent pointers and bounds the true distance from below, and
every open-graph neighbor of a closed cell has been relaxed. -/
structure AInv (s : MazeState) (st : AStarState) : Prop where
  disc_open : ∀ x : Pos, (st.gmap x).isSome = true → x ∈ st.openL ∨ x ∈ st.closedL
  open_disc : ∀ x ∈ st.openL, (st.gmap x).isSome = true
  closed_disc : ∀ x ∈ st.closedL, (st.gmap x).isSome = true
  open_not_closed : ∀ x ∈ st.openL, x ∉ st.closedL
  open_nodup : st.openL.Nodup
  closed_nodup : st.closedL.Nodup
  open_valid : ∀ x ∈ st.openL, validPos s x
  closed_valid : ∀ x ∈ st.closedL, validPos s x
  g00 : st.gmap (0, 0) = some 0
  parent_ok : ∀ x : Pos, (st.gmap x).isSome = true → x ≠ (0, 0) →
    ∃ y gy, st.parent x = some y ∧ st.gmap y = some gy ∧
      st.gmap x = some (gy + 1) ∧ y ∈ st.closedL ∧
      (openPair s y x ∨ openPair s x y)
  g_lower : ∀ (x : Pos) (gx : Nat), st.gmap x = some gx →
    (mazeGraph s).Reachable (0, 0) x ∧ (mazeGraph s).dist ((0, 0) : Pos) x ≤ gx
  closed_exact : ∀ x ∈ st.closedL,
    st.gmap x = some ((mazeGraph s).dist ((0, 0) : Pos) x)
  closed_relax : ∀ u ∈ st.closedL, ∀ v : Pos, (mazeGraph s).Adj u v →
    ∃ gv, st.gmap v = some gv ∧ gv ≤ (mazeGraph s).dist ((0, 0) : Pos) u + 1
  exit_not_closed : exitPos s ∉ st.closedL

/-- Intermediate invariant during the relaxation of the neighbors of the
cell `p` just moved to the closed set: all of `AInv` except that only
closed cells other than `p` are known fully relaxed. -/
structure RelaxInv (s : MazeState) (p : Pos) (st : AStarState) : Prop where
  disc_open : ∀ x : Pos, (st.gmap x).isSome = true → x ∈ st.openL ∨ x ∈ st.closedL
  open_disc : ∀ x ∈ st.openL, (st.gmap x).isSome = true
  closed_disc : ∀ x ∈ st.closedL, (st.gmap x).isSome = true
  open_not_closed : ∀ x ∈ st.openL, x ∉ st.closedL
  open_nodup : st.openL.Nodup
  closed_nodup : st.closedL.Nodup
  open_valid : ∀ x ∈ st.openL, validPos s x
  closed_valid : ∀ x ∈ st.closedL, validPos s x
  g00 : st.gmap (0, 0) = some 0
  parent_ok : ∀ x : Pos, (st.gmap x).isSome = true → x ≠ (0, 0) →
    ∃ y gy, st.parent x = some y ∧ st.gmap y = some gy ∧
      st.gmap x = some (gy + 1) ∧ y ∈ st.closedL ∧
      (openPair s y x ∨ openPair s x y)
  g_lower : ∀ (x : Pos) (gx : Nat), st.gmap x = some gx →
    (mazeGraph s).Reachable (0, 0) x ∧ (mazeGraph s).dist ((0, 0) : Pos) x ≤ gx
  closed_exact : ∀ x ∈ st.closedL,
    st.gmap x = some ((mazeGraph s).dist ((0, 0) : Pos) x)
  closed_relax_old : ∀ u ∈ st.closedL, u ≠ p → ∀ v : Pos, (mazeGraph s).Adj u v →
    ∃ gv, st.gmap v = some gv ∧ gv ≤ (mazeGraph s).dist ((0, 0) : Pos) u + 1
  p_closed : p ∈ st.closedL
  exit_not_closed : exitPos s ∉ st.closedL

/-! ## Basic lemmas about the embedded operations -/

@[simp] theorem setCell_num_rows (s : MazeState) (p : Pos) (f : Cell → Cell) :
    (setCell s p f).num_rows = s.num_rows := rfl

@[simp] theorem setCell_num_cols (s : MazeState) (p : Pos) (f : Cell → Cell) :
    (setCell s p f).num_cols = s.num_cols := rfl

@[simp] theorem setCell_cells (s : MazeState) (p : Pos) (f : Cell → Cell) (q : Pos) :
    (setCell s p f).cells q = if q = p then f (s.cells p) else s.cells q := rfl

@[simp] theorem markVisited_num_rows (s : MazeState) (p : Pos) :
    (markVisited s p).num_rows = s.num_rows := rfl

@[simp] theorem markVisited_num_cols (s : MazeState) (p : Pos) :
    (markVisited s p).num_cols = s.num_cols := rfl

theorem markVisited_cells (s : MazeState) (p q : Pos) :
    (markVisited s p).cells q =
      if q = p then { s.cells p with visited := true } else s.cells q := rfl

theorem get_neighbors_congr {s t : MazeState} (h1 : t.num_rows = s.num_rows)
    (h2 : t.num_cols = s.num_cols) (i j : Nat) :
    get_neighbors t i j = get_neighbors s i j := by
  unfold get_neighbors; rw [h1, h2]

theorem mem_get_neighbors {s : MazeState} {i j : Nat} {n : Pos} :
    n ∈ get_neighbors s i j ↔
      (0 < i ∧ n = (i - 1, j)) ∨ (0 < j ∧ n = (i, j - 1)) ∨
      (i < s.num_rows - 1 ∧ n = (i + 1, j)) ∨ (j < s.num_cols - 1 ∧ n = (i, j + 1)) := by
  have memIf : ∀ (c : Prop) [Decidable c] (m : Pos),
      (n ∈ if c then [m] else []) ↔ c ∧ n = m := by
    intro c _ m
    split_ifs with hc <;> simp [hc]
  unfold get_neighbors
  simp only [List.mem_append, memIf]
  tauto

theorem get_neighbors_validPos {s : MazeState} {i j : Nat} {n : Pos}
    (hn : n ∈ get_neighbors s i j) (hi : i < s.num_rows) (hj : j < s.num_cols) :
    validPos s n := by
  rcases mem_get_neighbors.1 hn with ⟨h, rfl⟩ | ⟨h, rfl⟩ | ⟨h, rfl⟩ | ⟨h, rfl⟩ <;>
    exact ⟨by omega, by omega⟩

theorem get_neighbors_adjacent {s : MazeState} {i j : Nat} {n : Pos}
    (hn : n ∈ get_neighbors s i j) : adjacentPos (i, j) n := by
  rcases mem_get_neighbors.1 hn with ⟨h, rfl⟩ | ⟨h, rfl⟩ | ⟨h, rfl⟩ | ⟨h, rfl⟩ <;>
    unfold adjacentPos <;> simp <;> omega

theorem get_neighbors_ne {s : MazeState} {i j : Nat} {n : Pos}
    (hn : n ∈ get_neighbors s i j) : n ≠ (i, j) := by
  rcases mem_get_neighbors.1 hn with ⟨h, rfl⟩ | ⟨h, rfl⟩ | ⟨h, rfl⟩ | ⟨h, rfl⟩ <;>
    intro he <;> (have h1 := congrArg Prod.fst he; have h2 := congrArg Prod.snd he) <;>
    simp at h1 h2 <;> omega

theorem get_neighbors_ne_nil {s : MazeState} {i j : Nat} (hi : i < s.num_rows)
    (hj : j < s.num_cols) (h2 : 2 ≤ s.num_rows * s.num_cols) :
    get_neighbors s i j ≠ [] := by
  by_cases hr : 2 ≤ s.num_rows
  · by_cases hi0 : 0 < i
    · exact List.ne_nil_of_mem (mem_get_neighbors.2 (Or.inl ⟨hi0, rfl⟩))
    · exact List.ne_nil_of_mem
        (mem_get_neighbors.2 (Or.inr (Or.inr (Or.inl ⟨by omega, rfl⟩))))
  · have hc : 2 ≤ s.num_cols := by nlinarith
    by_cases hj0 : 0 < j
    · exact List.ne_nil_of_mem (mem_get_neighbors.2 (Or.inr (Or.inl ⟨hj0, rfl⟩)))
    · exact List.ne_nil_of_mem
        (mem_get_neighbors.2 (Or.inr (Or.inr (Or.inr ⟨by omega, rfl⟩))))

/-! ## Path lemmas for the solver -/

theorem chain_suffix_tail {R : Pos → Pos → Prop} :
    ∀ (l : List Pos) (a x : Pos), List.Chain R a l → x ∈ l →
      ∃ l₂, List.Chain R x l₂ ∧ (∀ e ∈ l₂, e ∈ l) ∧ l₂.length < l.length ∧
        (x :: l₂).getLast? = (a :: l).getLast? := by
  intro l
  induction l with
  | nil => intro a x _ hx; exact absurd hx (List.not_mem_nil x)
  | cons b rest ih =>
    intro a x hch hx
    rw [List.chain_cons] at hch
    rcases List.mem_cons.1 hx with rfl | hx
    · exact ⟨rest, hch.2, fun e he => List.mem_cons_of_mem _ he, Nat.lt_succ_self _,
        (List.getLast?_cons_cons).symm⟩
    · obtain ⟨l₂, h1, h2, h3, h4⟩ := ih b x hch.2 hx
      refine ⟨l₂, h1, fun e he => List.mem_cons_of_mem _ (h2 e he),
        Nat.lt_trans h3 (Nat.lt_succ_self _), ?_⟩
      rw [h4, List.getLast?_cons_cons]

theorem chain_append_last {R : Pos → Pos → Prop} :
    ∀ (l₁ : List Pos) (a x : Pos) (l₂ : List Pos), List.Chain R a l₁ →
      (a :: l₁).getLast? = some x → List.Chain R x l₂ →
      List.Chain R a (l₁ ++ l₂) ∧ (a :: (l₁ ++ l₂)).getLast? = (x :: l₂).getLast? := by
  intro l₁
  induction l₁ with
  | nil =>
    intro a x l₂ _ hlast hch₂
    have hax : a = x := by
      simp only [List.getLast?_singleton] at hlast
      exact Option.some.inj hlast
    subst hax
    exact ⟨hch₂, rfl⟩
  | cons b rest ih =>
    intro a x l₂ hch hlast hch₂
    rw [List.chain_cons] at hch
    rw [List.getLast?_cons_cons] at hlast
    obtain ⟨hc2, hl2⟩ := ih b x l₂ hch.2 hlast hch₂
    refine ⟨List.chain_cons.2 ⟨hch.1, hc2⟩, ?_⟩
    rw [List.cons_append, List.getLast?_cons_cons]
    exact hl2

theorem reachU_avoid {s : MazeState} {p z : Pos} (h : reachU s p z) :
    ∃ l, List.Chain (canMove s) p l ∧ (∀ q ∈ l, (s.cells q).visited = false) ∧
      (p :: l).getLast? = some z ∧ p ∉ l := by
  obtain ⟨l, hch, hun, hlast⟩ := h
  have main : ∀ k (l : List Pos), l.length = k → List.Chain (canMove s) p l →
      (∀ q ∈ l, (s.cells q).visited = false) → (p :: l).getLast? = some z →
      ∃ l', List.Chain (canMove s) p l' ∧ (∀ q ∈ l', (s.cells q).visited = false) ∧
        (p :: l').getLast? = some z ∧ p ∉ l' := by
    intro k
    induction k using Nat.strong_induction_on with
    | _ k ihk =>
      intro l hlen hch hun hlast
      by_cases hp : p ∈ l
      · obtain ⟨l₂, h1, h2, h3, h4⟩ := chain_suffix_tail l p p hch hp
        exact ihk l₂.length (by omega) l₂ rfl h1 (fun q hq => hun q (h2 q hq))
          (by rw [h4]; exact hlast)
      · exact ⟨l, hch, hun, hlast, hp⟩
  exact main l.length l rfl hch hun hlast

theorem chain_suffix_mem {R : Pos → Pos → Prop} (l : List Pos) (a x : Pos)
    (hch : List.Chain R a l) (hx : x ∈ a :: l) :
    ∃ l₂, List.Chain R x l₂ ∧ (∀ e ∈ l₂, e ∈ l) ∧
      (x :: l₂).getLast? = (a :: l).getLast? := by
  rcases List.mem_cons.1 hx with rfl | hx
  · exact ⟨l, hch, fun e he => he, rfl⟩
  · obtain ⟨l₂, h1, h2, _, h4⟩ := chain_suffix_tail l a x hch hx
    exact ⟨l₂, h1, h2, h4⟩

theorem passable_congr {s t : MazeState}
    (hL : ∀ q, (t.cells q).has_left_wall = (s.cells q).has_left_wall)
    (hT : ∀ q, (t.cells q).has_top_wall = (s.cells q).has_top_wall)
    (hR : ∀ q, (t.cells q).has_right_wall = (s.cells q).has_right_wall)
    (hB : ∀ q, (t.cells q).has_bottom_wall = (s.cells q).has_bottom_wall)
    (a b : Pos) : passable t a b = passable s a b := by
  unfold passable
  rw [hL, hT, hR, hB]

theorem canMove_congr {s t : MazeState} (hr : t.num_rows = s.num_rows)
    (hc : t.num_cols = s.num_cols)
    (hL : ∀ q, (t.cells q).has_left_wall = (s.cells q).has_left_wall)
    (hT : ∀ q, (t.cells q).has_top_wall = (s.cells q).has_top_wall)
    (hR : ∀ q, (t.cells q).has_right_wall = (s.cells q).has_right_wall)
    (hB : ∀ q, (t.cells q).has_bottom_wall = (s.cells q).has_bottom_wall)
    (a b : Pos) : canMove t a b ↔ canMove s a b := by
  unfold canMove
  rw [get_neighbors_congr hr hc, passable_congr hL hT hR hB]

theorem reachU_transfer {s t : MazeState} (hr : t.num_rows = s.num_rows)
    (hc : t.num_cols = s.num_cols)
    (hL : ∀ q, (t.cells q).has_left_wall = (s.cells q).has_left_wall)
    (hT : ∀ q, (t.cells q).has_top_wall = (s.cells q).has_top_wall)
    (hR : ∀ q, (t.cells q).has_right_wall = (s.cells q).has_right_wall)
    (hB : ∀ q, (t.cells q).has_bottom_wall = (s.cells q).has_bottom_wall)
    (hvis : ∀ q, (s.cells q).visited = true → (t.cells q).visited = true)
    {a z : Pos} (h : reachU t a z) : reachU s a z := by
  obtain ⟨l, hch, hun, hlast⟩ := h
  refine ⟨l, ?_, ?_, hlast⟩
  · exact List.Chain.imp (fun x y hxy => (canMove_congr hr hc hL hT hR hB x y).1 hxy) hch
  · intro q hq
    by_contra hne
    have hsv : (s.cells q).visited = true := by
      cases hvv : (s.cells q).visited
      · exact absurd hvv hne
      · rfl
    exact absurd (hvis q hsv) (by rw [hun q hq]; simp)

theorem exitPos_congr {s t : MazeState} (hr : t.num_rows = s.num_rows)
    (hc : t.num_cols = s.num_cols) : exitPos t = exitPos s := by
  unfold exitPos
  rw [hr, hc]

theorem unvisited_transfer {s t : MazeState}
    (hvis : ∀ q, (s.cells q).visited = true → (t.cells q).visited = true)
    {q : Pos} (h : (t.cells q).visited = false) : (s.cells q).visited = false := by
  by_contra hne
  have hs : (s.cells q).visited = true := by
    cases hvv : (s.cells q).visited
    · exact absurd hvv hne
    · rfl
  exact absurd (hvis q hs) (by rw [h]; simp)

/-! ## Unfolding equations for the recursive traversals -/

theorem break_walls_r_zero (σ : Pos → List Pos → List Pos) (s : MazeState) (p : Pos) :
    break_walls_r σ 0 s p = .error "fuel exhausted" := rfl

theorem break_walls_r_succ (σ : Pos → List Pos → List Pos) (fuel : Nat)
    (s : MazeState) (p : Pos) :
    break_walls_r σ (fuel + 1) s p =
      (if (σ p (get_neighbors (markVisited s p) p.1 p.2)).isEmpty then
        .error zipUnpackError
       else carveList σ fuel p (.ok (markVisited s p))
         (σ p (get_neighbors (markVisited s p) p.1 p.2))) := rfl

theorem carveList_nil (σ : Pos → List Pos → List Pos) (fuel : Nat) (p : Pos)
    (acc : Except String MazeState) : carveList σ fuel p acc [] = acc := rfl

theorem carveList_cons (σ : Pos → List Pos → List Pos) (fuel : Nat) (p : Pos)
    (acc : Except String MazeState) (n : Pos) (l : List Pos) :
    carveList σ fuel p acc (n :: l) =
      carveList σ fuel p
        (match acc with
         | .error e => .error e
         | .ok t =>
           if (t.cells n).visited then .ok t
           else
             match break_walls_between t p n with
             | .error e => .error e
             | .ok t2 => break_walls_r σ fuel t2 n) l := rfl

theorem carveList_error (σ : Pos → List Pos → List Pos) (fuel : Nat) (p : Pos)
    (e : String) (l : List Pos) : carveList σ fuel p (.error e) l = .error e := by
  induction l with
  | nil => rfl
  | cons n l ih => rw [carveList_cons]; exact ih

theorem solve_r_zero (σ : Pos → List Pos → List Pos) (s : MazeState) (p : Pos) :
    solve_r σ 0 s p = .error "fuel exhausted" := rfl

theorem solve_r_succ (σ : Pos → List Pos → List Pos) (fuel : Nat)
    (s : MazeState) (p : Pos) :
    solve_r σ (fuel + 1) s p =
      (if p.1 = (markVisited s p).num_rows - 1 ∧ p.2 = (markVisited s p).num_cols - 1 then
        .ok (true, markVisited s p, [])
       else if (σ p (get_neighbors (markVisited s p) p.1 p.2)).isEmpty then
        .error zipUnpackError
       else solveList σ fuel p (.ok (false, markVisited s p, []))
         (σ p (get_neighbors (markVisited s p) p.1 p.2))) := rfl

theorem solveList_nil (σ : Pos → List Pos → List Pos) (fuel : Nat) (p : Pos)
    (acc : Except String (Bool × MazeState × List Step)) :
    solveList σ fuel p acc [] = acc := rfl

theorem solveList_cons (σ : Pos → List Pos → List Pos) (fuel : Nat) (p : Pos)
    (acc : Except String (Bool × MazeState × List Step)) (n : Pos) (l : List Pos) :
    solveList σ fuel p acc (n :: l) =
      solveList σ fuel p
        (match acc with
         | .error e => .error e
         | .ok (true, t, tr) => .ok (true, t, tr)
         | .ok (false, t, tr) =>
           if (t.cells n).visited then .ok (false, t, tr)
           else if passable t p n then
             match solve_r σ fuel t n with
             | .error e => .error e
             | .ok (true, t2, tr2) => .ok (true, t2, tr ++ (p, n, false) :: tr2)
             | .ok (false, t2, tr2) =>
                 .ok (false, t2, tr ++ (p, n, false) :: (tr2 ++ [(p, n, true)]))
           else .ok (false, t, tr)) l := rfl

theorem solveList_error (σ : Pos → List Pos → List Pos) (fuel : Nat) (p : Pos)
    (e : String) (l : List Pos) : solveList σ fuel p (.error e) l = .error e := by
  induction l with
  | nil => rfl
  | cons n l ih => rw [solveList_cons]; exact ih

theorem solveList_true (σ : Pos → List Pos → List Pos) (fuel : Nat) (p : Pos)
    (t : MazeState) (tr : List Step) (l : List Pos) :
    solveList σ fuel p (.ok (true, t, tr)) l = .ok (true, t, tr) := by
  induction l with
  | nil => rfl
  | cons n l ih => rw [solveList_cons]; exact ih

/-! ## Generation ignores the seed field -/

theorem break_walls_between_setSeed (s : MazeState) (v : Option Int) (p q : Pos) :
    break_walls_between (setSeed s v) p q =
      (break_walls_between s p q).map (fun t => setSeed t v) := by
  unfold break_walls_between
  split_ifs <;> rfl

theorem carveList_setSeed (σ : Pos → List Pos → List Pos) (fuel : Nat) (p : Pos)
    (v : Option Int)
    (ih : ∀ (s : MazeState) (q : Pos), break_walls_r σ fuel (setSeed s v) q =
      (break_walls_r σ fuel s q).map (fun t => setSeed t v)) :
    ∀ (l : List Pos) (acc : Except String MazeState),
      carveList σ fuel p (acc.map (fun t => setSeed t v)) l =
        (carveList σ fuel p acc l).map (fun t => setSeed t v) := by
  intro l
  induction l with
  | nil => intro acc; cases acc <;> rfl
  | cons n l ihl =>
    intro acc
    cases acc with
    | error e =>
      show carveList σ fuel p (.error e) (n :: l) =
        Except.map (fun t => setSeed t v) (carveList σ fuel p (.error e) (n :: l))
      simp only [carveList_error]
      rfl
    | ok t =>
      have redL : carveList σ fuel p (.ok (setSeed t v)) (n :: l) =
          carveList σ fuel p
            (if (t.cells n).visited then .ok (setSeed t v)
             else match break_walls_between (setSeed t v) p n with
               | .error e => .error e
               | .ok t2 => break_walls_r σ fuel t2 n) l := rfl
      have redR : carveList σ fuel p (.ok t) (n :: l) =
          carveList σ fuel p
            (if (t.cells n).visited then .ok t
             else match break_walls_between t p n with
               | .error e => .error e
               | .ok t2 => break_walls_r σ fuel t2 n) l := rfl
      show carveList σ fuel p (.ok (setSeed t v)) (n :: l) =
        Except.map (fun t => setSeed t v) (carveList σ fuel p (.ok t) (n :: l))
      rw [redL, redR]
      by_cases hv : (t.cells n).visited
      · rw [if_pos hv, if_pos hv]
        exact ihl (.ok t)
      · rw [if_neg hv, if_neg hv, break_walls_between_setSeed]
        cases hb : break_walls_between t p n with
        | error e =>
          show carveList σ fuel p (.error e) l =
            Except.map (fun t => setSeed t v) (carveList σ fuel p (.error e) l)
          simp only [carveList_error]
          rfl
        | ok t2 =>
          show carveList σ fuel p (break_walls_r σ fuel (setSeed t2 v) n) l =
            Except.map (fun t => setSeed t v) (carveList σ fuel p (break_walls_r σ fuel t2 n) l)
          rw [ih t2 n]
          exact ihl (break_walls_r σ fuel t2 n)

theorem break_walls_r_setSeed (σ : Pos → List Pos → List Pos) (v : Option Int) :
    ∀ (fuel : Nat) (s : MazeState) (p : Pos),
      break_walls_r σ fuel (setSeed s v) p =
        (break_walls_r σ fuel s p).map (fun t => setSeed t v) := by
  intro fuel
  induction fuel with
  | zero => intro s p; rfl
  | succ fuel ih =>
    intro s p
    rw [break_walls_r_succ, break_walls_r_succ]
    have hm : markVisited (setSeed s v) p = setSeed (markVisited s p) v := rfl
    have hn : get_neighbors (setSeed (markVisited s p) v) p.1 p.2 =
        get_neighbors (markVisited s p) p.1 p.2 := rfl
    rw [hm, hn]
    by_cases he : (σ p (get_neighbors (markVisited s p) p.1 p.2)).isEmpty
    · rw [if_pos he, if_pos he]; rfl
    · rw [if_neg he, if_neg he]
      exact carveList_setSeed σ fuel p v (fun s q => ih s q) _ (.ok (markVisited s p))

theorem generate_setSeed (σ : Pos → List Pos → List Pos) (s : MazeState)
    (v : Option Int) :
    generate σ (setSeed s v) = (generate σ s).map (fun t => setSeed t v) := by
  unfold generate
  have h1 : break_entrance_and_exit (setSeed s v) =
      setSeed (break_entrance_and_exit s) v := rfl
  have h2 : (setSeed s v).num_rows * (setSeed s v).num_cols =
      s.num_rows * s.num_cols := rfl
  rw [h1, h2, break_walls_r_setSeed]
  cases break_walls_r σ (s.num_rows * s.num_cols) (break_entrance_and_exit s) (0, 0) with
  | error e => rfl
  | ok t => rfl

/-! ## C6: the injected seed does not determine the maze -/

/-- C6 evidence: the generator never consults the `seed` field — its
outcome (in particular, every wall flag) is a function of the shuffle
outcomes alone, so two runs with the identical seed but different global
shuffle behavior produce different mazes (cell (0,0) of a 2×2 maze ends
with its bottom wall broken under one shuffle outcome and intact under
another, both with seed 0). -/
theorem claim_C6_seed_unused :
    (∀ (σ : Pos → List Pos → List Pos) (s : MazeState) (v w : Option Int),
      (generate σ (setSeed s v)).map (fun t => t.cells) =
      (generate σ (setSeed s w)).map (fun t => t.cells)) ∧
    (∃ σ1 σ2 : Pos → List Pos → List Pos,
      (∀ p l, (σ1 p l).Perm l) ∧ (∀ p l, (σ2 p l).Perm l) ∧
      ∃ t1 t2, generate σ1 (setSeed (mkMaze 0 0 2 2 10 10) (some 0)) = .ok t1 ∧
        generate σ2 (setSeed (mkMaze 0 0 2 2 10 10) (some 0)) = .ok t2 ∧
        (t1.cells (0, 0)).has_bottom_wall = false ∧
        (t2.cells (0, 0)).has_bottom_wall = true) := by
  constructor
  · intro σ s v w
    rw [generate_setSeed, generate_setSeed]
    cases generate σ s with
    | error e => rfl
    | ok t => rfl
  · refine ⟨fun _ l => l, fun _ l => l.reverse, fun _ l => List.Perm.refl l,
      fun _ l => List.reverse_perm l, _, _, rfl, rfl, by decide, by decide⟩

/-! ## Effect of breaking a wall pair on the open-pair relation -/

theorem openPair_update_h {s t : MazeState} {a b : Pos} (hb : b = (a.1, a.2 + 1))
    (hr : ∀ x, (t.cells x).has_right_wall =
      if x = a then false else (s.cells x).has_right_wall)
    (hl : ∀ x, (t.cells x).has_left_wall =
      if x = b then false else (s.cells x).has_left_wall)
    (ht : ∀ x, (t.cells x).has_top_wall = (s.cells x).has_top_wall)
    (hbo : ∀ x, (t.cells x).has_bottom_wall = (s.cells x).has_bottom_wall) :
    ∀ x y, openPair t x y ↔ openPair s x y ∨ (x = a ∧ y = b) := by
  intro x y
  unfold openPair
  constructor
  · intro h
    rcases h with ⟨hy, h1, h2⟩ | ⟨hy, h1, h2⟩
    · rw [hr] at h1
      rw [hl] at h2
      by_cases hxa : x = a
      · subst hxa
        exact Or.inr ⟨rfl, by rw [hb, hy]⟩
      · rw [if_neg hxa] at h1
        by_cases hyb : y = b
        · exfalso
          apply hxa
          have h3 : (x.1, x.2 + 1) = (a.1, a.2 + 1) := by rw [← hy, hyb, hb]
          have e1 := congrArg Prod.fst h3
          have e2 := congrArg Prod.snd h3
          simp only at e1 e2
          exact Prod.ext_iff.2 ⟨e1, by omega⟩
        · rw [if_neg hyb] at h2
          exact Or.inl (Or.inl ⟨hy, h1, h2⟩)
    · rw [hbo] at h1
      rw [ht] at h2
      exact Or.inl (Or.inr ⟨hy, h1, h2⟩)
  · intro h
    rcases h with (⟨hy, h1, h2⟩ | ⟨hy, h1, h2⟩) | ⟨hxa, hyb⟩
    · refine Or.inl ⟨hy, ?_, ?_⟩
      · rw [hr]; split_ifs with hxa
        · rfl
        · exact h1
      · rw [hl]; split_ifs with hyb
        · rfl
        · exact h2
    · refine Or.inr ⟨hy, ?_, ?_⟩
      · rw [hbo]; exact h1
      · rw [ht]; exact h2
    · subst hxa; subst hyb
      refine Or.inl ⟨hb, ?_, ?_⟩
      · rw [hr, if_pos rfl]
      · rw [hl, if_pos rfl]

theorem openPair_update_v {s t : MazeState} {a b : Pos} (hb : b = (a.1 + 1, a.2))
    (hbo : ∀ x, (t.cells x).has_bottom_wall =
      if x = a then false else (s.cells x).has_bottom_wall)
    (ht : ∀ x, (t.cells x).has_top_wall =
      if x = b then false else (s.cells x).has_top_wall)
    (hl : ∀ x, (t.cells x).has_left_wall = (s.cells x).has_left_wall)
    (hr : ∀ x, (t.cells x).has_right_wall = (s.cells x).has_right_wall) :
    ∀ x y, openPair t x y ↔ openPair s x y ∨ (x = a ∧ y = b) := by
  intro x y
  unfold openPair
  constructor
  · intro h
    rcases h with ⟨hy, h1, h2⟩ | ⟨hy, h1, h2⟩
    · rw [hr] at h1
      rw [hl] at h2
      exact Or.inl (Or.inl ⟨hy, h1, h2⟩)
    · rw [hbo] at h1
      rw [ht] at h2
      by_cases hxa : x = a
      · subst hxa
        exact Or.inr ⟨rfl, by rw [hb, hy]⟩
      · rw [if_neg hxa] at h1
        by_cases hyb : y = b
        · exfalso
          apply hxa
          have h3 : (x.1 + 1, x.2) = (a.1 + 1, a.2) := by rw [← hy, hyb, hb]
          have e1 := congrArg Prod.fst h3
          have e2 := congrArg Prod.snd h3
          simp only at e1 e2
          exact Prod.ext_iff.2 ⟨by omega, e2⟩
        · rw [if_neg hyb] at h2
          exact Or.inl (Or.inr ⟨hy, h1, h2⟩)
  · intro h
    rcases h with (⟨hy, h1, h2⟩ | ⟨hy, h1, h2⟩) | ⟨hxa, hyb⟩
    · refine Or.inl ⟨hy, ?_, ?_⟩
      · rw [hr]; exact h1
      · rw [hl]; exact h2
    · refine Or.inr ⟨hy, ?_, ?_⟩
      · rw [hbo]; split_ifs with hxa
        · rfl
        · exact h1
      · rw [ht]; split_ifs with hyb
        · rfl
        · exact h2
    · subst hxa; subst hyb
      refine Or.inr ⟨hb, ?_, ?_⟩
      · rw [hbo, if_pos rfl]
      · rw [ht, if_pos rfl]

theorem break_right_spec (s : MazeState) {p n : Pos} (h : n = (p.1, p.2 + 1)) :
    ∃ t, break_walls_between s p n = .ok t ∧
      t.num_rows = s.num_rows ∧ t.num_cols = s.num_cols ∧
      (∀ x, (t.cells x).visited = (s.cells x).visited) ∧
      (∀ x, x ≠ p → x ≠ n → t.cells x = s.cells x) ∧
      (∀ x y, openPair t x y ↔ openPair s x y ∨ (x = p ∧ y = n)) ∧
      t.cells p = { s.cells p with has_right_wall := false } ∧
      t.cells n = { s.cells n with has_left_wall := false } := by
  have hpn : p ≠ n := by
    intro he
    rw [← he] at h
    have := congrArg Prod.snd h
    simp only at this
    omega
  have hnp : n ≠ p := fun he => hpn he.symm
  refine ⟨setCell (setCell s p fun c => { c with has_right_wall := false })
            n fun c => { c with has_left_wall := false }, ?_, rfl, rfl, ?_, ?_, ?_, ?_, ?_⟩
  · unfold break_walls_between
    rw [if_pos (by rw [h]), if_pos (by rw [h]; exact Nat.lt_succ_self _)]
  · intro x
    simp only [setCell_cells]
    split_ifs <;> simp_all
  · intro x hxp hxn
    simp only [setCell_cells, if_neg hxn, if_neg hxp]
  · refine openPair_update_h h ?_ ?_ ?_ ?_ <;> intro x <;>
      simp only [setCell_cells] <;> split_ifs <;> simp_all
  · simp [setCell_cells, hpn]
  · simp [setCell_cells, hnp]

theorem break_left_spec (s : MazeState) {p n : Pos} (h : p = (n.1, n.2 + 1)) :
    ∃ t, break_walls_between s p n = .ok t ∧
      t.num_rows = s.num_rows ∧ t.num_cols = s.num_cols ∧
      (∀ x, (t.cells x).visited = (s.cells x).visited) ∧
      (∀ x, x ≠ p → x ≠ n → t.cells x = s.cells x) ∧
      (∀ x y, openPair t x y ↔ openPair s x y ∨ (x = n ∧ y = p)) ∧
      t.cells p = { s.cells p with has_left_wall := false } ∧
      t.cells n = { s.cells n with has_right_wall := false } := by
  have hpn : p ≠ n := by
    intro he
    rw [he] at h
    have := congrArg Prod.snd h
    simp only at this
    omega
  have hnp : n ≠ p := fun he => hpn he.symm
  refine ⟨setCell (setCell s p fun c => { c with has_left_wall := false })
            n fun c => { c with has_right_wall := false }, ?_, rfl, rfl, ?_, ?_, ?_, ?_, ?_⟩
  · unfold break_walls_between
    rw [if_pos (by rw [h]), if_neg (by rw [h]; omega)]
  · intro x
    simp only [setCell_cells]
    split_ifs <;> simp_all
  · intro x hxp hxn
    simp only [setCell_cells, if_neg hxn, if_neg hxp]
  · refine openPair_update_h h ?_ ?_ ?_ ?_ <;> intro x <;>
      simp only [setCell_cells] <;> split_ifs <;> simp_all
  · simp [setCell_cells, hpn]
  · simp [setCell_cells, hnp]

theorem break_down_spec (s : MazeState) {p n : Pos} (h : n = (p.1 + 1, p.2)) :
    ∃ t, break_walls_between s p n = .ok t ∧
      t.num_rows = s.num_rows ∧ t.num_cols = s.num_cols ∧
      (∀ x, (t.cells x).visited = (s.cells x).visited) ∧
      (∀ x, x ≠ p → x ≠ n → t.cells x = s.cells x) ∧
      (∀ x y, openPair t x y ↔ openPair s x y ∨ (x = p ∧ y = n)) ∧
      t.cells p = { s.cells p with has_bottom_wall := false } ∧
      t.cells n = { s.cells n with has_top_wall := false } := by
  have hpn : p ≠ n := by
    intro he
    rw [← he] at h
    have := congrArg Prod.fst h
    simp only at this
    omega
  have hnp : n ≠ p := fun he => hpn he.symm
  have hne1 : ¬ p.1 = n.1 := by
    rw [h]
    intro he
    simp only at he
    omega
  refine ⟨setCell (setCell s p fun c => { c with has_bottom_wall := false })
            n fun c => { c with has_top_wall := false }, ?_, rfl, rfl, ?_, ?_, ?_, ?_, ?_⟩
  · unfold break_walls_between
    rw [if_neg hne1, if_pos (by rw [h]), if_pos (by rw [h]; exact Nat.lt_succ_self _)]
  · intro x
    simp only [setCell_cells]
    split_ifs <;> simp_all
  · intro x hxp hxn
    simp only [setCell_cells, if_neg hxn, if_neg hxp]
  · refine openPair_update_v h ?_ ?_ ?_ ?_ <;> intro x <;>
      simp only [setCell_cells] <;> split_ifs <;> simp_all
  · simp [setCell_cells, hpn]
  · simp [setCell_cells, hnp]

theorem break_up_spec (s : MazeState) {p n : Pos} (h : p = (n.1 + 1, n.2)) :
    ∃ t, break_walls_between s p n = .ok t ∧
      t.num_rows = s.num_rows ∧ t.num_cols = s.num_cols ∧
      (∀ x, (t.cells x).visited = (s.cells x).visited) ∧
      (∀ x, x ≠ p → x ≠ n → t.cells x = s.cells x) ∧
      (∀ x y, openPair t x y ↔ openPair s x y ∨ (x = n ∧ y = p)) ∧
      t.cells p = { s.cells p with has_top_wall := false } ∧
      t.cells n = { s.cells n with has_bottom_wall := false } := by
  have hpn : p ≠ n := by
    intro he
    rw [he] at h
    have := congrArg Prod.fst h
    simp only at this
    omega
  have hnp : n ≠ p := fun he => hpn he.symm
  have hne1 : ¬ p.1 = n.1 := by
    rw [h]
    intro he
    simp only at he
    omega
  refine ⟨setCell (setCell s p fun c => { c with has_top_wall := false })
            n fun c => { c with has_bottom_wall := false }, ?_, rfl, rfl, ?_, ?_, ?_, ?_, ?_⟩
  · unfold break_walls_between
    rw [if_neg hne1, if_pos (by rw [h]), if_neg (by rw [h]; omega)]
  · intro x
    simp only [setCell_cells]
    split_ifs <;> simp_all
  · intro x hxp hxn
    simp only [setCell_cells, if_neg hxn, if_neg hxp]
  · refine openPair_update_v h ?_ ?_ ?_ ?_ <;> intro x <;>
      simp only [setCell_cells] <;> split_ifs <;> simp_all
  · simp [setCell_cells, hpn]
  · simp [setCell_cells, hnp]

/-- Consolidated effect of `_break_walls_between` on a grid neighbor:
success, preserved dimensions and visited flags, untouched other cells,
and exactly one new canonically oriented open pair {p, n}. -/
theorem break_neighbor_spec (s : MazeState) {p n : Pos}
    (hn : n ∈ get_neighbors s p.1 p.2) :
    ∃ t a b, break_walls_between s p n = .ok t ∧
      ((a = p ∧ b = n) ∨ (a = n ∧ b = p)) ∧
      (b = (a.1, a.2 + 1) ∨ b = (a.1 + 1, a.2)) ∧
      t.num_rows = s.num_rows ∧ t.num_cols = s.num_cols ∧
      (∀ x, (t.cells x).visited = (s.cells x).visited) ∧
      (∀ x, x ≠ p → x ≠ n → t.cells x = s.cells x) ∧
      (∀ x y, openPair t x y ↔ openPair s x y ∨ (x = a ∧ y = b)) := by
  rcases mem_get_neighbors.1 hn with ⟨hc, rfl⟩ | ⟨hc, rfl⟩ | ⟨hc, rfl⟩ | ⟨hc, rfl⟩
  · obtain ⟨t, h1, h2, h3, h4, h5, h6, -, -⟩ :=
      break_up_spec s (p := p) (n := (p.1 - 1, p.2))
        (Prod.ext_iff.2 ⟨by simp; omega, by simp⟩)
    exact ⟨t, (p.1 - 1, p.2), p, h1, Or.inr ⟨rfl, rfl⟩,
      Or.inr (Prod.ext_iff.2 ⟨by simp; omega, by simp⟩), h2, h3, h4, h5, h6⟩
  · obtain ⟨t, h1, h2, h3, h4, h5, h6, -, -⟩ :=
      break_left_spec s (p := p) (n := (p.1, p.2 - 1))
        (Prod.ext_iff.2 ⟨by simp, by simp; omega⟩)
    exact ⟨t, (p.1, p.2 - 1), p, h1, Or.inr ⟨rfl, rfl⟩,
      Or.inl (Prod.ext_iff.2 ⟨by simp, by simp; omega⟩), h2, h3, h4, h5, h6⟩
  · obtain ⟨t, h1, h2, h3, h4, h5, h6, -, -⟩ :=
      break_down_spec s (p := p) (n := (p.1 + 1, p.2)) rfl
    exact ⟨t, p, (p.1 + 1, p.2), h1, Or.inl ⟨rfl, rfl⟩, Or.inr rfl,
      h2, h3, h4, h5, h6⟩
  · obtain ⟨t, h1, h2, h3, h4, h5, h6, -, -⟩ :=
      break_right_spec s (p := p) (n := (p.1, p.2 + 1)) rfl
    exact ⟨t, p, (p.1, p.2 + 1), h1, Or.inl ⟨rfl, rfl⟩, Or.inl rfl,
      h2, h3, h4, h5, h6⟩

/-! ## Counting and graph support lemmas -/

theorem mem_posFinset {s : MazeState} {p : Pos} :
    p ∈ posFinset s ↔ validPos s p := by
  unfold posFinset validPos
  rw [Finset.mem_product, Finset.mem_range, Finset.mem_range]

theorem unvis_eq_of {s t : MazeState} (h1 : t.num_rows = s.num_rows)
    (h2 : t.num_cols = s.num_cols)
    (h3 : ∀ q, (t.cells q).visited = (s.cells q).visited) :
    unvis t = unvis s := by
  unfold unvis posFinset
  rw [h1, h2]
  congr 1
  apply Finset.filter_congr
  intro q _
  rw [h3]

theorem unvis_markVisited {s : MazeState} {p : Pos} (hv : validPos s p)
    (hun : (s.cells p).visited = false) :
    unvis (markVisited s p) + 1 = unvis s := by
  unfold unvis
  have hpos : posFinset (markVisited s p) = posFinset s := rfl
  rw [hpos]
  have hmem : p ∈ (posFinset s).filter fun q => (s.cells q).visited = false :=
    Finset.mem_filter.2 ⟨mem_posFinset.2 hv, hun⟩
  have hfe : ((posFinset s).filter fun q => ((markVisited s p).cells q).visited = false) =
      ((posFinset s).filter fun q => (s.cells q).visited = false).erase p := by
    ext q
    simp only [Finset.mem_filter, Finset.mem_erase, markVisited_cells]
    by_cases hq : q = p
    · subst hq; simp
    · simp [hq]
      try tauto
  rw [hfe, Finset.card_erase_of_mem hmem]
  have hone : 0 < ((posFinset s).filter fun q => (s.cells q).visited = false).card :=
    Finset.card_pos.2 ⟨p, hmem⟩
  omega

theorem unvis_le_of_mono {s t : MazeState} (h1 : t.num_rows = s.num_rows)
    (h2 : t.num_cols = s.num_cols)
    (h3 : ∀ q, (s.cells q).visited = true → (t.cells q).visited = true) :
    unvis t ≤ unvis s := by
  unfold unvis posFinset
  rw [h1, h2]
  apply Finset.card_le_card
  intro q hq
  rw [Finset.mem_filter] at hq ⊢
  refine ⟨hq.1, ?_⟩
  by_contra hne
  have hs : (s.cells q).visited = true := by
    cases hvv : (s.cells q).visited
    · exact absurd hvv hne
    · rfl
  rw [h3 q hs] at hq
  exact absurd hq.2 (by simp)

theorem unvis_pos_of_unvisited {s : MazeState} {p : Pos} (hv : validPos s p)
    (hun : (s.cells p).visited = false) : 1 ≤ unvis s :=
  Finset.card_pos.2 ⟨p, Finset.mem_filter.2 ⟨mem_posFinset.2 hv, hun⟩⟩

theorem brokenPairs_subset {s t : MazeState} (h1 : t.num_rows = s.num_rows)
    (h2 : t.num_cols = s.num_cols)
    (hmono : ∀ x y, openPair s x y → openPair t x y) :
    brokenPairs s ⊆ brokenPairs t := by
  intro e he
  unfold brokenPairs posFinset at he ⊢
  rw [h1, h2]
  rw [Finset.mem_filter] at he ⊢
  exact ⟨he.1, hmono e.1 e.2 he.2⟩

theorem brokenPairs_congr {s t : MazeState} (h1 : t.num_rows = s.num_rows)
    (h2 : t.num_cols = s.num_cols)
    (hiff : ∀ x y, openPair t x y ↔ openPair s x y) :
    brokenPairs t = brokenPairs s := by
  unfold brokenPairs posFinset
  rw [h1, h2]
  apply Finset.filter_congr
  intro e _
  exact hiff e.1 e.2

theorem brokenPairs_insert {s t : MazeState} {a b : Pos}
    (h1 : t.num_rows = s.num_rows) (h2 : t.num_cols = s.num_cols)
    (hav : validPos s a) (hbv : validPos s b)
    (hiff : ∀ x y, openPair t x y ↔ openPair s x y ∨ (x = a ∧ y = b))
    (hnot : ¬ openPair s a b) :
    (brokenPairs t).card = (brokenPairs s).card + 1 := by
  have hset : brokenPairs t = insert (a, b) (brokenPairs s) := by
    have hp : posFinset t = posFinset s := by unfold posFinset; rw [h1, h2]
    ext e
    unfold brokenPairs
    rw [hp]
    rw [Finset.mem_insert, Finset.mem_filter, Finset.mem_filter]
    constructor
    · intro ⟨hmem, hop⟩
      rcases (hiff e.1 e.2).1 hop with hop | ⟨he1, he2⟩
      · exact Or.inr ⟨hmem, hop⟩
      · left
        exact Prod.ext_iff.2 ⟨he1, he2⟩
    · intro h
      rcases h with rfl | ⟨hmem, hop⟩
      · exact ⟨Finset.mem_product.2 ⟨mem_posFinset.2 hav, mem_posFinset.2 hbv⟩,
          (hiff a b).2 (Or.inr ⟨rfl, rfl⟩)⟩
      · exact ⟨hmem, (hiff e.1 e.2).2 (Or.inl hop)⟩
  rw [hset]
  rw [Finset.card_insert_of_not_mem]
  intro hmem
  rw [brokenPairs, Finset.mem_filter] at hmem
  exact hnot hmem.2

theorem openPair_congr_walls {s t : MazeState}
    (hL : ∀ q, (t.cells q).has_left_wall = (s.cells q).has_left_wall)
    (hT : ∀ q, (t.cells q).has_top_wall = (s.cells q).has_top_wall)
    (hR : ∀ q, (t.cells q).has_right_wall = (s.cells q).has_right_wall)
    (hB : ∀ q, (t.cells q).has_bottom_wall = (s.cells q).has_bottom_wall)
    (x y : Pos) : openPair t x y ↔ openPair s x y := by
  unfold openPair
  rw [hL, hT, hR, hB]

theorem markVisited_walls (s : MazeState) (p : Pos) :
    (∀ q, ((markVisited s p).cells q).has_left_wall = (s.cells q).has_left_wall) ∧
    (∀ q, ((markVisited s p).cells q).has_top_wall = (s.cells q).has_top_wall) ∧
    (∀ q, ((markVisited s p).cells q).has_right_wall = (s.cells q).has_right_wall) ∧
    (∀ q, ((markVisited s p).cells q).has_bottom_wall = (s.cells q).has_bottom_wall) := by
  refine ⟨?_, ?_, ?_, ?_⟩ <;> intro q <;> rw [markVisited_cells] <;>
    split_ifs with hq <;> first | rfl | (subst hq; rfl)

theorem openPair_markVisited (s : MazeState) (p : Pos) (x y : Pos) :
    openPair (markVisited s p) x y ↔ openPair s x y := by
  obtain ⟨hL, hT, hR, hB⟩ := markVisited_walls s p
  exact openPair_congr_walls hL hT hR hB x y

theorem mazeGraph_markVisited (s : MazeState) (p : Pos) :
    mazeGraph (markVisited s p) = mazeGraph s := by
  apply SimpleGraph.ext
  ext a b
  show openPair (markVisited s p) a b ∨ openPair (markVisited s p) b a ↔ _
  rw [openPair_markVisited, openPair_markVisited]
  rfl

theorem mazeGraph_le_of_mono {s t : MazeState}
    (hmono : ∀ x y, openPair s x y → openPair t x y) :
    mazeGraph s ≤ mazeGraph t := by
  intro a b hab
  rcases hab with h | h
  · exact Or.inl (hmono a b h)
  · exact Or.inr (hmono b a h)

theorem isolated_of_unvisited {t : MazeState} {n : Pos}
    (hoov : openOnlyVisited t) (hun : (t.cells n).visited = false) :
    ∀ x, ¬ (mazeGraph t).Adj n x := by
  intro x hadj
  rcases hadj with h | h
  · have := (hoov n x h).1
    rw [hun] at this
    exact absurd this (by simp)
  · have := (hoov x n h).2
    rw [hun] at this
    exact absurd this (by simp)

/-! ## Adding a pendant edge preserves acyclicity -/

theorem exists_last_edge {V : Type} [DecidableEq V] {G : SimpleGraph V} :
    ∀ {u v : V} (q : G.Walk u v), u ≠ v →
      ∃ w, G.Adj w v ∧ s(w, v) ∈ q.edges := by
  intro u v q
  induction q with
  | nil => intro h; exact absurd rfl h
  | @cons x m v h q ih =>
    intro _
    by_cases hmv : m = v
    · subst hmv
      exact ⟨x, h, by simp⟩
    · obtain ⟨w, hw, hm⟩ := ih hmv
      exact ⟨w, hw, by simp [hm]⟩

theorem isAcyclic_add_pendant {V : Type} [DecidableEq V] {G G' : SimpleGraph V} {p n : V}
    (hpn : p ≠ n) (hG : G.IsAcyclic) (hiso : ∀ x, ¬ G.Adj n x)
    (hadj : ∀ a b, G'.Adj a b ↔ G.Adj a b ∨ (a = p ∧ b = n) ∨ (a = n ∧ b = p)) :
    G'.IsAcyclic := by
  intro v c hc
  by_cases hns : n ∈ c.support
  · have hc' := hc.rotate hns
    cases hcc : c.rotate hns with
    | nil =>
      rw [hcc] at hc'
      exact hc'.ne_nil rfl
    | @cons _ x _ h q =>
      rw [hcc] at hc'
      have hx : x = p := by
        rcases (hadj n x).1 h with hg | ⟨hnp, _⟩ | ⟨_, hxp⟩
        · exact absurd hg (hiso x)
        · exact absurd hnp.symm hpn
        · exact hxp
      obtain ⟨w, hw, hmem⟩ := exists_last_edge q (fun he => hpn (hx.symm.trans he))
      have hwp : w = p := by
        rcases (hadj w n).1 hw with hg | ⟨hwp, _⟩ | ⟨hwn, hnp⟩
        · exact absurd hg.symm (hiso w)
        · exact hwp
        · exact absurd hnp.symm hpn
      have htrail := hc'.isCircuit.isTrail
      have hnodup := htrail.edges_nodup
      rw [SimpleGraph.Walk.edges_cons] at hnodup
      rw [List.nodup_cons] at hnodup
      apply hnodup.1
      rw [hwp] at hmem
      have hswap : s(n, x) = s(p, n) := by rw [hx, Sym2.eq_swap]
      rw [hswap]
      exact hmem
  · have hsub : ∀ e ∈ c.edges, e ∈ G.edgeSet := by
      intro e he
      induction e using Sym2.ind with
      | _ a b =>
        have hadj' : G'.Adj a b := c.adj_of_mem_edges he
        rcases (hadj a b).1 hadj' with hg | ⟨_, hbn⟩ | ⟨han, _⟩
        · exact hg
        · exact absurd (hbn ▸ SimpleGraph.Walk.snd_mem_support_of_mem_edges c he) hns
        · exact absurd (han ▸ SimpleGraph.Walk.fst_mem_support_of_mem_edges c he) hns
    exact hG (c.transfer G hsub) (hc.transfer hsub)

theorem mazeGraph_adj (s : MazeState) (a b : Pos) :
    (mazeGraph s).Adj a b ↔ openPair s a b ∨ openPair s b a := Iff.rfl

theorem beq_false_of_not {b : Bool} (h : ¬ b = true) : b = false := by
  cases b
  · rfl
  · exact absurd rfl h

/-! ## The carve loop: one induction step over the shuffled neighbors -/

theorem carve_loop (σ : Pos → List Pos → List Pos) (fuel : Nat)
    (hIH : ∀ s p, validPos s p → (s.cells p).visited = false →
      2 ≤ s.num_rows * s.num_cols → wallsIntactOutside s →
      openOnlyVisitedExcept s p → (mazeGraph s).IsAcyclic →
      unvis (markVisited s p) < fuel →
      ∃ s', break_walls_r σ fuel s p = .ok s' ∧ CarvePost s p s') :
    ∀ (l : List Pos) (t : MazeState) (p : Pos),
      (∀ n ∈ l, n ∈ get_neighbors t p.1 p.2) →
      validPos t p → (t.cells p).visited = true →
      2 ≤ t.num_rows * t.num_cols → wallsIntactOutside t →
      openOnlyVisited t → (mazeGraph t).IsAcyclic →
      unvis t ≤ fuel →
      ∃ t', carveList σ fuel p (.ok t) l = .ok t' ∧ CarveLoopPost t p l t' := by
  intro l
  induction l with
  | nil =>
    intro t p _ _ _ _ hoor hoov hacy _
    refine ⟨t, rfl, ?_⟩
    exact { rows_eq := rfl, cols_eq := rfl, vis_mono := fun _ h => h,
            new_valid := fun _ h => Or.inl h, wall_mono := fun _ _ h => h,
            oor := hoor, oov := hoov, acyclic := hacy, conserve := rfl,
            reach := fun q h1 h2 => absurd h1 (by rw [h2]; simp),
            closed := fun q h1 h2 => absurd h1 (by rw [h2]; simp),
            cover := fun n hn => absurd hn (List.not_mem_nil n) }
  | cons n rest ih =>
    intro t p hl hvp hvisp h2 hoor hoov hacy hfuel
    by_cases hv : (t.cells n).visited
    · -- neighbor already visited: the loop body is a no-op
      have hstep : (match (Except.ok t : Except String MazeState) with
          | .error e => .error e
          | .ok t =>
            if (t.cells n).visited then .ok t
            else
              match break_walls_between t p n with
              | .error e => .error e
              | .ok t2 => break_walls_r σ fuel t2 n) = Except.ok t := by
        show (if (t.cells n).visited then (Except.ok t : Except String MazeState)
          else
            match break_walls_between t p n with
            | .error e => .error e
            | .ok t2 => break_walls_r σ fuel t2 n) = Except.ok t
        rw [if_pos hv]
      obtain ⟨t', heq, hlp⟩ := ih t p (fun m hm => hl m (List.mem_cons_of_mem n hm))
        hvp hvisp h2 hoor hoov hacy hfuel
      refine ⟨t', ?_, ?_⟩
      · rw [carveList_cons, hstep]
        exact heq
      · exact { rows_eq := hlp.rows_eq, cols_eq := hlp.cols_eq,
                vis_mono := hlp.vis_mono, new_valid := hlp.new_valid,
                wall_mono := hlp.wall_mono, oor := hlp.oor, oov := hlp.oov,
                acyclic := hlp.acyclic, conserve := hlp.conserve,
                reach := hlp.reach, closed := hlp.closed,
                cover := by
                  intro m hm
                  rcases List.mem_cons.1 hm with rfl | hm
                  · exact hlp.vis_mono m hv
                  · exact hlp.cover m hm }
    · -- neighbor unvisited: break the wall pair and recurse into it
      have hvf : (t.cells n).visited = false := beq_false_of_not hv
      have hnmem : n ∈ get_neighbors t p.1 p.2 := hl n (List.mem_cons_self n rest)
      have hvn : validPos t n := get_neighbors_validPos hnmem hvp.1 hvp.2
      have hnp : n ≠ p := get_neighbors_ne hnmem
      obtain ⟨t2, a, b, hbreak, hab, hcanon, hr2, hc2, hvis2, hcells2, hiff2⟩ :=
        break_neighbor_spec t hnmem
      -- hypotheses of the recursive carve from n
      have hv2n : validPos t2 n := ⟨by rw [hr2]; exact hvn.1, by rw [hc2]; exact hvn.2⟩
      have hun2 : (t2.cells n).visited = false := by rw [hvis2]; exact hvf
      have h22 : 2 ≤ t2.num_rows * t2.num_cols := by rw [hr2, hc2]; exact h2
      have hoor2 : wallsIntactOutside t2 := by
        intro x hx
        have hxt : ¬ validPos t x := by
          intro hvt
          exact hx ⟨by rw [hr2]; exact hvt.1, by rw [hc2]; exact hvt.2⟩
        have hxp : x ≠ p := fun he => hxt (he ▸ hvp)
        have hxn : x ≠ n := fun he => hxt (he ▸ hvn)
        rw [hcells2 x hxp hxn]
        exact hoor x hxt
      have hoove2 : openOnlyVisitedExcept t2 n := by
        intro x y hxy
        rcases (hiff2 x y).1 hxy with hxy | ⟨hxa, hyb⟩
        · obtain ⟨hx1, hy1⟩ := hoov x y hxy
          exact ⟨Or.inl (by rw [hvis2]; exact hx1), Or.inl (by rw [hvis2]; exact hy1)⟩
        · subst hxa; subst hyb
          rcases hab with ⟨rfl, rfl⟩ | ⟨rfl, rfl⟩
          · exact ⟨Or.inl (by rw [hvis2]; exact hvisp), Or.inr rfl⟩
          · exact ⟨Or.inr rfl, Or.inl (by rw [hvis2]; exact hvisp)⟩
      have hadj2 : ∀ x y, (mazeGraph t2).Adj x y ↔
          (mazeGraph t).Adj x y ∨ (x = p ∧ y = n) ∨ (x = n ∧ y = p) := by
        intro x y
        rw [mazeGraph_adj, mazeGraph_adj, hiff2, hiff2]
        rcases hab with ⟨rfl, rfl⟩ | ⟨rfl, rfl⟩ <;> tauto
      have hacy2 : (mazeGraph t2).IsAcyclic :=
        isAcyclic_add_pendant (fun he => hnp he.symm) hacy
          (isolated_of_unvisited hoov hvf) hadj2
      have hu2 : unvis t2 = unvis t := unvis_eq_of hr2 hc2 hvis2
      have humark : unvis (markVisited t2 n) + 1 = unvis t2 := unvis_markVisited hv2n hun2
      have hu1 : 1 ≤ unvis t := unvis_pos_of_unvisited hvn hvf
      have hfuel2 : unvis (markVisited t2 n) < fuel := by omega
      obtain ⟨s'', hcarve, hcp⟩ := hIH t2 n hv2n hun2 h22 hoor2 hoove2 hacy2 hfuel2
      -- the new pair was closed before the break, so the count went up by one
      have hvalid_ab : validPos t a ∧ validPos t b := by
        rcases hab with ⟨rfl, rfl⟩ | ⟨rfl, rfl⟩
        · exact ⟨hvp, hvn⟩
        · exact ⟨hvn, hvp⟩
      have hnotopen : ¬ openPair t a b := by
        intro hop
        obtain ⟨ha1, hb1⟩ := hoov a b hop
        rcases hab with ⟨rfl, rfl⟩ | ⟨rfl, rfl⟩
        · rw [hvf] at hb1; exact absurd hb1 (by simp)
        · rw [hvf] at ha1; exact absurd ha1 (by simp)
      have hB2 : (brokenPairs t2).card = (brokenPairs t).card + 1 :=
        brokenPairs_insert hr2 hc2 hvalid_ab.1 hvalid_ab.2 hiff2 hnotopen
      -- dims chained to s''
      have hdr : s''.num_rows = t.num_rows := by rw [hcp.rows_eq, hr2]
      have hdc : s''.num_cols = t.num_cols := by rw [hcp.cols_eq, hc2]
      -- run the rest of the loop from s''
      have hbm : (brokenPairs t2).card ≤ (brokenPairs s'').card :=
        Finset.card_le_card (brokenPairs_subset hcp.rows_eq hcp.cols_eq hcp.wall_mono)
      obtain ⟨t', hloop, hlp⟩ := ih s'' p
        (by
          intro m hm
          rw [get_neighbors_congr hdr hdc]
          exact hl m (List.mem_cons_of_mem n hm))
        ⟨by rw [hdr]; exact hvp.1, by rw [hdc]; exact hvp.2⟩
        (hcp.vis_mono p (by rw [hvis2]; exact hvisp))
        (by rw [hdr, hdc]; exact h2)
        hcp.oor hcp.oov hcp.acyclic
        (by
          have hcon := hcp.conserve
          omega)
      -- assemble the run of the whole loop body
      have hstep : (match (Except.ok t : Except String MazeState) with
          | .error e => .error e
          | .ok t =>
            if (t.cells n).visited then .ok t
            else
              match break_walls_between t p n with
              | .error e => .error e
              | .ok t2 => break_walls_r σ fuel t2 n) = break_walls_r σ fuel t2 n := by
        show (if (t.cells n).visited then (Except.ok t : Except String MazeState)
          else
            match break_walls_between t p n with
            | .error e => .error e
            | .ok t2 => break_walls_r σ fuel t2 n) = break_walls_r σ fuel t2 n
        rw [if_neg hv, hbreak]
      have hdr' : t'.num_rows = t.num_rows := by rw [hlp.rows_eq, hdr]
      have hdc' : t'.num_cols = t.num_cols := by rw [hlp.cols_eq, hdc]
      refine ⟨t', ?_, ?_⟩
      · rw [carveList_cons, hstep, hcarve]
        exact hloop
      · refine ⟨hdr', hdc', ?_, ?_, ?_, hlp.oor, hlp.oov, hlp.acyclic, ?_, ?_, ?_, ?_⟩
        · intro q hq
          exact hlp.vis_mono q (hcp.vis_mono q (by rw [hvis2]; exact hq))
        · intro q hq
          rcases hlp.new_valid q hq with hq' | hval
          · rcases hcp.new_valid q hq' with hq2 | hval2
            · exact Or.inl (by rw [← hvis2]; exact hq2)
            · exact Or.inr ⟨by rw [← hr2]; exact hval2.1, by rw [← hc2]; exact hval2.2⟩
          · exact Or.inr ⟨by rw [← hdr]; exact hval.1, by rw [← hdc]; exact hval.2⟩
        · intro x y hxy
          exact hlp.wall_mono x y (hcp.wall_mono x y ((hiff2 x y).2 (Or.inl hxy)))
        · have e1 := hlp.conserve
          have e2 := hcp.conserve
          omega
        · intro q hq hqt
          by_cases hq'' : (s''.cells q).visited = true
          · have hq2 : (t2.cells q).visited = false := by rw [hvis2]; exact hqt
            have hre : (mazeGraph s'').Reachable q n := hcp.reach q hq'' hq2
            have hopen : openPair s'' a b :=
              hcp.wall_mono a b ((hiff2 a b).2 (Or.inr ⟨rfl, rfl⟩))
            have hnp2 : (mazeGraph s'').Reachable n p := by
              rcases hab with ⟨rfl, rfl⟩ | ⟨rfl, rfl⟩
              · exact SimpleGraph.Adj.reachable (Or.inr hopen)
              · exact SimpleGraph.Adj.reachable (Or.inl hopen)
            exact (hre.trans hnp2).mono (mazeGraph_le_of_mono hlp.wall_mono)
          · exact hlp.reach q hq (beq_false_of_not hq'')
        · intro q hq hqt
          by_cases hq'' : (s''.cells q).visited = true
          · have hq2 : (t2.cells q).visited = false := by rw [hvis2]; exact hqt
            intro m hm
            have hgn : get_neighbors t' q.1 q.2 = get_neighbors s'' q.1 q.2 :=
              get_neighbors_congr (by rw [hlp.rows_eq]) (by rw [hlp.cols_eq]) q.1 q.2
            rw [hgn] at hm
            exact hlp.vis_mono m (hcp.closed q hq'' hq2 m hm)
          · exact hlp.closed q hq (beq_false_of_not hq'')
        · intro m hm
          rcases List.mem_cons.1 hm with rfl | hm
          · exact hlp.vis_mono m hcp.start_vis
          · exact hlp.cover m hm

/-- Main invariant theorem for `_break_walls_r`: called on an unvisited
in-grid cell of a grid with at least two cells, with intact outside
walls, all open pairs between visited cells (the entered cell exempt),
an acyclic carved graph, and sufficient fuel, it succeeds and satisfies
`CarvePost`. -/
theorem carve_main (σ : Pos → List Pos → List Pos)
    (hσ : ∀ p l, (σ p l).Perm l) :
    ∀ (fuel : Nat) (s : MazeState) (p : Pos),
      validPos s p → (s.cells p).visited = false →
      2 ≤ s.num_rows * s.num_cols → wallsIntactOutside s →
      openOnlyVisitedExcept s p → (mazeGraph s).IsAcyclic →
      unvis (markVisited s p) < fuel →
      ∃ s', break_walls_r σ fuel s p = .ok s' ∧ CarvePost s p s' := by
  intro fuel
  induction fuel with
  | zero =>
    intro s p _ _ _ _ _ _ hf
    omega
  | succ fuel ih =>
    intro s p hvp hun h2 hoor hoove hacy hfuel
    rw [break_walls_r_succ]
    have hne : get_neighbors (markVisited s p) p.1 p.2 ≠ [] := by
      apply get_neighbors_ne_nil (s := markVisited s p)
      · exact hvp.1
      · exact hvp.2
      · exact h2
    have hsne : (σ p (get_neighbors (markVisited s p) p.1 p.2)).isEmpty = false := by
      cases hsl : σ p (get_neighbors (markVisited s p) p.1 p.2) with
      | nil =>
        have hperm := hσ p (get_neighbors (markVisited s p) p.1 p.2)
        rw [hsl] at hperm
        exact absurd hperm.symm.eq_nil hne
      | cons a l' => rfl
    rw [hsne]
    rw [if_neg (by simp)]
    have hvist0 : ((markVisited s p).cells p).visited = true := by
      rw [markVisited_cells, if_pos rfl]
    obtain ⟨t', hloop, hlp⟩ := carve_loop σ fuel ih
      (σ p (get_neighbors (markVisited s p) p.1 p.2)) (markVisited s p) p
      (fun n hn => (hσ p (get_neighbors (markVisited s p) p.1 p.2)).mem_iff.1 hn)
      hvp hvist0 h2
      (by
        intro x hx
        have hxp : x ≠ p := fun he => hx (he ▸ hvp)
        rw [markVisited_cells, if_neg hxp]
        exact hoor x hx)
      (by
        intro x y hxy
        rw [openPair_markVisited] at hxy
        obtain ⟨h1, h2'⟩ := hoove x y hxy
        constructor
        · rcases h1 with h1 | rfl
          · rw [markVisited_cells]
            split_ifs
            · rfl
            · exact h1
          · rw [markVisited_cells, if_pos rfl]
        · rcases h2' with h2' | rfl
          · rw [markVisited_cells]
            split_ifs
            · rfl
            · exact h2'
          · rw [markVisited_cells, if_pos rfl])
      (by rw [mazeGraph_markVisited]; exact hacy)
      (by omega)
    refine ⟨t', hloop, ?_⟩
    have hB0 : brokenPairs (markVisited s p) = brokenPairs s :=
      brokenPairs_congr rfl rfl (fun x y => openPair_markVisited s p x y)
    have hU0 : unvis (markVisited s p) + 1 = unvis s := unvis_markVisited hvp hun
    refine ⟨hlp.rows_eq, hlp.cols_eq, ?_, ?_, ?_, ?_, hlp.oor, hlp.oov, hlp.acyclic,
      ?_, ?_, ?_⟩
    · intro q hq
      apply hlp.vis_mono
      rw [markVisited_cells]
      split_ifs
      · rfl
      · exact hq
    · exact hlp.vis_mono p hvist0
    · intro q hq
      rcases hlp.new_valid q hq with hq0 | hval
      · rw [markVisited_cells] at hq0
        by_cases hqp : q = p
        · exact Or.inr (hqp ▸ hvp)
        · rw [if_neg hqp] at hq0
          exact Or.inl hq0
      · exact Or.inr hval
    · intro x y hxy
      exact hlp.wall_mono x y ((openPair_markVisited s p x y).2 hxy)
    · have e1 := hlp.conserve
      rw [hB0] at e1
      omega
    · intro q hq hqs
      by_cases hqp : q = p
      · subst hqp
        exact SimpleGraph.Reachable.refl q
      · apply hlp.reach q hq
        rw [markVisited_cells, if_neg hqp]
        exact hqs
    · intro q hq hqs
      by_cases hqp : q = p
      · subst hqp
        intro m hm
        apply hlp.cover
        apply (hσ q (get_neighbors (markVisited s q) q.1 q.2)).mem_iff.2
        rw [get_neighbors_congr hlp.rows_eq hlp.cols_eq q.1 q.2] at hm
        exact hm
      · intro m hm
        apply hlp.closed q hq
        · rw [markVisited_cells, if_neg hqp]
          exact hqs
        · exact hm

/-! ## The state after entrance/exit breaking on a fresh grid -/

theorem break_entrance_visited (s : MazeState) (q : Pos) :
    ((break_entrance_and_exit s).cells q).visited = (s.cells q).visited := by
  unfold break_entrance_and_exit
  simp only [setCell_cells]
  split_ifs <;> simp_all

theorem break_entrance_dims (s : MazeState) :
    (break_entrance_and_exit s).num_rows = s.num_rows ∧
    (break_entrance_and_exit s).num_cols = s.num_cols := ⟨rfl, rfl⟩

theorem initial_left_flag (x1 y1 : Int) (r c : Nat) (a b : Int) (q : Pos) :
    ((break_entrance_and_exit (mkMaze x1 y1 r c a b)).cells q).has_left_wall = false →
      q = (0, 0) := by
  unfold break_entrance_and_exit
  simp only [setCell_cells]
  split_ifs <;> intro hw <;> simp_all [mkMaze, createCell]

theorem initial_top_flag (x1 y1 : Int) (r c : Nat) (a b : Int) (q : Pos) :
    ((break_entrance_and_exit (mkMaze x1 y1 r c a b)).cells q).has_top_wall = false →
      q = (0, 0) := by
  unfold break_entrance_and_exit
  simp only [setCell_cells]
  split_ifs <;> intro hw <;> simp_all [mkMaze, createCell]

/-- On a fresh grid with entrance and exit broken, no interior wall pair
is open. -/
theorem initial_no_openPair (x1 y1 : Int) (r c : Nat) (a b : Int) :
    ∀ p q : Pos, ¬ openPair (break_entrance_and_exit (mkMaze x1 y1 r c a b)) p q := by
  intro p q hop
  rcases hop with ⟨hq, _, hw2⟩ | ⟨hq, _, hw2⟩
  · have := initial_left_flag x1 y1 r c a b q hw2
    rw [this] at hq
    have := congrArg Prod.snd hq
    simp only at this
    omega
  · have := initial_top_flag x1 y1 r c a b q hw2
    rw [this] at hq
    have := congrArg Prod.fst hq
    simp only at this
    omega

theorem isAcyclic_of_no_adj {G : SimpleGraph Pos} (h : ∀ a b, ¬ G.Adj a b) :
    G.IsAcyclic := by
  intro v c hc
  cases c with
  | nil => exact hc.ne_nil rfl
  | cons hadj q => exact h _ _ hadj

theorem brokenPairs_empty_of_no_openPair {s : MazeState}
    (h : ∀ p q : Pos, ¬ openPair s p q) : brokenPairs s = ∅ := by
  apply Finset.filter_false_of_mem
  intro e _
  exact h e.1 e.2

theorem unvis_all_unvisited {s : MazeState}
    (h : ∀ q : Pos, (s.cells q).visited = false) :
    unvis s = s.num_rows * s.num_cols := by
  unfold unvis
  have : (posFinset s).filter (fun q => (s.cells q).visited = false) = posFinset s :=
    Finset.filter_true_of_mem (fun q _ => h q)
  rw [this]
  unfold posFinset
  rw [Finset.card_product, Finset.card_range, Finset.card_range]

theorem unvis_zero_of_all_visited {s : MazeState}
    (h : ∀ q : Pos, validPos s q → (s.cells q).visited = true) :
    unvis s = 0 := by
  unfold unvis
  rw [Finset.card_eq_zero]
  apply Finset.filter_false_of_mem
  intro q hq hfalse
  rw [h q (mem_posFinset.1 hq)] at hfalse
  exact absurd hfalse (by simp)

/-- After a completed carve from (0,0) on an everywhere-unvisited grid,
every in-grid cell is visited (the carved region is neighbor-closed and
the grid graph is connected). -/
theorem carve_all_visited {s0 s' : MazeState} (hp : CarvePost s0 (0, 0) s')
    (hall : ∀ q : Pos, (s0.cells q).visited = false) :
    ∀ q : Pos, validPos s0 q → (s'.cells q).visited = true := by
  have main : ∀ k, ∀ q : Pos, q.1 + q.2 = k → validPos s0 q →
      (s'.cells q).visited = true := by
    intro k
    induction k using Nat.strong_induction_on with
    | _ k ihk =>
      intro q hsum hval
      obtain ⟨hv1, hv2⟩ := hval
      by_cases h0 : q = (0, 0)
      · subst h0
        exact hp.start_vis
      · have hpos : 0 < q.1 ∨ 0 < q.2 := by
          by_contra hcon
          push_neg at hcon
          exact h0 (Prod.ext_iff.2 ⟨by omega, by omega⟩)
        rcases hpos with h1 | h1
        · have hprval : validPos s0 (q.1 - 1, q.2) := ⟨by omega, hv2⟩
          have hprvis : (s'.cells (q.1 - 1, q.2)).visited = true :=
            ihk (q.1 - 1 + q.2) (by omega) (q.1 - 1, q.2) rfl hprval
          have hmem : q ∈ get_neighbors s' (q.1 - 1) q.2 := by
            apply mem_get_neighbors.2
            refine Or.inr (Or.inr (Or.inl ⟨?_, ?_⟩))
            · rw [hp.rows_eq]
              omega
            · exact Prod.ext_iff.2 ⟨by omega, rfl⟩
          exact hp.closed (q.1 - 1, q.2) hprvis (hall (q.1 - 1, q.2)) q hmem
        · have hprval : validPos s0 (q.1, q.2 - 1) := ⟨hv1, by omega⟩
          have hprvis : (s'.cells (q.1, q.2 - 1)).visited = true :=
            ihk (q.1 + (q.2 - 1)) (by omega) (q.1, q.2 - 1) rfl hprval
          have hmem : q ∈ get_neighbors s' q.1 (q.2 - 1) := by
            apply mem_get_neighbors.2
            refine Or.inr (Or.inr (Or.inr ⟨?_, ?_⟩))
            · rw [hp.cols_eq]
              omega
            · exact Prod.ext_iff.2 ⟨rfl, by omega⟩
          exact hp.closed (q.1, q.2 - 1) hprvis (hall (q.1, q.2 - 1)) q hmem
  intro q
  exact main (q.1 + q.2) q rfl

/-! ## Resetting visited flags preserves walls -/

theorem reset_cells (s : MazeState) (q : Pos) :
    (reset_cells_visited s).cells q =
      if q.1 < s.num_rows ∧ q.2 < s.num_cols then { s.cells q with visited := false }
      else s.cells q := rfl

theorem reset_walls (s : MazeState) :
    (∀ q, ((reset_cells_visited s).cells q).has_left_wall = (s.cells q).has_left_wall) ∧
    (∀ q, ((reset_cells_visited s).cells q).has_top_wall = (s.cells q).has_top_wall) ∧
    (∀ q, ((reset_cells_visited s).cells q).has_right_wall = (s.cells q).has_right_wall) ∧
    (∀ q, ((reset_cells_visited s).cells q).has_bottom_wall = (s.cells q).has_bottom_wall) := by
  refine ⟨?_, ?_, ?_, ?_⟩ <;> intro q <;> rw [reset_cells] <;> split_ifs <;> rfl

theorem reset_dims (s : MazeState) :
    (reset_cells_visited s).num_rows = s.num_rows ∧
    (reset_cells_visited s).num_cols = s.num_cols := ⟨rfl, rfl⟩

theorem openPair_reset (s : MazeState) (x y : Pos) :
    openPair (reset_cells_visited s) x y ↔ openPair s x y := by
  obtain ⟨hL, hT, hR, hB⟩ := reset_walls s
  exact openPair_congr_walls hL hT hR hB x y

theorem mazeGraph_reset (s : MazeState) :
    mazeGraph (reset_cells_visited s) = mazeGraph s := by
  apply SimpleGraph.ext
  ext a b
  rw [mazeGraph_adj, mazeGraph_adj, openPair_reset, openPair_reset]

theorem brokenPairs_reset (s : MazeState) :
    brokenPairs (reset_cells_visited s) = brokenPairs s :=
  brokenPairs_congr rfl rfl (fun x y => openPair_reset s x y)

theorem reset_visited_false (s : MazeState) (q : Pos)
    (hq : validPos (reset_cells_visited s) q) :
    ((reset_cells_visited s).cells q).visited = false := by
  rw [reset_cells, if_pos ⟨hq.1, hq.2⟩]

theorem break_entrance_cells_other (s : MazeState) (q : Pos) (h0 : q ≠ (0, 0))
    (hx : q ≠ (s.num_rows - 1, s.num_cols - 1)) :
    (break_entrance_and_exit s).cells q = s.cells q := by
  unfold break_entrance_and_exit
  simp only [setCell_cells]
  split_ifs <;> simp_all

/-! ## C1: generation carves a spanning tree (amended to grids with at
least two cells; a 1×1 grid crashes the generator, see C7) -/

/-- C1 (amended): for every grid with rows ≥ 1, cols ≥ 1 and at least
two cells, and every shuffle outcome, generation succeeds and the broken
interior wall pairs form a spanning tree of the grid graph: exactly
rows*cols - 1 wall pairs are broken, every pair of in-grid cells is
connected in the carved graph, the carved graph is acyclic, and exactly
one simple path exists between any two cells. -/
theorem claim_C1_spanning_tree (x1 y1 : Int) (r c : Nat) (csx csy : Int)
    (σ : Pos → List Pos → List Pos) (hσ : ∀ p l, (σ p l).Perm l)
    (hr : 1 ≤ r) (hc : 1 ≤ c) (h2 : 2 ≤ r * c) :
    ∃ s', generate σ (mkMaze x1 y1 r c csx csy) = .ok s' ∧
      (brokenPairs s').card + 1 = r * c ∧
      (∀ a b : Pos, validPos s' a → validPos s' b → (mazeGraph s').Reachable a b) ∧
      (mazeGraph s').IsAcyclic ∧
      (∀ a b : Pos, validPos s' a → validPos s' b →
        ∃! w : (mazeGraph s').Walk a b, w.IsPath) := by
  have hall0 : ∀ q : Pos,
      ((break_entrance_and_exit (mkMaze x1 y1 r c csx csy)).cells q).visited = false := by
    intro q
    rw [break_entrance_visited]
    rfl
  have hnoop := initial_no_openPair x1 y1 r c csx csy
  have hbp0 : brokenPairs (break_entrance_and_exit (mkMaze x1 y1 r c csx csy)) = ∅ :=
    brokenPairs_empty_of_no_openPair hnoop
  have hu0 : unvis (break_entrance_and_exit (mkMaze x1 y1 r c csx csy)) = r * c := by
    rw [unvis_all_unvisited hall0]
    rfl
  have hvp : validPos (break_entrance_and_exit (mkMaze x1 y1 r c csx csy)) (0, 0) :=
    ⟨hr, hc⟩
  have hacy0 : (mazeGraph (break_entrance_and_exit (mkMaze x1 y1 r c csx csy))).IsAcyclic := by
    apply isAcyclic_of_no_adj
    intro a b hadj
    rcases hadj with h | h
    · exact hnoop _ _ h
    · exact hnoop _ _ h
  have hoove0 : openOnlyVisitedExcept (break_entrance_and_exit (mkMaze x1 y1 r c csx csy))
      (0, 0) := fun a b hop => absurd hop (hnoop a b)
  have hoor0 : wallsIntactOutside (break_entrance_and_exit (mkMaze x1 y1 r c csx csy)) := by
    intro x hx
    have h0 : x ≠ (0, 0) := fun he => hx (he ▸ hvp)
    have hexv : validPos (break_entrance_and_exit (mkMaze x1 y1 r c csx csy))
        ((mkMaze x1 y1 r c csx csy).num_rows - 1, (mkMaze x1 y1 r c csx csy).num_cols - 1) :=
      ⟨show r - 1 < r by omega, show c - 1 < c by omega⟩
    have hex : x ≠ ((mkMaze x1 y1 r c csx csy).num_rows - 1,
        (mkMaze x1 y1 r c csx csy).num_cols - 1) := fun he => hx (he ▸ hexv)
    rw [break_entrance_cells_other _ _ h0 hex]
    exact ⟨rfl, rfl, rfl, rfl⟩
  have hfuel : unvis (markVisited (break_entrance_and_exit (mkMaze x1 y1 r c csx csy))
      (0, 0)) < r * c := by
    have := unvis_markVisited hvp (hall0 (0, 0))
    omega
  obtain ⟨s'', hcarve, hcp⟩ := carve_main σ hσ (r * c)
    (break_entrance_and_exit (mkMaze x1 y1 r c csx csy)) (0, 0)
    hvp (hall0 (0, 0)) h2 hoor0 hoove0 hacy0 hfuel
  have hgen : generate σ (mkMaze x1 y1 r c csx csy) = .ok (reset_cells_visited s'') := by
    unfold generate
    rw [show break_walls_r σ
        ((mkMaze x1 y1 r c csx csy).num_rows * (mkMaze x1 y1 r c csx csy).num_cols)
        (break_entrance_and_exit (mkMaze x1 y1 r c csx csy)) (0, 0) = .ok s'' from hcarve]
  have hallvis : ∀ q : Pos, validPos (break_entrance_and_exit (mkMaze x1 y1 r c csx csy)) q →
      (s''.cells q).visited = true := carve_all_visited hcp hall0
  have hvalid_tr : ∀ z : Pos, validPos (reset_cells_visited s'') z →
      validPos (break_entrance_and_exit (mkMaze x1 y1 r c csx csy)) z := by
    intro z hz
    refine ⟨?_, ?_⟩
    · have h := hz.1
      rw [show (reset_cells_visited s'').num_rows = s''.num_rows from rfl,
        hcp.rows_eq] at h
      exact h
    · have h := hz.2
      rw [show (reset_cells_visited s'').num_cols = s''.num_cols from rfl,
        hcp.cols_eq] at h
      exact h
  have hu'' : unvis s'' = 0 := by
    apply unvis_zero_of_all_visited
    intro q hq
    apply hallvis
    exact ⟨by rw [← hcp.rows_eq]; exact hq.1, by rw [← hcp.cols_eq]; exact hq.2⟩
  have hcount : (brokenPairs s'').card + 1 = r * c := by
    have hcon := hcp.conserve
    rw [hbp0] at hcon
    rw [Finset.card_empty] at hcon
    omega
  have hreach'' : ∀ z : Pos, validPos (reset_cells_visited s'') z →
      (mazeGraph s'').Reachable z (0, 0) := by
    intro z hz
    by_cases h0 : z = (0, 0)
    · subst h0
      exact SimpleGraph.Reachable.refl _
    · exact hcp.reach z (hallvis z (hvalid_tr z hz)) (hall0 z)
  refine ⟨reset_cells_visited s'', hgen, ?_, ?_, ?_, ?_⟩
  · rw [brokenPairs_reset]
    exact hcount
  · intro a b ha hb
    rw [mazeGraph_reset]
    exact (hreach'' a ha).trans (hreach'' b hb).symm
  · rw [mazeGraph_reset]
    exact hcp.acyclic
  · intro a b ha hb
    rw [mazeGraph_reset]
    obtain ⟨w⟩ := (hreach'' a ha).trans (hreach'' b hb).symm
    refine ⟨(w.toPath).val, (w.toPath).prop, ?_⟩
    intro y hy
    have huniq := SimpleGraph.isAcyclic_iff_path_unique.1 hcp.acyclic
      ⟨y, hy⟩ w.toPath
    exact congrArg Subtype.val huniq

/-- Witness for C1 (amended) at a 2×2 grid with the identity shuffle. -/
theorem claim_C1_spanning_tree_witness :
    (∀ (p : Pos) (l : List Pos), ((fun _ l => l : Pos → List Pos → List Pos) p l).Perm l) ∧
    1 ≤ 2 ∧ 2 ≤ 2 * 2 ∧
    (∃ s', generate (fun _ l => l) (mkMaze 0 0 2 2 10 10) = .ok s' ∧
      (brokenPairs s').card + 1 = 2 * 2 ∧
      (∀ a b : Pos, validPos s' a → validPos s' b → (mazeGraph s').Reachable a b) ∧
      (mazeGraph s').IsAcyclic ∧
      (∀ a b : Pos, validPos s' a → validPos s' b →
        ∃! w : (mazeGraph s').Walk a b, w.IsPath)) :=
  ⟨fun _ l => List.Perm.refl l, by decide, by decide,
    claim_C1_spanning_tree 0 0 2 2 10 10 (fun _ l => l) (fun _ l => List.Perm.refl l)
      (by decide) (by decide) (by decide)⟩

/-- C1 counter-evidence for the claim as stated: at rows = cols = 1 (a
grid allowed by the claim) generation does not produce a carved maze at
all — it raises the `zip(*combined)` ValueError, for the identity
shuffle outcome (a legitimate permutation). -/
theorem claim_C1_fails_on_1x1 :
    (∀ (p : Pos) (l : List Pos), ((fun _ l => l : Pos → List Pos → List Pos) p l).Perm l) ∧
    generate (fun _ l => l) (mkMaze 0 0 1 1 10 10) = .error zipUnpackError :=
  ⟨fun _ l => List.Perm.refl l, rfl⟩

/-! ## C7: the generator has a reachable fallible path besides the
adjacency error -/

/-- C7 counter-evidence: on the 1×1 grid (rows ≥ 1, cols ≥ 1) the
generator raises an error, and that error is not the adjacency error:
the `zip(*combined)` unpacking of the empty neighbor list of cell (0,0)
raises a ValueError. -/
theorem claim_C7_generator_crash :
    generate (fun _ l => l) (mkMaze 0 0 1 1 10 10) = .error zipUnpackError ∧
    zipUnpackError ≠ "Cells are not adjacent" :=
  ⟨rfl, by decide⟩

theorem mkMaze_cells (x1 y1 : Int) (r c : Nat) (a b : Int) (p : Pos) :
    (mkMaze x1 y1 r c a b).cells p = createCell x1 y1 a b p.1 p.2 := rfl

theorem wallFacing_mkMaze (x1 y1 : Int) (r c : Nat) (a b : Int) (p q : Pos) :
    wallFacing (mkMaze x1 y1 r c a b) p q = true := by
  unfold wallFacing; split_ifs <;> rfl

theorem pairConsistent_mkMaze (x1 y1 : Int) (r c : Nat) (a b : Int) :
    pairConsistent (mkMaze x1 y1 r c a b) := by
  intro p q _ _ _
  rw [wallFacing_mkMaze, wallFacing_mkMaze]

/-! ## C9: grid construction and lazy, idempotent cell storage -/

/-- C9: for all rows, cols ≥ 1, the constructed maze's cell storage is
absent at construction, is created on first access with exactly `rows`
rows each of exactly `cols` columns, and repeated accesses are
idempotent: a second access returns the identical storage and leaves the
maze unchanged. -/
theorem claim_C9_lazy_cells (x1 y1 : Int) (rows cols : Nat) (cszx cszy : Int)
    (hr : 1 ≤ rows) (hc : 1 ≤ cols) :
    (mkMazeLazy x1 y1 rows cols cszx cszy).lazy_cells = none ∧
    ((mkMazeLazy x1 y1 rows cols cszx cszy).cellsAccess).2.length = rows ∧
    (∀ row ∈ ((mkMazeLazy x1 y1 rows cols cszx cszy).cellsAccess).2,
      row.length = cols) ∧
    ((mkMazeLazy x1 y1 rows cols cszx cszy).cellsAccess).1.lazy_cells =
      some ((mkMazeLazy x1 y1 rows cols cszx cszy).cellsAccess).2 ∧
    ((mkMazeLazy x1 y1 rows cols cszx cszy).cellsAccess).1.cellsAccess =
      (((mkMazeLazy x1 y1 rows cols cszx cszy).cellsAccess).1,
       ((mkMazeLazy x1 y1 rows cols cszx cszy).cellsAccess).2) := by
  refine ⟨rfl, ?_, ?_, rfl, rfl⟩
  · simp [mkMazeLazy, MazeLazy.cellsAccess, create_cells]
  · intro row hrow
    simp only [mkMazeLazy, MazeLazy.cellsAccess, create_cells, List.mem_map] at hrow
    obtain ⟨idx, _, hrow⟩ := hrow
    simp [← hrow]

/-- Witness for C9 at rows = 2, cols = 3. -/
theorem claim_C9_lazy_cells_witness :
    1 ≤ 2 ∧ 1 ≤ 3 ∧
    ((mkMazeLazy 0 0 2 3 10 10).lazy_cells = none ∧
    ((mkMazeLazy 0 0 2 3 10 10).cellsAccess).2.length = 2 ∧
    (∀ row ∈ ((mkMazeLazy 0 0 2 3 10 10).cellsAccess).2, row.length = 3) ∧
    ((mkMazeLazy 0 0 2 3 10 10).cellsAccess).1.lazy_cells =
      some ((mkMazeLazy 0 0 2 3 10 10).cellsAccess).2 ∧
    ((mkMazeLazy 0 0 2 3 10 10).cellsAccess).1.cellsAccess =
      (((mkMazeLazy 0 0 2 3 10 10).cellsAccess).1,
       ((mkMazeLazy 0 0 2 3 10 10).cellsAccess).2)) :=
  ⟨by decide, by decide, claim_C9_lazy_cells 0 0 2 3 10 10 (by decide) (by decide)⟩

/-! ## C2: wall-breaking between non-adjacent cells -/

/-- C2 counter-evidence: on a 1×3 grid the cells (0,0) and (0,2) are
in-bounds and not grid-adjacent (same row, two columns apart), yet
`_break_walls_between` succeeds without any error, clearing (0,0)'s right
wall and (0,2)'s left wall — the claimed AdjacencyError is not raised. -/
theorem claim_C2_nonadjacent_no_error :
    ¬ adjacentPos (0, 0) (0, 2) ∧
    validPos (mkMaze 0 0 1 3 10 10) (0, 0) ∧
    validPos (mkMaze 0 0 1 3 10 10) (0, 2) ∧
    ∃ t, break_walls_between (mkMaze 0 0 1 3 10 10) (0, 0) (0, 2) = .ok t ∧
      (t.cells (0, 0)).has_right_wall = false ∧
      (t.cells (0, 2)).has_left_wall = false := by
  refine ⟨by decide, by decide, by decide, _, rfl, by decide, by decide⟩

/-! ## C3 counter-evidence: toggling breaks the wall-pair invariant -/

/-- C3 counter-evidence: on a fresh 1×2 grid the mutual-consistency
invariant holds, but after `toggle_cell_walls(0, 0)` cell (0,0)'s right
wall is absent while cell (0,1)'s left wall is still present. -/
theorem claim_C3_toggle_breaks_invariant :
    pairConsistent (mkMaze 0 0 1 2 10 10) ∧
    ¬ pairConsistent (toggle_cell_walls (mkMaze 0 0 1 2 10 10) 0 0) := by
  refine ⟨pairConsistent_mkMaze 0 0 1 2 10 10, fun h => ?_⟩
  exact absurd (h (0, 0) (0, 1) (by decide) (by decide) (by decide)) (by decide)

/-! ## The solver loop: one induction step over the shuffled neighbors -/

theorem solve_loop (σ : Pos → List Pos → List Pos) (fuel : Nat)
    (hIH : ∀ s p, validPos s p → unvis (markVisited s p) < fuel →
      ∃ b s' tr, solve_r σ fuel s p = .ok (b, s', tr) ∧ SolvePost s p b s') :
    ∀ (l : List Pos) (t : MazeState) (p : Pos) (tr0 : List Step),
      (∀ n ∈ l, n ∈ get_neighbors t p.1 p.2) →
      validPos t p → unvis t ≤ fuel →
      ∃ b t' tr, solveList σ fuel p (.ok (false, t, tr0)) l = .ok (b, t', tr) ∧
        SolveLoopPost t p l b t' := by
  intro l
  induction l with
  | nil =>
    intro t p tr0 _ _ _
    refine ⟨false, t, tr0, rfl, ?_⟩
    refine ⟨rfl, rfl, fun _ => rfl, fun _ => rfl, fun _ => rfl, fun _ => rfl,
      fun _ h => h, ?_, ?_, ?_, ?_, ?_⟩
    · intro n hn
      exact absurd hn (List.not_mem_nil n)
    · intro hb
      exact absurd hb Bool.false_ne_true
    · intro _ n hn
      exact absurd hn (List.not_mem_nil n)
    · intro z hz
      exact Or.inl hz
    · intro hb
      exact absurd hb Bool.false_ne_true
  | cons n₁ rest ih =>
    intro t p tr0 hl hvp hfuel
    have hmem₁ : n₁ ∈ get_neighbors t p.1 p.2 := hl n₁ (List.mem_cons_self n₁ rest)
    by_cases hv : (t.cells n₁).visited
    · -- neighbor already visited: the loop body is a no-op
      have hbody : (match (Except.ok (false, t, tr0) :
            Except String (Bool × MazeState × List Step)) with
          | .error e => .error e
          | .ok (true, t, tr) => .ok (true, t, tr)
          | .ok (false, t, tr) =>
            if (t.cells n₁).visited then .ok (false, t, tr)
            else if passable t p n₁ then
              match solve_r σ fuel t n₁ with
              | .error e => .error e
              | .ok (true, t2, tr2) => .ok (true, t2, tr ++ (p, n₁, false) :: tr2)
              | .ok (false, t2, tr2) =>
                  .ok (false, t2, tr ++ (p, n₁, false) :: (tr2 ++ [(p, n₁, true)]))
            else .ok (false, t, tr)) = Except.ok (false, t, tr0) := by
        show (if (t.cells n₁).visited then
            (Except.ok (false, t, tr0) : Except String (Bool × MazeState × List Step))
          else _) = Except.ok (false, t, tr0)
        rw [if_pos hv]
      obtain ⟨b, t', tr, heq, hlp⟩ := ih t p tr0
        (fun m hm => hl m (List.mem_cons_of_mem n₁ hm)) hvp hfuel
      refine ⟨b, t', tr, by rw [solveList_cons, hbody]; exact heq, ?_⟩
      refine ⟨hlp.rows_eq, hlp.cols_eq, hlp.wallsL, hlp.wallsT, hlp.wallsR, hlp.wallsB,
        hlp.vis_mono, ?_, ?_, ?_, ?_, hlp.exit_vis⟩
      · intro n hn hpass hunv hre
        rcases List.mem_cons.1 hn with rfl | hn
        · rw [hv] at hunv
          exact absurd hunv (by simp)
        · exact hlp.complete n hn hpass hunv hre
      · intro hb
        obtain ⟨n, hn, h1, h2, h3⟩ := hlp.sound hb
        exact ⟨n, List.mem_cons_of_mem n₁ hn, h1, h2, h3⟩
      · intro hb n hn hpass hunv z hz
        rcases List.mem_cons.1 hn with rfl | hn
        · rw [hv] at hunv
          exact absurd hunv (by simp)
        · exact hlp.absorb hb n hn hpass hunv z hz
      · intro z hz
        rcases hlp.newly z hz with h | ⟨n, hn, h1, h2, h3⟩
        · exact Or.inl h
        · exact Or.inr ⟨n, List.mem_cons_of_mem n₁ hn, h1, h2, h3⟩
    · have hvf : (t.cells n₁).visited = false := beq_false_of_not hv
      by_cases hpass₁ : passable t p n₁
      · -- unvisited and passable: recurse into the neighbor
        have hvn₁ : validPos t n₁ := get_neighbors_validPos hmem₁ hvp.1 hvp.2
        have humark : unvis (markVisited t n₁) + 1 = unvis t := unvis_markVisited hvn₁ hvf
        have hu1 : 1 ≤ unvis t := unvis_pos_of_unvisited hvn₁ hvf
        obtain ⟨b₁, t₂, tr₂, hrec, hsp⟩ := hIH t n₁ hvn₁ (by omega)
        have hbody : ((match (Except.ok (false, t, tr0) :
              Except String (Bool × MazeState × List Step)) with
            | .error e => .error e
            | .ok (true, t, tr) => .ok (true, t, tr)
            | .ok (false, t, tr) =>
              if (t.cells n₁).visited then .ok (false, t, tr)
              else if passable t p n₁ then
                match solve_r σ fuel t n₁ with
                | .error e => .error e
                | .ok (true, t2, tr2) => .ok (true, t2, tr ++ (p, n₁, false) :: tr2)
                | .ok (false, t2, tr2) =>
                    .ok (false, t2, tr ++ (p, n₁, false) :: (tr2 ++ [(p, n₁, true)]))
              else .ok (false, t, tr)) :
              Except String (Bool × MazeState × List Step)) =
            ((match solve_r σ fuel t n₁ with
             | .error e => .error e
             | .ok (true, t2, tr2) => .ok (true, t2, tr0 ++ (p, n₁, false) :: tr2)
             | .ok (false, t2, tr2) =>
                 .ok (false, t2, tr0 ++ (p, n₁, false) :: (tr2 ++ [(p, n₁, true)]))) :
              Except String (Bool × MazeState × List Step)) := by
          show (if (t.cells n₁).visited then
              (Except.ok (false, t, tr0) : Except String (Bool × MazeState × List Step))
            else if passable t p n₁ then
              match solve_r σ fuel t n₁ with
              | .error e => .error e
              | .ok (true, t2, tr2) => .ok (true, t2, tr0 ++ (p, n₁, false) :: tr2)
              | .ok (false, t2, tr2) =>
                  .ok (false, t2, tr0 ++ (p, n₁, false) :: (tr2 ++ [(p, n₁, true)]))
            else .ok (false, t, tr0)) = _
          rw [if_neg hv, if_pos hpass₁]
        rw [hrec] at hbody
        have hpC : ∀ a b, passable t₂ a b = passable t a b :=
          passable_congr hsp.wallsL hsp.wallsT hsp.wallsR hsp.wallsB
        have hexT : exitPos t₂ = exitPos t := exitPos_congr hsp.rows_eq hsp.cols_eq
        have hreT : ∀ a z, reachU t₂ a z → reachU t a z := fun a z h =>
          reachU_transfer hsp.rows_eq hsp.cols_eq hsp.wallsL hsp.wallsT hsp.wallsR
            hsp.wallsB hsp.vis_mono h
        cases b₁ with
        | true =>
          refine ⟨true, t₂, tr0 ++ (p, n₁, false) :: tr₂, ?_, ?_⟩
          · rw [solveList_cons, hbody, solveList_true]
          · refine ⟨hsp.rows_eq, hsp.cols_eq, hsp.wallsL, hsp.wallsT, hsp.wallsR,
              hsp.wallsB, hsp.vis_mono, ?_, ?_, ?_, ?_, ?_⟩
            · intro n _ _ _ _
              rfl
            · intro _
              exact ⟨n₁, List.mem_cons_self n₁ rest, hpass₁, hvf, hsp.sound rfl⟩
            · intro hb
              exact absurd hb.symm Bool.false_ne_true
            · intro z hz
              rcases hsp.newly z hz with h | h
              · exact Or.inl h
              · exact Or.inr ⟨n₁, List.mem_cons_self n₁ rest, hpass₁, hvf, h⟩
            · intro _
              exact hsp.exit_vis rfl
        | false =>
          -- the recursion failed: its saturation plus the rest of the loop
          have hsplice : ∀ (n : Pos) (lp : List Pos) (z : Pos),
              (t.cells n).visited = false → List.Chain (canMove t) n lp →
              (∀ q ∈ lp, (t.cells q).visited = false) → (n :: lp).getLast? = some z →
              (∃ x ∈ n :: lp, (t₂.cells x).visited = true) → reachU t n₁ z := by
            intro n lp z hunv hch hun hlast hex
            obtain ⟨x, hxmem, hxvis⟩ := hex
            have hxt : (t.cells x).visited = false := by
              rcases List.mem_cons.1 hxmem with rfl | hx
              · exact hunv
              · exact hun x hx
            have hrx : reachU t n₁ x := by
              rcases hsp.newly x hxvis with hvt | hr
              · rw [hxt] at hvt
                exact absurd hvt (by simp)
              · exact hr
            obtain ⟨l₂, hs1, hs2, hs4⟩ := chain_suffix_mem lp n x hch hxmem
            obtain ⟨l₁, hc1, hu1', hl1⟩ := hrx
            obtain ⟨hcc, hll⟩ := chain_append_last l₁ n₁ x l₂ hc1 hl1 hs1
            refine ⟨l₁ ++ l₂, hcc, ?_, ?_⟩
            · intro q hq
              rcases List.mem_append.1 hq with hq | hq
              · exact hu1' q hq
              · exact hun q (hs2 q hq)
            · rw [hll, hs4]
              exact hlast
          have hfwd : ∀ (n : Pos) (lp : List Pos) (z : Pos),
              List.Chain (canMove t) n lp → (∀ q ∈ lp, (t₂.cells q).visited = false) →
              (n :: lp).getLast? = some z → reachU t₂ n z := by
            intro n lp z hch hun2 hlast
            exact ⟨lp, List.Chain.imp (fun x y h =>
              (canMove_congr hsp.rows_eq hsp.cols_eq hsp.wallsL hsp.wallsT hsp.wallsR
                hsp.wallsB x y).2 h) hch, hun2, hlast⟩
          have hu2 : unvis t₂ ≤ fuel := by
            have hle : unvis t₂ ≤ unvis (markVisited t n₁) := by
              apply unvis_le_of_mono (s := markVisited t n₁) (t := t₂)
              · exact hsp.rows_eq
              · exact hsp.cols_eq
              · intro q hq
                rw [markVisited_cells] at hq
                by_cases hq1 : q = n₁
                · exact hq1 ▸ hsp.start_vis
                · rw [if_neg hq1] at hq
                  exact hsp.vis_mono q hq
            omega
          obtain ⟨b, t', tr, hloop, hlp⟩ := ih t₂ p
            (tr0 ++ (p, n₁, false) :: (tr₂ ++ [(p, n₁, true)]))
            (by
              intro m hm
              rw [get_neighbors_congr hsp.rows_eq hsp.cols_eq]
              exact hl m (List.mem_cons_of_mem n₁ hm))
            ⟨by rw [hsp.rows_eq]; exact hvp.1, by rw [hsp.cols_eq]; exact hvp.2⟩
            hu2
          refine ⟨b, t', tr, ?_, ?_⟩
          · rw [solveList_cons, hbody]
            exact hloop
          refine ⟨by rw [hlp.rows_eq, hsp.rows_eq], by rw [hlp.cols_eq, hsp.cols_eq],
            fun q => by rw [hlp.wallsL, hsp.wallsL],
            fun q => by rw [hlp.wallsT, hsp.wallsT],
            fun q => by rw [hlp.wallsR, hsp.wallsR],
            fun q => by rw [hlp.wallsB, hsp.wallsB],
            fun q hq => hlp.vis_mono q (hsp.vis_mono q hq), ?_, ?_, ?_, ?_, ?_⟩
          · -- completeness
            intro n hn hpass hunv hre
            rcases List.mem_cons.1 hn with rfl | hn
            · exact absurd (hsp.complete hre) Bool.false_ne_true
            · obtain ⟨lp, hch, hun, hlast⟩ := hre
              by_cases hex : ∃ x ∈ n :: lp, (t₂.cells x).visited = true
              · exact absurd (hsp.complete (hsplice n lp (exitPos t) hunv hch hun hlast hex))
                  Bool.false_ne_true
              · push_neg at hex
                apply hlp.complete n hn
                · rw [hpC]
                  exact hpass
                · exact beq_false_of_not (hex n (List.mem_cons_self n lp))
                · rw [hexT]
                  exact hfwd n lp (exitPos t) hch
                    (fun q hq => beq_false_of_not (hex q (List.mem_cons_of_mem n hq)))
                    hlast
          · -- soundness
            intro hb
            obtain ⟨n, hn, h1, h2, h3⟩ := hlp.sound hb
            refine ⟨n, List.mem_cons_of_mem n₁ hn, ?_, ?_, ?_⟩
            · rw [← hpC]
              exact h1
            · exact unvisited_transfer hsp.vis_mono h2
            · rw [← hexT]
              exact hreT n (exitPos t₂) h3
          · -- absorption on failure
            intro hb n hn hpass hunv z hz
            rcases List.mem_cons.1 hn with rfl | hn
            · exact hlp.vis_mono z (hsp.absorb rfl z hz)
            · obtain ⟨lp, hch, hun, hlast⟩ := hz
              by_cases hex : ∃ x ∈ n :: lp, (t₂.cells x).visited = true
              · exact hlp.vis_mono z
                  (hsp.absorb rfl z (hsplice n lp z hunv hch hun hlast hex))
              · push_neg at hex
                apply hlp.absorb hb n hn
                · rw [hpC]
                  exact hpass
                · exact beq_false_of_not (hex n (List.mem_cons_self n lp))
                · exact hfwd n lp z hch
                    (fun q hq => beq_false_of_not (hex q (List.mem_cons_of_mem n hq)))
                    hlast
          · -- provenance of newly visited cells
            intro z hz
            rcases hlp.newly z hz with hz₂ | ⟨n, hn, h1, h2, h3⟩
            · rcases hsp.newly z hz₂ with hzt | hrz
              · exact Or.inl hzt
              · exact Or.inr ⟨n₁, List.mem_cons_self n₁ rest, hpass₁, hvf, hrz⟩
            · refine Or.inr ⟨n, List.mem_cons_of_mem n₁ hn, ?_, ?_, ?_⟩
              · rw [← hpC]
                exact h1
              · exact unvisited_transfer hsp.vis_mono h2
              · exact hreT n z h3
          · -- exit visited on success
            intro hb
            have h := hlp.exit_vis hb
            rw [hexT] at h
            exact h
      · -- wall blocks the move: the loop body is a no-op
        have hbody : (match (Except.ok (false, t, tr0) :
              Except String (Bool × MazeState × List Step)) with
            | .error e => .error e
            | .ok (true, t, tr) => .ok (true, t, tr)
            | .ok (false, t, tr) =>
              if (t.cells n₁).visited then .ok (false, t, tr)
              else if passable t p n₁ then
                match solve_r σ fuel t n₁ with
                | .error e => .error e
                | .ok (true, t2, tr2) => .ok (true, t2, tr ++ (p, n₁, false) :: tr2)
                | .ok (false, t2, tr2) =>
                    .ok (false, t2, tr ++ (p, n₁, false) :: (tr2 ++ [(p, n₁, true)]))
              else .ok (false, t, tr)) = Except.ok (false, t, tr0) := by
          show (if (t.cells n₁).visited then
              (Except.ok (false, t, tr0) : Except String (Bool × MazeState × List Step))
            else if passable t p n₁ then _ else .ok (false, t, tr0)) =
            Except.ok (false, t, tr0)
          rw [if_neg hv, if_neg hpass₁]
        obtain ⟨b, t', tr, heq, hlp⟩ := ih t p tr0
          (fun m hm => hl m (List.mem_cons_of_mem n₁ hm)) hvp hfuel
        refine ⟨b, t', tr, by rw [solveList_cons, hbody]; exact heq, ?_⟩
        refine ⟨hlp.rows_eq, hlp.cols_eq, hlp.wallsL, hlp.wallsT, hlp.wallsR, hlp.wallsB,
          hlp.vis_mono, ?_, ?_, ?_, ?_, hlp.exit_vis⟩
        · intro n hn hpass hunv hre
          rcases List.mem_cons.1 hn with rfl | hn
          · exact absurd hpass hpass₁
          · exact hlp.complete n hn hpass hunv hre
        · intro hb
          obtain ⟨n, hn, h1, h2, h3⟩ := hlp.sound hb
          exact ⟨n, List.mem_cons_of_mem n₁ hn, h1, h2, h3⟩
        · intro hb n hn hpass hunv z hz
          rcases List.mem_cons.1 hn with rfl | hn
          · exact absurd hpass hpass₁
          · exact hlp.absorb hb n hn hpass hunv z hz
        · intro z hz
          rcases hlp.newly z hz with h | ⟨n, hn, h1, h2, h3⟩
          · exact Or.inl h
          · exact Or.inr ⟨n, List.mem_cons_of_mem n₁ hn, h1, h2, h3⟩

/-- Main invariant theorem for `_solve_r`: on a valid cell with enough
fuel it never raises, and the result satisfies `SolvePost`: success iff
the exit is reachable through unvisited cells. -/
theorem solve_main (σ : Pos → List Pos → List Pos)
    (hσ : ∀ p l, (σ p l).Perm l) :
    ∀ (fuel : Nat) (s : MazeState) (p : Pos),
      validPos s p → unvis (markVisited s p) < fuel →
      ∃ b s' tr, solve_r σ fuel s p = .ok (b, s', tr) ∧ SolvePost s p b s' := by
  intro fuel
  induction fuel with
  | zero =>
    intro s p _ hf
    omega
  | succ fuel ih =>
    intro s p hvp hfuel
    rw [solve_r_succ]
    obtain ⟨mL, mT, mR, mB⟩ := markVisited_walls s p
    have hvism : ∀ q, (s.cells q).visited = true → ((markVisited s p).cells q).visited = true := by
      intro q hq
      rw [markVisited_cells]
      split_ifs
      · rfl
      · exact hq
    have hstartm : ((markVisited s p).cells p).visited = true := by
      rw [markVisited_cells, if_pos rfl]
    have hmarkunv : ∀ q, ((markVisited s p).cells q).visited = false →
        (s.cells q).visited = false := by
      intro q h
      rw [markVisited_cells] at h
      by_cases hq : q = p
      · rw [if_pos hq] at h
        exact absurd h (by simp)
      · rw [if_neg hq] at h
        exact h
    have hmarkunv' : ∀ q, q ≠ p → (s.cells q).visited = false →
        ((markVisited s p).cells q).visited = false := by
      intro q hq h
      rw [markVisited_cells, if_neg hq]
      exact h
    have hreflreach : ∀ z : Pos, z = p → reachU s p z := by
      intro z hz
      exact ⟨[], List.Chain.nil, fun q hq => absurd hq (List.not_mem_nil q),
        by rw [List.getLast?_singleton, hz]⟩
    by_cases hexit : p.1 = (markVisited s p).num_rows - 1 ∧
        p.2 = (markVisited s p).num_cols - 1
    · rw [if_pos hexit]
      refine ⟨true, markVisited s p, [], rfl, ?_⟩
      have hpe : p = exitPos s := Prod.ext_iff.2 ⟨hexit.1, hexit.2⟩
      refine ⟨rfl, rfl, mL, mT, mR, mB, hvism, hstartm, ?_, ?_, ?_, ?_, ?_⟩
      · intro _
        rfl
      · intro _
        exact ⟨[], List.Chain.nil, fun q hq => absurd hq (List.not_mem_nil q),
          by rw [List.getLast?_singleton, hpe]⟩
      · intro hb
        exact absurd hb.symm Bool.false_ne_true
      · intro z hz
        rw [markVisited_cells] at hz
        by_cases hzp : z = p
        · exact Or.inr (hreflreach z hzp)
        · rw [if_neg hzp] at hz
          exact Or.inl hz
      · intro _
        rw [← hpe]
        exact hstartm
    · rw [if_neg hexit]
      have hpe : p ≠ exitPos s := by
        intro he
        exact hexit ⟨congrArg Prod.fst he, congrArg Prod.snd he⟩
      have h2 : 2 ≤ s.num_rows * s.num_cols := by
        by_contra hlt
        push_neg at hlt
        have hr1 : s.num_rows = 1 ∧ s.num_cols = 1 := by
          have h1 := hvp.1
          have hc1 := hvp.2
          constructor <;> nlinarith
        apply hpe
        have hp0 : p = (0, 0) := by
          have h1 := hvp.1
          have hc1 := hvp.2
          exact Prod.ext_iff.2 ⟨by omega, by omega⟩
        rw [hp0]
        unfold exitPos
        rw [hr1.1, hr1.2]
      have hne : get_neighbors (markVisited s p) p.1 p.2 ≠ [] :=
        get_neighbors_ne_nil hvp.1 hvp.2 h2
      have hsne : (σ p (get_neighbors (markVisited s p) p.1 p.2)).isEmpty = false := by
        cases hsl : σ p (get_neighbors (markVisited s p) p.1 p.2) with
        | nil =>
          have hperm := hσ p (get_neighbors (markVisited s p) p.1 p.2)
          rw [hsl] at hperm
          exact absurd hperm.symm.eq_nil hne
        | cons a l' => rfl
      rw [hsne, if_neg (by simp)]
      obtain ⟨b, t', tr, hloop, hlp⟩ := solve_loop σ fuel ih
        (σ p (get_neighbors (markVisited s p) p.1 p.2)) (markVisited s p) p []
        (fun n hn => (hσ p (get_neighbors (markVisited s p) p.1 p.2)).mem_iff.1 hn)
        hvp (by omega)
      have hgn : get_neighbors (markVisited s p) p.1 p.2 = get_neighbors s p.1 p.2 :=
        get_neighbors_congr rfl rfl p.1 p.2
      have hpassm : ∀ a b, passable (markVisited s p) a b = passable s a b :=
        passable_congr mL mT mR mB
      have hcanm : ∀ a b, canMove (markVisited s p) a b ↔ canMove s a b :=
        canMove_congr rfl rfl mL mT mR mB
      have htoloop : ∀ (n₁ : Pos) (lp' : List Pos) (z : Pos),
          List.Chain (canMove s) p (n₁ :: lp') →
          (∀ q ∈ n₁ :: lp', (s.cells q).visited = false) →
          (p :: n₁ :: lp').getLast? = some z → p ∉ n₁ :: lp' →
          n₁ ∈ σ p (get_neighbors (markVisited s p) p.1 p.2) ∧
          passable (markVisited s p) p n₁ = true ∧
          ((markVisited s p).cells n₁).visited = false ∧
          reachU (markVisited s p) n₁ z := by
        intro n₁ lp' z hch hun hlast hnot
        rw [List.chain_cons] at hch
        have hn₁p : n₁ ≠ p := fun he => hnot (he ▸ List.mem_cons_self n₁ lp')
        refine ⟨?_, ?_, ?_, ?_⟩
        · apply (hσ p (get_neighbors (markVisited s p) p.1 p.2)).mem_iff.2
          rw [hgn]
          exact hch.1.1
        · rw [hpassm]
          exact hch.1.2
        · exact hmarkunv' n₁ hn₁p (hun n₁ (List.mem_cons_self n₁ lp'))
        · refine ⟨lp', List.Chain.imp (fun x y h => (hcanm x y).2 h) hch.2, ?_, ?_⟩
          · intro q hq
            have hqp : q ≠ p := fun he => hnot (he ▸ List.mem_cons_of_mem n₁ hq)
            exact hmarkunv' q hqp (hun q (List.mem_cons_of_mem n₁ hq))
          · have := hlast
            rw [List.getLast?_cons_cons] at this
            exact this
      have hprepend : ∀ (n z : Pos),
          n ∈ σ p (get_neighbors (markVisited s p) p.1 p.2) →
          passable (markVisited s p) p n = true →
          ((markVisited s p).cells n).visited = false →
          reachU (markVisited s p) n z → reachU s p z := by
        intro n z hnσ hpass hunv hre
        obtain ⟨l', hch', hun', hlast'⟩ := hre
        refine ⟨n :: l', List.chain_cons.2 ⟨⟨?_, ?_⟩,
          List.Chain.imp (fun x y h => (hcanm x y).1 h) hch'⟩, ?_, ?_⟩
        · rw [← hgn]
          exact (hσ p (get_neighbors (markVisited s p) p.1 p.2)).mem_iff.1 hnσ
        · rw [hpassm] at hpass
          exact hpass
        · intro q hq
          rcases List.mem_cons.1 hq with rfl | hq
          · exact hmarkunv q hunv
          · exact hmarkunv q (hun' q hq)
        · rw [List.getLast?_cons_cons]
          exact hlast'
      refine ⟨b, t', tr, hloop, ?_⟩
      refine ⟨hlp.rows_eq, hlp.cols_eq,
        fun q => by rw [hlp.wallsL q, mL q],
        fun q => by rw [hlp.wallsT q, mT q],
        fun q => by rw [hlp.wallsR q, mR q],
        fun q => by rw [hlp.wallsB q, mB q],
        fun q hq => hlp.vis_mono q (hvism q hq),
        hlp.vis_mono p hstartm, ?_, ?_, ?_, ?_, ?_⟩
      · -- completeness
        intro hre
        obtain ⟨lp, hch, hun, hlast, hnotin⟩ := reachU_avoid hre
        cases lp with
        | nil =>
          rw [List.getLast?_singleton] at hlast
          exact absurd (Option.some.inj hlast) hpe
        | cons n₁ lp' =>
          obtain ⟨hm1, hm2, hm3, hm4⟩ :=
            htoloop n₁ lp' (exitPos s) hch hun hlast hnotin
          exact hlp.complete n₁ hm1 hm2 hm3 hm4
      · -- soundness
        intro hb
        obtain ⟨n, hnσ, h1, h2, h3⟩ := hlp.sound hb
        exact hprepend n (exitPos s) hnσ h1 h2 h3
      · -- absorption on failure
        intro hb z hz
        obtain ⟨lp, hch, hun, hlast, hnotin⟩ := reachU_avoid hz
        cases lp with
        | nil =>
          rw [List.getLast?_singleton] at hlast
          rw [← Option.some.inj hlast]
          exact hlp.vis_mono p hstartm
        | cons n₁ lp' =>
          obtain ⟨hm1, hm2, hm3, hm4⟩ := htoloop n₁ lp' z hch hun hlast hnotin
          exact hlp.absorb hb n₁ hm1 hm2 hm3 z hm4
      · -- provenance of newly visited cells
        intro z hz
        rcases hlp.newly z hz with hz₂ | ⟨n, hnσ, h1, h2, h3⟩
        · rw [markVisited_cells] at hz₂
          by_cases hzp : z = p
          · exact Or.inr (hreflreach z hzp)
          · rw [if_neg hzp] at hz₂
            exact Or.inl hz₂
        · exact Or.inr (hprepend n z hnσ h1 h2 h3)
      · -- exit visited on success
        intro hb
        exact hlp.exit_vis hb

/-! ## Top-level solver theorems -/

theorem unvis_le_total (s : MazeState) : unvis s ≤ s.num_rows * s.num_cols := by
  unfold unvis
  calc ((posFinset s).filter fun p => (s.cells p).visited = false).card
      ≤ (posFinset s).card := Finset.card_filter_le _ _
    _ = s.num_rows * s.num_cols := by
        unfold posFinset
        rw [Finset.card_product, Finset.card_range, Finset.card_range]

theorem solve_fuel_ok (s : MazeState) (p : Pos) :
    unvis (markVisited s p) < s.num_rows * s.num_cols + 1 := by
  have h := unvis_le_total (markVisited s p)
  simp only [markVisited_num_rows, markVisited_num_cols] at h
  omega

theorem mem_of_getLast?_eq {α : Type} {l : List α} {z : α}
    (h : l.getLast? = some z) : z ∈ l := by
  have hz : z ∈ l.getLast? := Option.mem_def.2 h
  obtain ⟨hne, he⟩ := List.mem_getLast?_eq_getLast hz
  rw [he]
  exact List.getLast_mem hne

theorem reachU_ne_unvisited {s : MazeState} {p z : Pos} (h : reachU s p z)
    (hne : z ≠ p) : (s.cells z).visited = false := by
  obtain ⟨l, _, hun, hlast⟩ := h
  rcases List.mem_cons.1 (mem_of_getLast?_eq hlast) with rfl | hz
  · exact absurd rfl hne
  · exact hun z hz

theorem openPair_valid {s : MazeState} (hout : wallsIntactOutside s) {a b : Pos}
    (h : openPair s a b) : validPos s a ∧ validPos s b := by
  constructor
  · by_contra hva
    rcases h with ⟨_, hra, _⟩ | ⟨_, hba, _⟩
    · rw [(hout a hva).2.2.1] at hra
      exact absurd hra (by simp)
    · rw [(hout a hva).2.2.2] at hba
      exact absurd hba (by simp)
  · by_contra hvb
    rcases h with ⟨_, _, hlb⟩ | ⟨_, _, htb⟩
    · rw [(hout b hvb).1] at hlb
      exact absurd hlb (by simp)
    · rw [(hout b hvb).2.1] at htb
      exact absurd htb (by simp)

theorem mazeGraph_adj_canMove {s : MazeState} {a b : Pos} (hva : validPos s a)
    (hvb : validPos s b) (h : (mazeGraph s).Adj a b) : canMove s a b := by
  have h' : openPair s a b ∨ openPair s b a := h
  rcases h' with (⟨hb, hra, _⟩ | ⟨hb, hba, _⟩) | (⟨ha, _, hla⟩ | ⟨ha, _, hta⟩)
  · subst hb
    refine ⟨?_, ?_⟩
    · apply mem_get_neighbors.2
      have h2 : a.2 + 1 < s.num_cols := hvb.2
      exact Or.inr (Or.inr (Or.inr ⟨by omega, rfl⟩))
    · have hlt : a.2 < a.2 + 1 := Nat.lt_succ_self a.2
      simp [passable, hra, hlt]
  · subst hb
    refine ⟨?_, ?_⟩
    · apply mem_get_neighbors.2
      have h1 : a.1 + 1 < s.num_rows := hvb.1
      exact Or.inr (Or.inr (Or.inl ⟨by omega, rfl⟩))
    · have hlt : a.1 < a.1 + 1 := Nat.lt_succ_self a.1
      simp [passable, hba, hlt]
  · subst ha
    refine ⟨?_, ?_⟩
    · apply mem_get_neighbors.2
      exact Or.inr (Or.inl ⟨Nat.succ_pos b.2, rfl⟩)
    · have hlt : b.2 < b.2 + 1 := Nat.lt_succ_self b.2
      simp [passable, hla, hlt]
  · subst ha
    refine ⟨?_, ?_⟩
    · apply mem_get_neighbors.2
      exact Or.inl ⟨Nat.succ_pos b.1, rfl⟩
    · have hlt : b.1 < b.1 + 1 := Nat.lt_succ_self b.1
      simp [passable, hta, hlt]

theorem reachable_to_reachU {s : MazeState} (hout : wallsIntactOutside s)
    (hunv : ∀ q : Pos, (s.cells q).visited = false) {a b : Pos}
    (hva : validPos s a) (hr : (mazeGraph s).Reachable a b) : reachU s a b := by
  obtain ⟨w⟩ := hr
  revert hva
  induction w with
  | nil =>
    intro _
    exact ⟨[], List.Chain.nil, fun q _ => hunv q, by rw [List.getLast?_singleton]⟩
  | cons h w ih =>
    intro hva
    have h' : openPair s _ _ ∨ openPair s _ _ := h
    rcases h' with hop | hop
    · have hvc := (openPair_valid hout hop).2
      have hcm := mazeGraph_adj_canMove hva hvc h
      obtain ⟨l, hch, _, hlast⟩ := ih hvc
      exact ⟨_ :: l, List.chain_cons.2 ⟨hcm, hch⟩, fun q _ => hunv q,
        by rw [List.getLast?_cons_cons]; exact hlast⟩
    · have hvc := (openPair_valid hout hop).1
      have hcm := mazeGraph_adj_canMove hva hvc h
      obtain ⟨l, hch, _, hlast⟩ := ih hvc
      exact ⟨_ :: l, List.chain_cons.2 ⟨hcm, hch⟩, fun q _ => hunv q,
        by rw [List.getLast?_cons_cons]; exact hlast⟩

/-- C8: on a connected maze — walls intact outside the grid, every cell
unvisited (as generation leaves them), and every in-grid cell reachable
from (0,0) through broken wall pairs — the depth-first solver terminates
without error and returns success, for every shuffle oracle that permutes
its input. -/
theorem claim_C8_dfs_success (σ : Pos → List Pos → List Pos)
    (hσ : ∀ p l, (σ p l).Perm l) (s : MazeState)
    (hr : 1 ≤ s.num_rows) (hc : 1 ≤ s.num_cols)
    (hout : wallsIntactOutside s)
    (hunv : ∀ q : Pos, (s.cells q).visited = false)
    (hconn : ∀ q : Pos, validPos s q → (mazeGraph s).Reachable (0, 0) q) :
    ∃ s' tr, solve σ s = .ok (true, s', tr) := by
  have hvp : validPos s (0, 0) := ⟨hr, hc⟩
  obtain ⟨b, s', tr, heq, hsp⟩ := solve_main σ hσ (s.num_rows * s.num_cols + 1)
    s (0, 0) hvp (solve_fuel_ok s (0, 0))
  have hexv : validPos s (exitPos s) :=
    ⟨show s.num_rows - 1 < s.num_rows by omega,
     show s.num_cols - 1 < s.num_cols by omega⟩
  have hre : reachU s (0, 0) (exitPos s) :=
    reachable_to_reachU hout hunv hvp (hconn (exitPos s) hexv)
  have hb : b = true := hsp.complete hre
  subst hb
  exact ⟨s', tr, heq⟩

theorem demoMaze_walls_intact : wallsIntactOutside demoMaze := by
  intro p hnv
  have h0 : p ≠ ((0 : Nat), (0 : Nat)) := by
    rintro rfl
    exact hnv (by decide)
  have h1 : p ≠ ((0 : Nat), (1 : Nat)) := by
    rintro rfl
    exact hnv (by decide)
  simp only [demoMaze]
  rw [if_neg h0, if_neg h1]
  exact ⟨rfl, rfl, rfl, rfl⟩

/-- Witness for C8: the concrete carved 1x2 maze satisfies every
hypothesis and the solver succeeds on it. -/
theorem claim_C8_dfs_success_witness :
    (∀ (p : Pos) (l : List Pos),
      ((fun _ l => l : Pos → List Pos → List Pos) p l).Perm l) ∧
    1 ≤ demoMaze.num_rows ∧ 1 ≤ demoMaze.num_cols ∧
    wallsIntactOutside demoMaze ∧
    (∀ q : Pos, (demoMaze.cells q).visited = false) ∧
    (∀ q : Pos, validPos demoMaze q → (mazeGraph demoMaze).Reachable (0, 0) q) ∧
    ∃ s' tr, solve (fun _ l => l) demoMaze = .ok (true, s', tr) := by
  have hperm : ∀ (p : Pos) (l : List Pos),
      ((fun _ l => l : Pos → List Pos → List Pos) p l).Perm l :=
    fun _ l => List.Perm.refl l
  have hout : wallsIntactOutside demoMaze := demoMaze_walls_intact
  have hunv : ∀ q : Pos, (demoMaze.cells q).visited = false := by
    intro q
    by_cases h0 : q = ((0 : Nat), (0 : Nat))
    · subst h0
      rfl
    · by_cases h1 : q = ((0 : Nat), (1 : Nat))
      · subst h1
        rfl
      · simp only [demoMaze]
        rw [if_neg h0, if_neg h1]
        rfl
  have hconn : ∀ q : Pos, validPos demoMaze q →
      (mazeGraph demoMaze).Reachable (0, 0) q := by
    intro q hq
    have hcase : q = ((0 : Nat), (0 : Nat)) ∨ q = ((0 : Nat), (1 : Nat)) := by
      rcases q with ⟨i, j⟩
      have hv1 : i < 1 := hq.1
      have hv2 : j < 2 := hq.2
      interval_cases i <;> interval_cases j <;> simp
    rcases hcase with rfl | rfl
    · exact SimpleGraph.Reachable.refl _
    · exact SimpleGraph.Adj.reachable (Or.inl (by decide))
  exact ⟨hperm, by decide, by decide, hout, hunv, hconn,
    claim_C8_dfs_success (fun _ l => l) hperm demoMaze (by decide) (by decide)
      hout hunv hconn⟩

/-- C10: on a maze with at least two cells, after `solve` has returned
success (the exit cell reached and left marked visited), a second `solve`
call on the resulting state, with no intervening visited-reset, returns
False, for every pair of shuffle oracles that permute their input. -/
theorem claim_C10_second_solve_fails (σ₁ σ₂ : Pos → List Pos → List Pos)
    (hσ₁ : ∀ p l, (σ₁ p l).Perm l) (hσ₂ : ∀ p l, (σ₂ p l).Perm l)
    (s : MazeState) (h2 : 2 ≤ s.num_rows * s.num_cols)
    (s₁ : MazeState) (tr₁ : List Step)
    (hfirst : solve σ₁ s = .ok (true, s₁, tr₁)) :
    ∃ s₂ tr₂, solve σ₂ s₁ = .ok (false, s₂, tr₂) := by
  have hr : 1 ≤ s.num_rows := by
    rcases Nat.eq_zero_or_pos s.num_rows with h0 | h0
    · rw [h0, Nat.zero_mul] at h2
      omega
    · exact h0
  have hc : 1 ≤ s.num_cols := by
    rcases Nat.eq_zero_or_pos s.num_cols with h0 | h0
    · rw [h0, Nat.mul_zero] at h2
      omega
    · exact h0
  have hvp : validPos s (0, 0) := ⟨hr, hc⟩
  obtain ⟨b, s₁', tr₁', heq, hsp⟩ := solve_main σ₁ hσ₁ (s.num_rows * s.num_cols + 1)
    s (0, 0) hvp (solve_fuel_ok s (0, 0))
  have h : (Except.ok (b, s₁', tr₁') : Except String (Bool × MazeState × List Step)) =
      .ok (true, s₁, tr₁) := by
    rw [← heq]
    exact hfirst
  obtain ⟨hb, hs, ht⟩ : b = true ∧ s₁' = s₁ ∧ tr₁' = tr₁ := by
    simpa [Prod.ext_iff] using Except.ok.inj h
  subst hb
  rw [hs] at hsp
  have hexitv : (s₁.cells (exitPos s)).visited = true := hsp.exit_vis rfl
  have hdr : s₁.num_rows = s.num_rows := hsp.rows_eq
  have hdc : s₁.num_cols = s.num_cols := hsp.cols_eq
  have hvp₂ : validPos s₁ (0, 0) := ⟨by rw [hdr]; exact hr, by rw [hdc]; exact hc⟩
  obtain ⟨b₂, s₂, tr₂, heq₂, hsp₂⟩ := solve_main σ₂ hσ₂
    (s₁.num_rows * s₁.num_cols + 1) s₁ (0, 0) hvp₂ (solve_fuel_ok s₁ (0, 0))
  have hexeq : exitPos s₁ = exitPos s := by
    unfold exitPos
    rw [hdr, hdc]
  have hb₂ : b₂ = false := by
    by_contra hbne
    have hbt : b₂ = true := by
      cases b₂ with
      | false => exact absurd rfl hbne
      | true => rfl
    have hre := hsp₂.sound hbt
    have hne : exitPos s₁ ≠ ((0 : Nat), (0 : Nat)) := by
      rw [hexeq]
      intro hh
      have h1 : s.num_rows - 1 = 0 := congrArg Prod.fst hh
      have h2' : s.num_cols - 1 = 0 := congrArg Prod.snd hh
      have hr1 : s.num_rows = 1 := by omega
      have hc1 : s.num_cols = 1 := by omega
      rw [hr1, hc1] at h2
      omega
    have hunvx : (s₁.cells (exitPos s₁)).visited = false := reachU_ne_unvisited hre hne
    rw [hexeq, hexitv] at hunvx
    exact absurd hunvx (by simp)
  subst hb₂
  exact ⟨s₂, tr₂, heq₂⟩

/-- Witness for C10: on the concrete carved 1x2 maze the first solve
returns True and the second solve on the resulting state returns False. -/
theorem claim_C10_second_solve_fails_witness :
    (∀ (p : Pos) (l : List Pos),
      ((fun _ l => l : Pos → List Pos → List Pos) p l).Perm l) ∧
    2 ≤ demoMaze.num_rows * demoMaze.num_cols ∧
    ∃ s₁ tr₁, solve (fun _ l => l) demoMaze = .ok (true, s₁, tr₁) ∧
      ∃ s₂ tr₂, solve (fun _ l => l) s₁ = .ok (false, s₂, tr₂) := by
  refine ⟨fun _ l => List.Perm.refl l, by decide, _, _, rfl, ?_⟩
  exact claim_C10_second_solve_fails (fun _ l => l) (fun _ l => l)
    (fun _ l => List.Perm.refl l) (fun _ l => List.Perm.refl l)
    demoMaze (by decide) _ _ rfl

/-! ## Mutual wall consistency -/

theorem wallFacing_right_fwd (s : MazeState) {p q : Pos} (h : q = (p.1, p.2 + 1)) :
    wallFacing s p q = (s.cells p).has_right_wall := by
  unfold wallFacing
  rw [if_pos h]

theorem wallFacing_right_bwd (s : MazeState) {p q : Pos} (h : q = (p.1, p.2 + 1)) :
    wallFacing s q p = (s.cells q).has_left_wall := by
  have h2 := congrArg Prod.snd h
  simp only at h2
  have hne : ¬ p = (q.1, q.2 + 1) := by
    intro he
    have h3 := congrArg Prod.snd he
    simp only at h3
    omega
  unfold wallFacing
  rw [if_neg hne, if_pos h]

theorem wallFacing_down_fwd (s : MazeState) {p q : Pos} (h : q = (p.1 + 1, p.2)) :
    wallFacing s p q = (s.cells p).has_bottom_wall := by
  have h1 := congrArg Prod.fst h
  have h2 := congrArg Prod.snd h
  simp only at h1 h2
  have hne1 : ¬ q = (p.1, p.2 + 1) := by
    intro he
    have h3 := congrArg Prod.fst he
    simp only at h3
    omega
  have hne2 : ¬ p = (q.1, q.2 + 1) := by
    intro he
    have h3 := congrArg Prod.snd he
    simp only at h3
    omega
  unfold wallFacing
  rw [if_neg hne1, if_neg hne2, if_pos h]

theorem wallFacing_down_bwd (s : MazeState) {p q : Pos} (h : q = (p.1 + 1, p.2)) :
    wallFacing s q p = (s.cells q).has_top_wall := by
  have h1 := congrArg Prod.fst h
  have h2 := congrArg Prod.snd h
  simp only at h1 h2
  have hne1 : ¬ p = (q.1, q.2 + 1) := by
    intro he
    have h3 := congrArg Prod.snd he
    simp only at h3
    omega
  have hne2 : ¬ q = (p.1, p.2 + 1) := by
    intro he
    have h3 := congrArg Prod.snd he
    simp only at h3
    omega
  have hne3 : ¬ p = (q.1 + 1, q.2) := by
    intro he
    have h3 := congrArg Prod.fst he
    simp only at h3
    omega
  unfold wallFacing
  rw [if_neg hne1, if_neg hne2, if_neg hne3, if_pos h]

theorem pairConsistent_of_flags {t : MazeState}
    (hH : ∀ a : Pos, validPos t a → validPos t (a.1, a.2 + 1) →
      (t.cells a).has_right_wall = (t.cells (a.1, a.2 + 1)).has_left_wall)
    (hV : ∀ a : Pos, validPos t a → validPos t (a.1 + 1, a.2) →
      (t.cells a).has_bottom_wall = (t.cells (a.1 + 1, a.2)).has_top_wall) :
    pairConsistent t := by
  intro p q hvp hvq hadj
  rcases hadj with ⟨h1, h2 | h2⟩ | ⟨h1, h2 | h2⟩
  · have hq : q = (p.1, p.2 + 1) := Prod.ext_iff.2 ⟨h1.symm, h2.symm⟩
    rw [wallFacing_right_fwd t hq, wallFacing_right_bwd t hq]
    have h5 := hH p hvp (hq ▸ hvq)
    rw [← hq] at h5
    exact h5
  · have hp : p = (q.1, q.2 + 1) := Prod.ext_iff.2 ⟨h1, h2.symm⟩
    rw [wallFacing_right_bwd t hp, wallFacing_right_fwd t hp]
    have h5 := hH q hvq (hp ▸ hvp)
    rw [← hp] at h5
    exact h5.symm
  · have hq : q = (p.1 + 1, p.2) := Prod.ext_iff.2 ⟨h2.symm, h1.symm⟩
    rw [wallFacing_down_fwd t hq, wallFacing_down_bwd t hq]
    have h5 := hV p hvp (hq ▸ hvq)
    rw [← hq] at h5
    exact h5
  · have hp : p = (q.1 + 1, q.2) := Prod.ext_iff.2 ⟨h2.symm, h1⟩
    rw [wallFacing_down_bwd t hp, wallFacing_down_fwd t hp]
    have h5 := hV q hvq (hp ▸ hvp)
    rw [← hp] at h5
    exact h5.symm

theorem pairConsistent_flags {s : MazeState} (hpc : pairConsistent s) :
    (∀ a : Pos, validPos s a → validPos s (a.1, a.2 + 1) →
      (s.cells a).has_right_wall = (s.cells (a.1, a.2 + 1)).has_left_wall) ∧
    (∀ a : Pos, validPos s a → validPos s (a.1 + 1, a.2) →
      (s.cells a).has_bottom_wall = (s.cells (a.1 + 1, a.2)).has_top_wall) := by
  constructor
  · intro a hva hvb
    have h5 := hpc a (a.1, a.2 + 1) hva hvb (Or.inl ⟨rfl, Or.inl rfl⟩)
    rwa [wallFacing_right_fwd s rfl, wallFacing_right_bwd s rfl] at h5
  · intro a hva hvb
    have h5 := hpc a (a.1 + 1, a.2) hva hvb (Or.inr ⟨rfl, Or.inl rfl⟩)
    rwa [wallFacing_down_fwd s rfl, wallFacing_down_bwd s rfl] at h5

theorem pairConsistent_congr {s t : MazeState} (hdr : t.num_rows = s.num_rows)
    (hdc : t.num_cols = s.num_cols)
    (hL : ∀ x, (t.cells x).has_left_wall = (s.cells x).has_left_wall)
    (hT : ∀ x, (t.cells x).has_top_wall = (s.cells x).has_top_wall)
    (hR : ∀ x, (t.cells x).has_right_wall = (s.cells x).has_right_wall)
    (hB : ∀ x, (t.cells x).has_bottom_wall = (s.cells x).has_bottom_wall)
    (hpc : pairConsistent s) : pairConsistent t := by
  intro p q hvp hvq hadj
  have hwf : ∀ u v : Pos, wallFacing t u v = wallFacing s u v := by
    intro u v
    unfold wallFacing
    split_ifs <;> simp [hL, hT, hR, hB]
  rw [hwf, hwf]
  exact hpc p q ⟨hdr ▸ hvp.1, hdc ▸ hvp.2⟩ ⟨hdr ▸ hvq.1, hdc ▸ hvq.2⟩ hadj

theorem pairConsistent_update_pair_h {s t : MazeState} {p n : Pos}
    (hn : n = (p.1, p.2 + 1))
    (hdr : t.num_rows = s.num_rows) (hdc : t.num_cols = s.num_cols)
    (hcp : t.cells p = { s.cells p with has_right_wall := false })
    (hcn : t.cells n = { s.cells n with has_left_wall := false })
    (hother : ∀ x, x ≠ p → x ≠ n → t.cells x = s.cells x)
    (hpc : pairConsistent s) : pairConsistent t := by
  obtain ⟨hpcH, hpcV⟩ := pairConsistent_flags hpc
  have hvt : ∀ x : Pos, validPos t x → validPos s x :=
    fun x hx => ⟨hdr ▸ hx.1, hdc ▸ hx.2⟩
  have hn1 := congrArg Prod.fst hn
  have hn2 := congrArg Prod.snd hn
  simp only at hn1 hn2
  apply pairConsistent_of_flags
  · intro a hva hvb
    by_cases hap : a = p
    · subst hap
      rw [hcp, ← hn, hcn]
    · by_cases han : a = n
      · subst han
        have hbp : ((a.1, a.2 + 1) : Pos) ≠ p := by
          intro he
          have h5 := congrArg Prod.snd he
          simp only at h5
          omega
        have hbn : ((a.1, a.2 + 1) : Pos) ≠ a := by
          intro he
          have h5 := congrArg Prod.snd he
          simp only at h5
          omega
        rw [hcn, hother _ hbp hbn]
        exact hpcH a (hvt a hva) (hvt _ hvb)
      · rw [hother a hap han]
        by_cases hbp : ((a.1, a.2 + 1) : Pos) = p
        · rw [hbp, hcp]
          have h5 := hpcH a (hvt a hva) (hvt _ hvb)
          rw [hbp] at h5
          exact h5
        · by_cases hbn : ((a.1, a.2 + 1) : Pos) = n
          · exfalso
            apply hap
            have h5 := congrArg Prod.fst hbn
            have h6 := congrArg Prod.snd hbn
            simp only at h5 h6
            exact Prod.ext_iff.2 ⟨by omega, by omega⟩
          · rw [hother _ hbp hbn]
            exact hpcH a (hvt a hva) (hvt _ hvb)
  · intro a hva hvb
    have hbt : ∀ x : Pos, (t.cells x).has_bottom_wall = (s.cells x).has_bottom_wall ∧
        (t.cells x).has_top_wall = (s.cells x).has_top_wall := by
      intro x
      by_cases hxp : x = p
      · subst hxp
        rw [hcp]
        exact ⟨rfl, rfl⟩
      · by_cases hxn : x = n
        · subst hxn
          rw [hcn]
          exact ⟨rfl, rfl⟩
        · rw [hother x hxp hxn]
          exact ⟨rfl, rfl⟩
    rw [(hbt a).1, (hbt (a.1 + 1, a.2)).2]
    exact hpcV a (hvt a hva) (hvt _ hvb)

theorem pairConsistent_update_pair_v {s t : MazeState} {p n : Pos}
    (hn : n = (p.1 + 1, p.2))
    (hdr : t.num_rows = s.num_rows) (hdc : t.num_cols = s.num_cols)
    (hcp : t.cells p = { s.cells p with has_bottom_wall := false })
    (hcn : t.cells n = { s.cells n with has_top_wall := false })
    (hother : ∀ x, x ≠ p → x ≠ n → t.cells x = s.cells x)
    (hpc : pairConsistent s) : pairConsistent t := by
  obtain ⟨hpcH, hpcV⟩ := pairConsistent_flags hpc
  have hvt : ∀ x : Pos, validPos t x → validPos s x :=
    fun x hx => ⟨hdr ▸ hx.1, hdc ▸ hx.2⟩
  have hn1 := congrArg Prod.fst hn
  have hn2 := congrArg Prod.snd hn
  simp only at hn1 hn2
  apply pairConsistent_of_flags
  · intro a hva hvb
    have hlr : ∀ x : Pos, (t.cells x).has_right_wall = (s.cells x).has_right_wall ∧
        (t.cells x).has_left_wall = (s.cells x).has_left_wall := by
      intro x
      by_cases hxp : x = p
      · subst hxp
        rw [hcp]
        exact ⟨rfl, rfl⟩
      · by_cases hxn : x = n
        · subst hxn
          rw [hcn]
          exact ⟨rfl, rfl⟩
        · rw [hother x hxp hxn]
          exact ⟨rfl, rfl⟩
    rw [(hlr a).1, (hlr (a.1, a.2 + 1)).2]
    exact hpcH a (hvt a hva) (hvt _ hvb)
  · intro a hva hvb
    by_cases hap : a = p
    · subst hap
      rw [hcp, ← hn, hcn]
    · by_cases han : a = n
      · subst han
        have hbp : ((a.1 + 1, a.2) : Pos) ≠ p := by
          intro he
          have h5 := congrArg Prod.fst he
          simp only at h5
          omega
        have hbn : ((a.1 + 1, a.2) : Pos) ≠ a := by
          intro he
          have h5 := congrArg Prod.fst he
          simp only at h5
          omega
        rw [hcn, hother _ hbp hbn]
        exact hpcV a (hvt a hva) (hvt _ hvb)
      · rw [hother a hap han]
        by_cases hbp : ((a.1 + 1, a.2) : Pos) = p
        · rw [hbp, hcp]
          have h5 := hpcV a (hvt a hva) (hvt _ hvb)
          rw [hbp] at h5
          exact h5
        · by_cases hbn : ((a.1 + 1, a.2) : Pos) = n
          · exfalso
            apply hap
            have h5 := congrArg Prod.fst hbn
            have h6 := congrArg Prod.snd hbn
            simp only at h5 h6
            exact Prod.ext_iff.2 ⟨by omega, by omega⟩
          · rw [hother _ hbp hbn]
            exact hpcV a (hvt a hva) (hvt _ hvb)

theorem bee_flags (s : MazeState) :
    (∀ x, ((break_entrance_and_exit s).cells x).has_left_wall =
      if x = ((0 : Nat), (0 : Nat)) then false else (s.cells x).has_left_wall) ∧
    (∀ x, ((break_entrance_and_exit s).cells x).has_top_wall =
      if x = ((0 : Nat), (0 : Nat)) then false else (s.cells x).has_top_wall) ∧
    (∀ x, ((break_entrance_and_exit s).cells x).has_right_wall =
      if x = (s.num_rows - 1, s.num_cols - 1) then false
      else (s.cells x).has_right_wall) ∧
    (∀ x, ((break_entrance_and_exit s).cells x).has_bottom_wall =
      if x = (s.num_rows - 1, s.num_cols - 1) then false
      else (s.cells x).has_bottom_wall) := by
  refine ⟨?_, ?_, ?_, ?_⟩ <;> intro x <;> unfold break_entrance_and_exit <;>
    simp only [setCell_cells] <;> split_ifs <;> simp_all

theorem pairConsistent_break_entrance {s : MazeState} (hpc : pairConsistent s) :
    pairConsistent (break_entrance_and_exit s) := by
  obtain ⟨fL, fT, fR, fB⟩ := bee_flags s
  obtain ⟨hpcH, hpcV⟩ := pairConsistent_flags hpc
  apply pairConsistent_of_flags
  · intro a hva hvb
    have hva' : validPos s a := hva
    have hvb' : validPos s (a.1, a.2 + 1) := hvb
    by_cases hx : a = (s.num_rows - 1, s.num_cols - 1)
    · exfalso
      have h5 := congrArg Prod.snd hx
      simp only at h5
      have h6 : a.2 + 1 < s.num_cols := hvb'.2
      omega
    · by_cases hy : ((a.1, a.2 + 1) : Pos) = ((0 : Nat), (0 : Nat))
      · exfalso
        have h5 := congrArg Prod.snd hy
        simp only at h5
        omega
      · rw [fR, fL, if_neg hx, if_neg hy]
        exact hpcH a hva' hvb'
  · intro a hva hvb
    have hva' : validPos s a := hva
    have hvb' : validPos s (a.1 + 1, a.2) := hvb
    by_cases hx : a = (s.num_rows - 1, s.num_cols - 1)
    · exfalso
      have h5 := congrArg Prod.fst hx
      simp only at h5
      have h6 : a.1 + 1 < s.num_rows := hvb'.1
      omega
    · by_cases hy : ((a.1 + 1, a.2) : Pos) = ((0 : Nat), (0 : Nat))
      · exfalso
        have h5 := congrArg Prod.fst hy
        simp only at h5
        omega
      · rw [fB, fT, if_neg hx, if_neg hy]
        exact hpcV a hva' hvb'

theorem pairConsistent_break_walls {s t : MazeState} {p n : Pos}
    (hadj : adjacentPos p n) (ht : break_walls_between s p n = .ok t)
    (hpc : pairConsistent s) : pairConsistent t := by
  rcases hadj with ⟨h1, h2 | h2⟩ | ⟨h1, h2 | h2⟩
  · have hn : n = (p.1, p.2 + 1) := Prod.ext_iff.2 ⟨h1.symm, h2.symm⟩
    obtain ⟨t', heq, hdr, hdc, -, hother, -, hcp, hcn⟩ := break_right_spec s hn
    rw [ht] at heq
    obtain rfl : t = t' := Except.ok.inj heq
    exact pairConsistent_update_pair_h hn hdr hdc hcp hcn hother hpc
  · have hp : p = (n.1, n.2 + 1) := Prod.ext_iff.2 ⟨h1, h2.symm⟩
    obtain ⟨t', heq, hdr, hdc, -, hother, -, hcp, hcn⟩ := break_left_spec s hp
    rw [ht] at heq
    obtain rfl : t = t' := Except.ok.inj heq
    exact pairConsistent_update_pair_h hp hdr hdc hcn hcp
      (fun x hxn hxp => hother x hxp hxn) hpc
  · have hn : n = (p.1 + 1, p.2) := Prod.ext_iff.2 ⟨h2.symm, h1.symm⟩
    obtain ⟨t', heq, hdr, hdc, -, hother, -, hcp, hcn⟩ := break_down_spec s hn
    rw [ht] at heq
    obtain rfl : t = t' := Except.ok.inj heq
    exact pairConsistent_update_pair_v hn hdr hdc hcp hcn hother hpc
  · have hp : p = (n.1 + 1, n.2) := Prod.ext_iff.2 ⟨h2.symm, h1⟩
    obtain ⟨t', heq, hdr, hdc, -, hother, -, hcp, hcn⟩ := break_up_spec s hp
    rw [ht] at heq
    obtain rfl : t = t' := Except.ok.inj heq
    exact pairConsistent_update_pair_v hp hdr hdc hcn hcp
      (fun x hxn hxp => hother x hxp hxn) hpc

theorem pairConsistent_reset {s : MazeState} (hpc : pairConsistent s) :
    pairConsistent (reset_cells_visited s) := by
  obtain ⟨hL, hT, hR, hB⟩ := reset_walls s
  exact pairConsistent_congr (reset_dims s).1 (reset_dims s).2 hL hT hR hB hpc

theorem pairConsistent_solve {σ : Pos → List Pos → List Pos}
    (hσ : ∀ p l, (σ p l).Perm l) {s : MazeState}
    (hr : 1 ≤ s.num_rows) (hc : 1 ≤ s.num_cols) {b : Bool} {s' : MazeState}
    {tr : List Step} (heq : solve σ s = .ok (b, s', tr))
    (hpc : pairConsistent s) : pairConsistent s' := by
  obtain ⟨b₀, s₀, tr₀, heq₀, hsp⟩ := solve_main σ hσ (s.num_rows * s.num_cols + 1)
    s (0, 0) ⟨hr, hc⟩ (solve_fuel_ok s (0, 0))
  have h : (Except.ok (b₀, s₀, tr₀) : Except String (Bool × MazeState × List Step)) =
      .ok (b, s', tr) := by
    rw [← heq₀]
    exact heq
  obtain ⟨hb, hs, htr⟩ : b₀ = b ∧ s₀ = s' ∧ tr₀ = tr := by
    simpa [Prod.ext_iff] using Except.ok.inj h
  rw [hs] at hsp
  exact pairConsistent_congr hsp.rows_eq hsp.cols_eq hsp.wallsL hsp.wallsT
    hsp.wallsR hsp.wallsB hpc

/-- C3 (amended): every grid operation listed by the claim other than
cell-wall toggling — entrance/exit breaking, wall-breaking between
adjacent cells, visited-reset, and solving — preserves the invariant that
for adjacent in-grid cells A and B, A's wall facing B is absent iff B's
wall facing A is absent. (`toggle_cell_walls` violates the invariant: see
this claim's counterexample theorem.) -/
theorem claim_C3_operations_preserve_consistency :
    (∀ s : MazeState, pairConsistent s → pairConsistent (break_entrance_and_exit s)) ∧
    (∀ (s t : MazeState) (p n : Pos), adjacentPos p n →
      break_walls_between s p n = .ok t → pairConsistent s → pairConsistent t) ∧
    (∀ s : MazeState, pairConsistent s → pairConsistent (reset_cells_visited s)) ∧
    (∀ (σ : Pos → List Pos → List Pos), (∀ p l, (σ p l).Perm l) →
      ∀ s : MazeState, 1 ≤ s.num_rows → 1 ≤ s.num_cols →
      ∀ (b : Bool) (s' : MazeState) (tr : List Step),
        solve σ s = .ok (b, s', tr) → pairConsistent s → pairConsistent s') :=
  ⟨fun _ hpc => pairConsistent_break_entrance hpc,
   fun _ _ _ _ hadj ht hpc => pairConsistent_break_walls hadj ht hpc,
   fun _ hpc => pairConsistent_reset hpc,
   fun _ hσ _ hr hc _ _ _ heq hpc => pairConsistent_solve hσ hr hc heq hpc⟩

/-- Witness for C3 (amended): the concrete 1x2 maze satisfies the
invariant, and breaking its entrance and exit again preserves it. -/
theorem claim_C3_operations_preserve_consistency_witness :
    pairConsistent demoMaze ∧ pairConsistent (break_entrance_and_exit demoMaze) := by
  have hpc : pairConsistent demoMaze := by
    intro p q hvp hvq _
    have hp : p = ((0 : Nat), (0 : Nat)) ∨ p = ((0 : Nat), (1 : Nat)) := by
      rcases p with ⟨i, j⟩
      have h1 : i < 1 := hvp.1
      have h2 : j < 2 := hvp.2
      interval_cases i <;> interval_cases j <;> simp
    have hq : q = ((0 : Nat), (0 : Nat)) ∨ q = ((0 : Nat), (1 : Nat)) := by
      rcases q with ⟨i, j⟩
      have h1 : i < 1 := hvq.1
      have h2 : j < 2 := hvq.2
      interval_cases i <;> interval_cases j <;> simp
    rcases hp with rfl | rfl <;> rcases hq with rfl | rfl <;> decide
  exact ⟨hpc, claim_C3_operations_preserve_consistency.1 demoMaze hpc⟩

/-! ## The A* solver: metric helpers -/

theorem dist_triangle_reach {V : Type} {G : SimpleGraph V} {u v w : V}
    (h1 : G.Reachable u v) (h2 : G.Reachable v w) :
    G.dist u w ≤ G.dist u v + G.dist v w := by
  obtain ⟨w1, hl1⟩ := h1.exists_walk_length_eq_dist
  obtain ⟨w2, hl2⟩ := h2.exists_walk_length_eq_dist
  have h3 := SimpleGraph.dist_le (w1.append w2)
  rwa [SimpleGraph.Walk.length_append, hl1, hl2] at h3

theorem manhattan_triangle (a b c : Pos) :
    manhattan a c ≤ manhattan a b + manhattan b c := by
  unfold manhattan
  have h1 := Nat.dist.triangle_inequality a.1 b.1 c.1
  have h2 := Nat.dist.triangle_inequality a.2 b.2 c.2
  omega

theorem manhattan_comm (a b : Pos) : manhattan a b = manhattan b a := by
  unfold manhattan
  rw [Nat.dist_comm a.1, Nat.dist_comm a.2]

theorem openPair_manhattan {s : MazeState} {a b : Pos} (h : openPair s a b) :
    manhattan a b = 1 := by
  unfold manhattan
  rcases h with ⟨hb, -, -⟩ | ⟨hb, -, -⟩ <;>
  · have h1 := congrArg Prod.fst hb
    have h2 := congrArg Prod.snd hb
    simp only at h1 h2
    rw [h1, h2]
    simp [Nat.dist_self, Nat.dist]

theorem mazeGraph_adj_manhattan {s : MazeState} {a b : Pos}
    (h : (mazeGraph s).Adj a b) : manhattan a b = 1 := by
  have h' : openPair s a b ∨ openPair s b a := h
  rcases h' with hop | hop
  · exact openPair_manhattan hop
  · rw [manhattan_comm]
    exact openPair_manhattan hop

theorem manhattan_le_walk_length {s : MazeState} :
    ∀ {a b : Pos} (w : (mazeGraph s).Walk a b), manhattan a b ≤ w.length := by
  intro a b w
  induction w with
  | nil => simp [manhattan, Nat.dist_self]
  | @cons u c b h w ih =>
    rw [SimpleGraph.Walk.length_cons]
    have h1 := manhattan_triangle u c b
    have h2 := mazeGraph_adj_manhattan h
    omega

theorem manhattan_le_dist {s : MazeState} {a b : Pos}
    (h : (mazeGraph s).Reachable a b) : manhattan a b ≤ (mazeGraph s).dist a b := by
  obtain ⟨w, hl⟩ := h.exists_walk_length_eq_dist
  rw [← hl]
  exact manhattan_le_walk_length w

theorem mazeGraph_adj_valid {s : MazeState} (hout : wallsIntactOutside s) {a b : Pos}
    (h : (mazeGraph s).Adj a b) : validPos s a ∧ validPos s b := by
  have h' : openPair s a b ∨ openPair s b a := h
  rcases h' with hop | hop
  · exact openPair_valid hout hop
  · exact ⟨(openPair_valid hout hop).2, (openPair_valid hout hop).1⟩

theorem mem_openNeighbors_iff {s : MazeState} (hout : wallsIntactOutside s) {p : Pos}
    (hp : validPos s p) {v : Pos} :
    v ∈ openNeighbors s p ↔ (mazeGraph s).Adj p v := by
  unfold openNeighbors
  rw [List.mem_filter]
  constructor
  · rintro ⟨-, hdec⟩
    have hor : openPair s p v ∨ openPair s v p := of_decide_eq_true hdec
    exact hor
  · intro hadj
    have hv := (mazeGraph_adj_valid hout hadj).2
    have hcm := mazeGraph_adj_canMove hp hv hadj
    have hor : openPair s p v ∨ openPair s v p := hadj
    exact ⟨hcm.1, decide_eq_true hor⟩

/-! ## The A* solver: paths and walks -/

theorem head?_append_left {α : Type} (l l' : List α) (h : l ≠ []) :
    (l ++ l').head? = l.head? := by
  cases l with
  | nil => exact absurd rfl h
  | cons a t => rfl

theorem openPathFrom_support {s : MazeState} {a z : Pos}
    (w : (mazeGraph s).Walk a z) :
    openPathFrom s a z w.support ∧ w.support.length = w.length + 1 := by
  refine ⟨⟨w.support_ne_nil, ?_, ?_, ?_⟩, w.length_support⟩
  · rw [SimpleGraph.Walk.support_eq_cons]
    rfl
  · rw [List.getLast?_eq_getLast _ w.support_ne_nil, SimpleGraph.Walk.getLast_support]
  · exact w.chain'_adj_support

theorem walk_of_chain {s : MazeState} :
    ∀ (t : List Pos) (a z : Pos),
      List.Chain' (fun x y => openPair s x y ∨ openPair s y x) (a :: t) →
      (a :: t).getLast? = some z →
      ∃ w : (mazeGraph s).Walk a z, w.length = t.length := by
  intro t
  induction t with
  | nil =>
    intro a z _ hlast
    rw [List.getLast?_singleton] at hlast
    obtain rfl := Option.some.inj hlast
    exact ⟨SimpleGraph.Walk.nil, rfl⟩
  | cons c t ih =>
    intro a z hch hlast
    rw [List.chain'_cons] at hch
    rw [List.getLast?_cons_cons] at hlast
    obtain ⟨w', hl⟩ := ih c z hch.2 hlast
    exact ⟨SimpleGraph.Walk.cons hch.1 w', by simp [hl]⟩

theorem walk_of_openPathFrom {s : MazeState} {a z : Pos} {l : List Pos}
    (h : openPathFrom s a z l) :
    ∃ w : (mazeGraph s).Walk a z, w.length + 1 = l.length := by
  obtain ⟨hne, hhead, hlast, hchain⟩ := h
  cases l with
  | nil => exact absurd rfl hne
  | cons b t =>
    obtain rfl : b = a := Option.some.inj hhead
    obtain ⟨w, hl⟩ := walk_of_chain t b z hchain hlast
    exact ⟨w, by simp [hl]⟩

theorem reachable_iff_openPathFrom {s : MazeState} {a z : Pos} :
    (mazeGraph s).Reachable a z ↔ ∃ l, openPathFrom s a z l := by
  constructor
  · intro h
    obtain ⟨w⟩ := h
    exact ⟨w.support, (openPathFrom_support w).1⟩
  · rintro ⟨l, hl⟩
    obtain ⟨w, -⟩ := walk_of_openPathFrom hl
    exact ⟨w⟩

theorem openPathFrom_length_lower {s : MazeState} {a z : Pos} {l : List Pos}
    (h : openPathFrom s a z l) :
    (mazeGraph s).dist a z + 1 ≤ l.length := by
  obtain ⟨w, hl⟩ := walk_of_openPathFrom h
  have h1 := SimpleGraph.dist_le w
  omega

/-! ## The A* solver: frontier selection -/

theorem pickMin_aux_mem (s : MazeState) (st : AStarState) :
    ∀ (l : List Pos) (b : Pos),
      l.foldl (fun best n => if fOf s st n < fOf s st best then n else best) b ∈ b :: l := by
  intro l
  induction l with
  | nil =>
    intro b
    exact List.mem_cons_self b []
  | cons a t ih =>
    intro b
    rw [List.foldl_cons]
    have h1 := ih (if fOf s st a < fOf s st b then a else b)
    rcases List.mem_cons.1 h1 with h | h
    · rw [h]
      split_ifs <;> simp
    · exact List.mem_cons_of_mem b (List.mem_cons_of_mem a h)

theorem pickMin_aux_min (s : MazeState) (st : AStarState) :
    ∀ (l : List Pos) (b q : Pos), q ∈ b :: l →
      fOf s st (l.foldl (fun best n => if fOf s st n < fOf s st best then n else best) b) ≤
        fOf s st q := by
  intro l
  induction l with
  | nil =>
    intro b q hq
    rcases List.mem_cons.1 hq with rfl | hq
    · exact le_refl _
    · exact absurd hq (List.not_mem_nil q)
  | cons a t ih =>
    intro b q hq
    rw [List.foldl_cons]
    have hble : fOf s st (if fOf s st a < fOf s st b then a else b) ≤ fOf s st b ∧
        fOf s st (if fOf s st a < fOf s st b then a else b) ≤ fOf s st a := by
      split_ifs with hc
      · exact ⟨le_of_lt hc, le_refl _⟩
      · exact ⟨le_refl _, le_of_not_lt hc⟩
    rcases List.mem_cons.1 hq with rfl | hq2
    · have h3 := ih (if fOf s st a < fOf s st q then a else q) _
        (List.mem_cons_self _ t)
      have h4 := hble.1
      omega
    · rcases List.mem_cons.1 hq2 with rfl | hq3
      · have h3 := ih (if fOf s st q < fOf s st b then q else b) _
          (List.mem_cons_self _ t)
        have h4 := hble.2
        omega
      · exact ih (if fOf s st a < fOf s st b then a else b) q
          (List.mem_cons_of_mem _ hq3)

theorem pickMin_mem (s : MazeState) (st : AStarState) (x : Pos) (l : List Pos) :
    pickMin s st x l ∈ x :: l := pickMin_aux_mem s st l x

theorem pickMin_min (s : MazeState) (st : AStarState) (x : Pos) (l : List Pos) :
    ∀ q ∈ x :: l, fOf s st (pickMin s st x l) ≤ fOf s st q :=
  fun q hq => pickMin_aux_min s st l x q hq

/-! ## The A* solver: relaxation preserves the invariant -/

theorem relaxNeighbor_closed {p n : Pos} {st : AStarState} (h : n ∈ st.closedL) :
    relaxNeighbor p st n = st := by
  unfold relaxNeighbor
  rw [if_pos h]

theorem relaxNeighbor_new {p n : Pos} {st : AStarState} (h1 : n ∉ st.closedL)
    (h2 : st.gmap n = none) :
    relaxNeighbor p st n =
      { st with
        openL := n :: st.openL
        gmap := fun q => if q = n then some ((st.gmap p).getD 0 + 1) else st.gmap q
        parent := fun q => if q = n then some p else st.parent q } := by
  unfold relaxNeighbor
  rw [if_neg h1, h2]

theorem relaxNeighbor_improve {p n : Pos} {st : AStarState} {gn : Nat}
    (h1 : n ∉ st.closedL) (h2 : st.gmap n = some gn)
    (h3 : (st.gmap p).getD 0 + 1 < gn) :
    relaxNeighbor p st n =
      { st with
        gmap := fun q => if q = n then some ((st.gmap p).getD 0 + 1) else st.gmap q
        parent := fun q => if q = n then some p else st.parent q } := by
  unfold relaxNeighbor
  rw [if_neg h1, h2]
  exact if_pos h3

theorem relaxNeighbor_keep {p n : Pos} {st : AStarState} {gn : Nat}
    (h1 : n ∉ st.closedL) (h2 : st.gmap n = some gn)
    (h3 : ¬ (st.gmap p).getD 0 + 1 < gn) :
    relaxNeighbor p st n = st := by
  unfold relaxNeighbor
  rw [if_neg h1, h2]
  exact if_neg h3

theorem relax_update {s : MazeState} (hout : wallsIntactOutside s) {p : Pos}
    {st : AStarState} (hinv : RelaxInv s p st)
    (hpe : st.gmap p = some ((mazeGraph s).dist ((0, 0) : Pos) p))
    {n : Pos} (hadj : (mazeGraph s).Adj p n) (hnc : n ∉ st.closedL)
    (hmono_n : ∀ gn, st.gmap n = some gn →
      (mazeGraph s).dist ((0, 0) : Pos) p + 1 ≤ gn)
    (st' : AStarState)
    (hopen' : (st'.openL = n :: st.openL ∧ n ∉ st.openL) ∨
      (st'.openL = st.openL ∧ n ∈ st.openL))
    (hclosed' : st'.closedL = st.closedL)
    (hgmap' : ∀ q : Pos, st'.gmap q =
      if q = n then some ((mazeGraph s).dist ((0, 0) : Pos) p + 1) else st.gmap q)
    (hpar' : ∀ q : Pos, st'.parent q = if q = n then some p else st.parent q) :
    RelaxInv s p st' ∧
    st'.gmap n = some ((mazeGraph s).dist ((0, 0) : Pos) p + 1) ∧
    (∀ (v : Pos) (gv : Nat), st.gmap v = some gv →
      ∃ gv', gv' ≤ gv ∧ st'.gmap v = some gv') := by
  have hnp : n ≠ p := fun he => hnc (he ▸ hinv.p_closed)
  have hn0 : n ≠ ((0 : Nat), (0 : Nat)) := by
    intro he
    have h1 := hmono_n 0 (by rw [he]; exact hinv.g00)
    omega
  have hrp := (hinv.g_lower p _ hpe).1
  have hrn : (mazeGraph s).Reachable (0, 0) n := hrp.trans hadj.reachable
  have hDn : (mazeGraph s).dist ((0, 0) : Pos) n ≤
      (mazeGraph s).dist ((0, 0) : Pos) p + 1 := by
    have h1 := dist_triangle_reach hrp hadj.reachable
    have h2 : (mazeGraph s).dist p n ≤ 1 := by
      have h3 := SimpleGraph.dist_le (SimpleGraph.Walk.cons hadj SimpleGraph.Walk.nil)
      simpa using h3
    omega
  have hvn : validPos s n := (mazeGraph_adj_valid hout hadj).2
  have hgn' : st'.gmap n = some ((mazeGraph s).dist ((0, 0) : Pos) p + 1) := by
    rw [hgmap', if_pos rfl]
  have hosub : ∀ x ∈ st.openL, x ∈ st'.openL := by
    intro x hx
    rcases hopen' with ⟨he, -⟩ | ⟨he, -⟩
    · rw [he]
      exact List.mem_cons_of_mem n hx
    · rw [he]
      exact hx
  have hopen_mem : ∀ x, x ∈ st'.openL → x = n ∨ x ∈ st.openL := by
    intro x hx
    rcases hopen' with ⟨he, -⟩ | ⟨he, -⟩
    · rw [he] at hx
      exact List.mem_cons.1 hx
    · rw [he] at hx
      exact Or.inr hx
  have hgkeep : ∀ q : Pos, q ≠ n → st'.gmap q = st.gmap q := by
    intro q hq
    rw [hgmap', if_neg hq]
  have hg'some : ∀ x, (st.gmap x).isSome = true → (st'.gmap x).isSome = true := by
    intro x hx
    by_cases hxn : x = n
    · rw [hxn, hgn']
      rfl
    · rw [hgkeep x hxn]
      exact hx
  refine ⟨⟨?_, ?_, ?_, ?_, ?_, ?_, ?_, ?_, ?_, ?_, ?_, ?_, ?_, ?_, ?_⟩, hgn', ?_⟩
  · -- disc_open
    intro x hx
    by_cases hxn : x = n
    · subst hxn
      left
      rcases hopen' with ⟨he, -⟩ | ⟨he, hm⟩
      · rw [he]
        exact List.mem_cons_self _ _
      · rw [he]
        exact hm
    · rw [hgkeep x hxn] at hx
      rcases hinv.disc_open x hx with h | h
      · exact Or.inl (hosub x h)
      · right
        rw [hclosed']
        exact h
  · -- open_disc
    intro x hx
    by_cases hxn : x = n
    · rw [hxn, hgn']
      rfl
    · rw [hgkeep x hxn]
      apply hinv.open_disc
      rcases hopen_mem x hx with h | h
      · exact absurd h hxn
      · exact h
  · -- closed_disc
    intro x hx
    rw [hclosed'] at hx
    exact hg'some x (hinv.closed_disc x hx)
  · -- open_not_closed
    intro x hx
    rw [hclosed']
    rcases hopen_mem x hx with rfl | h
    · exact hnc
    · exact hinv.open_not_closed x h
  · -- open_nodup
    rcases hopen' with ⟨he, hm⟩ | ⟨he, -⟩
    · rw [he]
      exact List.nodup_cons.2 ⟨hm, hinv.open_nodup⟩
    · rw [he]
      exact hinv.open_nodup
  · -- closed_nodup
    rw [hclosed']
    exact hinv.closed_nodup
  · -- open_valid
    intro x hx
    rcases hopen_mem x hx with rfl | h
    · exact hvn
    · exact hinv.open_valid x h
  · -- closed_valid
    intro x hx
    rw [hclosed'] at hx
    exact hinv.closed_valid x hx
  · -- g00
    rw [hgkeep ((0, 0) : Pos) (Ne.symm hn0)]
    exact hinv.g00
  · -- parent_ok
    intro x hx hx0
    by_cases hxn : x = n
    · subst hxn
      refine ⟨p, (mazeGraph s).dist ((0, 0) : Pos) p, ?_, ?_, ?_, ?_, ?_⟩
      · rw [hpar', if_pos rfl]
      · rw [hgkeep p (Ne.symm hnp)]
        exact hpe
      · rw [hgn']
      · rw [hclosed']
        exact hinv.p_closed
      · exact (hadj : openPair s p x ∨ openPair s x p)
    · rw [hgkeep x hxn] at hx
      obtain ⟨y, gy, h1, h2, h3, h4, h5⟩ := hinv.parent_ok x hx hx0
      have hyn : y ≠ n := fun he => hnc (he ▸ h4)
      refine ⟨y, gy, ?_, ?_, ?_, ?_, h5⟩
      · rw [hpar', if_neg hxn]
        exact h1
      · rw [hgkeep y hyn]
        exact h2
      · rw [hgkeep x hxn]
        exact h3
      · rw [hclosed']
        exact h4
  · -- g_lower
    intro x gx hgx
    by_cases hxn : x = n
    · subst hxn
      rw [hgn'] at hgx
      obtain rfl := Option.some.inj hgx
      exact ⟨hrn, hDn⟩
    · rw [hgkeep x hxn] at hgx
      exact hinv.g_lower x gx hgx
  · -- closed_exact
    intro x hx
    rw [hclosed'] at hx
    have hxn : x ≠ n := fun he => hnc (he ▸ hx)
    rw [hgkeep x hxn]
    exact hinv.closed_exact x hx
  · -- closed_relax_old
    intro u hu hup v hadjv
    rw [hclosed'] at hu
    obtain ⟨gv, hgv, hle⟩ := hinv.closed_relax_old u hu hup v hadjv
    by_cases hvn' : v = n
    · subst hvn'
      have hge := hmono_n gv hgv
      exact ⟨(mazeGraph s).dist ((0, 0) : Pos) p + 1, hgn', by omega⟩
    · refine ⟨gv, ?_, hle⟩
      rw [hgkeep v hvn']
      exact hgv
  · -- p_closed
    rw [hclosed']
    exact hinv.p_closed
  · -- exit_not_closed
    rw [hclosed']
    exact hinv.exit_not_closed
  · -- g-values only decrease
    intro v gv hgv
    by_cases hvn' : v = n
    · subst hvn'
      exact ⟨(mazeGraph s).dist ((0, 0) : Pos) p + 1, hmono_n gv hgv, hgn'⟩
    · refine ⟨gv, le_refl gv, ?_⟩
      rw [hgkeep v hvn']
      exact hgv

theorem relax_inv {s : MazeState} (hout : wallsIntactOutside s) {p : Pos}
    {st : AStarState} (hinv : RelaxInv s p st)
    (hpe : st.gmap p = some ((mazeGraph s).dist ((0, 0) : Pos) p))
    {n : Pos} (hadj : (mazeGraph s).Adj p n) :
    RelaxInv s p (relaxNeighbor p st n) ∧
    (∃ gn, (relaxNeighbor p st n).gmap n = some gn ∧
      gn ≤ (mazeGraph s).dist ((0, 0) : Pos) p + 1) ∧
    (∀ (v : Pos) (gv : Nat), st.gmap v = some gv →
      ∃ gv', gv' ≤ gv ∧ (relaxNeighbor p st n).gmap v = some gv') ∧
    (relaxNeighbor p st n).closedL = st.closedL ∧
    (∀ x ∈ st.openL, x ∈ (relaxNeighbor p st n).openL) := by
  have hrp := (hinv.g_lower p _ hpe).1
  have hDn : (mazeGraph s).dist ((0, 0) : Pos) n ≤
      (mazeGraph s).dist ((0, 0) : Pos) p + 1 := by
    have h1 := dist_triangle_reach hrp hadj.reachable
    have h2 : (mazeGraph s).dist p n ≤ 1 := by
      have h3 := SimpleGraph.dist_le (SimpleGraph.Walk.cons hadj SimpleGraph.Walk.nil)
      simpa using h3
    omega
  by_cases hnc : n ∈ st.closedL
  · rw [relaxNeighbor_closed hnc]
    exact ⟨hinv, ⟨(mazeGraph s).dist ((0, 0) : Pos) n, hinv.closed_exact n hnc, hDn⟩,
      fun v gv hgv => ⟨gv, le_refl gv, hgv⟩, rfl, fun x hx => hx⟩
  · have hgetd : (st.gmap p).getD 0 = (mazeGraph s).dist ((0, 0) : Pos) p := by
      rw [hpe]
      rfl
    cases hgn : st.gmap n with
    | none =>
      rw [relaxNeighbor_new hnc hgn]
      have hno : n ∉ st.openL := by
        intro h
        have h2 := hinv.open_disc n h
        rw [hgn] at h2
        exact absurd h2 (by simp)
      obtain ⟨h1, h2, h3⟩ := relax_update hout hinv hpe hadj hnc
        (fun gn2 hgn' => by rw [hgn] at hgn'; exact absurd hgn' (by simp))
        { st with
          openL := n :: st.openL
          gmap := fun q => if q = n then some ((st.gmap p).getD 0 + 1) else st.gmap q
          parent := fun q => if q = n then some p else st.parent q }
        (Or.inl ⟨rfl, hno⟩) rfl (fun q => by rw [← hgetd]) (fun q => rfl)
      exact ⟨h1, ⟨_, h2, le_refl _⟩, h3, rfl,
        fun x hx => List.mem_cons_of_mem n hx⟩
    | some gn =>
      by_cases himp : (st.gmap p).getD 0 + 1 < gn
      · rw [relaxNeighbor_improve hnc hgn himp]
        have hmono_n : ∀ gn2, st.gmap n = some gn2 →
            (mazeGraph s).dist ((0, 0) : Pos) p + 1 ≤ gn2 := by
          intro gn2 hgn'
          rw [hgn] at hgn'
          obtain rfl := Option.some.inj hgn'
          rw [← hgetd]
          omega
        have hndisc : (st.gmap n).isSome = true := by
          rw [hgn]
          rfl
        have hnopen : n ∈ st.openL := by
          rcases hinv.disc_open n hndisc with h | h
          · exact h
          · exact absurd h hnc
        obtain ⟨h1, h2, h3⟩ := relax_update hout hinv hpe hadj hnc hmono_n
          { st with
            gmap := fun q => if q = n then some ((st.gmap p).getD 0 + 1) else st.gmap q
            parent := fun q => if q = n then some p else st.parent q }
          (Or.inr ⟨rfl, hnopen⟩) rfl (fun q => by rw [← hgetd]) (fun q => rfl)
        exact ⟨h1, ⟨_, h2, le_refl _⟩, h3, rfl, fun x hx => hx⟩
      · rw [relaxNeighbor_keep hnc hgn himp]
        refine ⟨hinv, ⟨gn, hgn, ?_⟩, fun v gv hgv => ⟨gv, le_refl gv, hgv⟩, rfl,
          fun x hx => hx⟩
        rw [← hgetd]
        omega

theorem relaxList_inv {s : MazeState} (hout : wallsIntactOutside s) {p : Pos} :
    ∀ (l : List Pos) (st : AStarState), RelaxInv s p st →
      st.gmap p = some ((mazeGraph s).dist ((0, 0) : Pos) p) →
      (∀ v ∈ l, (mazeGraph s).Adj p v) →
      RelaxInv s p (l.foldl (relaxNeighbor p) st) ∧
      (∀ v ∈ l, ∃ gv, (l.foldl (relaxNeighbor p) st).gmap v = some gv ∧
        gv ≤ (mazeGraph s).dist ((0, 0) : Pos) p + 1) ∧
      (∀ (v : Pos) (gv : Nat), st.gmap v = some gv →
        ∃ gv', gv' ≤ gv ∧ (l.foldl (relaxNeighbor p) st).gmap v = some gv') ∧
      (l.foldl (relaxNeighbor p) st).closedL = st.closedL ∧
      (∀ x ∈ st.openL, x ∈ (l.foldl (relaxNeighbor p) st).openL) := by
  intro l
  induction l with
  | nil =>
    intro st hinv _ _
    exact ⟨hinv, fun v hv => absurd hv (List.not_mem_nil v),
      fun v gv hgv => ⟨gv, le_refl gv, hgv⟩, rfl, fun x hx => hx⟩
  | cons a t ih =>
    intro st hinv hpe hadj
    rw [List.foldl_cons]
    obtain ⟨h1, ⟨ga, hga, hgale⟩, hmono1, hcl1, hop1⟩ :=
      relax_inv hout hinv hpe (hadj a (List.mem_cons_self a t))
    have hpe1 : (relaxNeighbor p st a).gmap p =
        some ((mazeGraph s).dist ((0, 0) : Pos) p) :=
      h1.closed_exact p h1.p_closed
    obtain ⟨h2, hb2, hmono2, hcl2, hop2⟩ := ih (relaxNeighbor p st a) h1 hpe1
      (fun v hv => hadj v (List.mem_cons_of_mem a hv))
    refine ⟨h2, ?_, ?_, hcl2.trans hcl1, fun x hx => hop2 x (hop1 x hx)⟩
    · intro v hv
      rcases List.mem_cons.1 hv with rfl | hv2
      · obtain ⟨gv', hle', hgv'⟩ := hmono2 v ga hga
        exact ⟨gv', hgv', le_trans hle' hgale⟩
      · exact hb2 v hv2
    · intro v gv hgv
      obtain ⟨gv1, hle1, hg1⟩ := hmono1 v gv hgv
      obtain ⟨gv2, hle2, hg2⟩ := hmono2 v gv1 hg1
      exact ⟨gv2, le_trans hle2 hle1, hg2⟩

theorem expand_inv {s : MazeState} (hout : wallsIntactOutside s) {st : AStarState}
    (hinv : AInv s st) {p : Pos} (hpo : p ∈ st.openL)
    (hpe : st.gmap p = some ((mazeGraph s).dist ((0, 0) : Pos) p))
    (hpne : p ≠ exitPos s) :
    AInv s (expand s st p) ∧ (expand s st p).closedL = p :: st.closedL := by
  have hvalp : validPos s p := hinv.open_valid p hpo
  have hinv0 : RelaxInv s p
      { st with openL := st.openL.erase p, closedL := p :: st.closedL } := by
    refine ⟨?_, ?_, ?_, ?_, ?_, ?_, ?_, ?_, hinv.g00, ?_, hinv.g_lower, ?_, ?_, ?_, ?_⟩
    · intro x hx
      rcases hinv.disc_open x hx with h | h
      · by_cases hxp : x = p
        · exact Or.inr (by rw [hxp]; exact List.mem_cons_self p st.closedL)
        · exact Or.inl (hinv.open_nodup.mem_erase_iff.2 ⟨hxp, h⟩)
      · exact Or.inr (List.mem_cons_of_mem p h)
    · intro x hx
      exact hinv.open_disc x (List.mem_of_mem_erase hx)
    · intro x hx
      rcases List.mem_cons.1 hx with rfl | hx2
      · exact hinv.open_disc x hpo
      · exact hinv.closed_disc x hx2
    · intro x hx
      obtain ⟨hxp, hxo⟩ := hinv.open_nodup.mem_erase_iff.1 hx
      intro hmem
      rcases List.mem_cons.1 hmem with h | h
      · exact hxp h
      · exact hinv.open_not_closed x hxo h
    · exact hinv.open_nodup.erase p
    · exact List.nodup_cons.2 ⟨hinv.open_not_closed p hpo, hinv.closed_nodup⟩
    · intro x hx
      exact hinv.open_valid x (List.mem_of_mem_erase hx)
    · intro x hx
      rcases List.mem_cons.1 hx with rfl | hx2
      · exact hvalp
      · exact hinv.closed_valid x hx2
    · intro x hx hx0
      obtain ⟨y, gy, h1, h2, h3, h4, h5⟩ := hinv.parent_ok x hx hx0
      exact ⟨y, gy, h1, h2, h3, List.mem_cons_of_mem p h4, h5⟩
    · intro x hx
      rcases List.mem_cons.1 hx with rfl | hx2
      · exact hpe
      · exact hinv.closed_exact x hx2
    · intro u hu hup v hadjv
      rcases List.mem_cons.1 hu with rfl | hu2
      · exact absurd rfl hup
      · exact hinv.closed_relax u hu2 v hadjv
    · exact List.mem_cons_self p st.closedL
    · intro hmem
      rcases List.mem_cons.1 hmem with h | h
      · exact hpne h.symm
      · exact hinv.exit_not_closed h
  obtain ⟨hinv', hbounds, hmono, hcleq, hosub⟩ := relaxList_inv hout
    (openNeighbors s p)
    { st with openL := st.openL.erase p, closedL := p :: st.closedL } hinv0
    hpe (fun v hv => (mem_openNeighbors_iff hout hvalp).1 hv)
  constructor
  · refine ⟨hinv'.disc_open, hinv'.open_disc, hinv'.closed_disc,
      hinv'.open_not_closed, hinv'.open_nodup, hinv'.closed_nodup,
      hinv'.open_valid, hinv'.closed_valid, hinv'.g00, hinv'.parent_ok,
      hinv'.g_lower, hinv'.closed_exact, ?_, hinv'.exit_not_closed⟩
    intro u hu v hadjv
    by_cases hup : u = p
    · subst hup
      exact hbounds v ((mem_openNeighbors_iff hout hvalp).2 hadjv)
    · exact hinv'.closed_relax_old u hu hup v hadjv
  · exact hcleq

/-! ## The A* solver: the frontier carries exact distances -/

theorem frontier_exists {s : MazeState} {st : AStarState} (hinv : AInv s st) {z : Pos}
    (hz : (mazeGraph s).Reachable (0, 0) z) (hzc : z ∉ st.closedL) :
    ∃ y gy, y ∈ st.openL ∧ st.gmap y = some gy ∧
      gy = (mazeGraph s).dist ((0, 0) : Pos) y ∧
      gy + (mazeGraph s).dist y z = (mazeGraph s).dist ((0, 0) : Pos) z := by
  suffices h : ∀ (n : Nat) (z : Pos), (mazeGraph s).dist ((0, 0) : Pos) z = n →
      (mazeGraph s).Reachable (0, 0) z → z ∉ st.closedL →
      ∃ y gy, y ∈ st.openL ∧ st.gmap y = some gy ∧
        gy = (mazeGraph s).dist ((0, 0) : Pos) y ∧
        gy + (mazeGraph s).dist y z = (mazeGraph s).dist ((0, 0) : Pos) z by
    exact h _ z rfl hz hzc
  intro n
  induction n using Nat.strong_induction_on with
  | _ n ih =>
    intro z hdz hz hzc
    by_cases hz0 : z = ((0 : Nat), (0 : Nat))
    · subst hz0
      have h00 : ((0, 0) : Pos) ∈ st.openL := by
        rcases hinv.disc_open (0, 0) (by rw [hinv.g00]; rfl) with h | h
        · exact h
        · exact absurd h hzc
      refine ⟨(0, 0), 0, h00, hinv.g00, ?_, ?_⟩
      · rw [SimpleGraph.dist_self]
      · rw [SimpleGraph.dist_self]
    · have hne : ((0, 0) : Pos) ≠ z := fun he => hz0 he.symm
      have hpos : 0 < (mazeGraph s).dist ((0, 0) : Pos) z := hz.pos_dist_of_ne hne
      have hn_pos : 0 < n := by
        rw [hdz] at hpos
        exact hpos
      obtain ⟨w, hwl⟩ := hz.exists_walk_length_eq_dist
      cases hwr : w.reverse with
      | nil => exact absurd rfl hz0
      | cons hadj w₂ =>
        rename_i u
        have hru : (mazeGraph s).Reachable (0, 0) u := ⟨w₂.reverse⟩
        have hlen : w₂.length + 1 = n := by
          have h1 : w.reverse.length = w.length := SimpleGraph.Walk.length_reverse w
          rw [hwr, SimpleGraph.Walk.length_cons, hwl, hdz] at h1
          exact h1
        have hdu_le : (mazeGraph s).dist ((0, 0) : Pos) u ≤ n - 1 := by
          have h1 := SimpleGraph.dist_le w₂.reverse
          rw [SimpleGraph.Walk.length_reverse] at h1
          omega
        have hadj' : (mazeGraph s).Adj u z := hadj.symm
        have h1z : (mazeGraph s).dist u z ≤ 1 := by
          have h1 := SimpleGraph.dist_le (SimpleGraph.Walk.cons hadj' SimpleGraph.Walk.nil)
          simpa using h1
        have hdu_ge : n ≤ (mazeGraph s).dist ((0, 0) : Pos) u + 1 := by
          have h1 := dist_triangle_reach hru hadj'.reachable
          rw [hdz] at h1
          omega
        have hdu : (mazeGraph s).dist ((0, 0) : Pos) u = n - 1 := by omega
        by_cases huc : u ∈ st.closedL
        · obtain ⟨gz, hgz, hgzle⟩ := hinv.closed_relax u huc z hadj'
          have hge := (hinv.g_lower z gz hgz).2
          have hgz_eq : gz = n := by
            rw [hdu] at hgzle
            rw [hdz] at hge
            omega
          have hzo : z ∈ st.openL := by
            rcases hinv.disc_open z (by rw [hgz]; rfl) with h | h
            · exact h
            · exact absurd h hzc
          refine ⟨z, gz, hzo, hgz, ?_, ?_⟩
          · rw [hgz_eq, hdz]
          · rw [SimpleGraph.dist_self, hgz_eq, hdz]
            omega
        · have hn1 : n - 1 < n := by omega
          obtain ⟨y, gy, hyo, hgy, hgyd, hsum⟩ := ih (n - 1) hn1 u hdu hru huc
          refine ⟨y, gy, hyo, hgy, hgyd, ?_⟩
          have hry : (mazeGraph s).Reachable y u :=
            (hinv.g_lower y gy hgy).1.symm.trans hru
          have hyz_le : (mazeGraph s).dist y z ≤ (mazeGraph s).dist y u + 1 := by
            have h1 := dist_triangle_reach hry hadj'.reachable
            omega
          have hDz_le : (mazeGraph s).dist ((0, 0) : Pos) z ≤
              gy + (mazeGraph s).dist y z := by
            have hry0 : (mazeGraph s).Reachable (0, 0) y := (hinv.g_lower y gy hgy).1
            have hryz : (mazeGraph s).Reachable y z := hry0.symm.trans hz
            have h1 := dist_triangle_reach hry0 hryz
            omega
          rw [hdz]
          rw [hdu] at hsum
          rw [hdz] at hDz_le
          omega

theorem pickMin_exact {s : MazeState} {st : AStarState} (hinv : AInv s st)
    {x : Pos} {rest : List Pos} (ho : st.openL = x :: rest) :
    pickMin s st x rest ∈ st.openL ∧
    st.gmap (pickMin s st x rest) =
      some ((mazeGraph s).dist ((0, 0) : Pos) (pickMin s st x rest)) := by
  have hmem : pickMin s st x rest ∈ x :: rest := pickMin_mem s st x rest
  have hpo : pickMin s st x rest ∈ st.openL := by
    rw [ho]
    exact hmem
  obtain ⟨gp, hgp⟩ := Option.isSome_iff_exists.1 (hinv.open_disc _ hpo)
  have hrp := (hinv.g_lower _ gp hgp).1
  have hpc : pickMin s st x rest ∉ st.closedL := hinv.open_not_closed _ hpo
  obtain ⟨y, gy, hyo, hgy, hgyd, hsum⟩ := frontier_exists hinv hrp hpc
  have hymem : y ∈ x :: rest := by
    rw [← ho]
    exact hyo
  have hmin := pickMin_min s st x rest y hymem
  have hfp : fOf s st (pickMin s st x rest) =
      gp + manhattan (pickMin s st x rest) (exitPos s) := by
    unfold fOf
    rw [hgp]
    rfl
  have hfy : fOf s st y = gy + manhattan y (exitPos s) := by
    unfold fOf
    rw [hgy]
    rfl
  have hry : (mazeGraph s).Reachable y (pickMin s st x rest) :=
    (hinv.g_lower y gy hgy).1.symm.trans hrp
  have hman1 := manhattan_triangle y (pickMin s st x rest) (exitPos s)
  have hman2 := manhattan_le_dist hry
  have hglow := (hinv.g_lower _ gp hgp).2
  have hle : gp ≤ (mazeGraph s).dist ((0, 0) : Pos) (pickMin s st x rest) := by
    rw [hfp, hfy] at hmin
    omega
  refine ⟨hpo, ?_⟩
  rw [hgp, le_antisymm hle hglow]

/-! ## The A* solver: path reconstruction -/

theorem stepsOfPath_no_undo : ∀ l : List Pos, ∀ stp ∈ stepsOfPath l, stp.2.2 = false := by
  intro l
  induction l with
  | nil =>
    intro stp hstp
    exact absurd hstp (List.not_mem_nil stp)
  | cons a t ih =>
    cases t with
    | nil =>
      intro stp hstp
      exact absurd hstp (List.not_mem_nil stp)
    | cons b t2 =>
      intro stp hstp
      rw [show stepsOfPath (a :: b :: t2) = (a, b, false) :: stepsOfPath (b :: t2)
        from rfl] at hstp
      rcases List.mem_cons.1 hstp with rfl | h
      · rfl
      · exact ih stp h

theorem buildPath_ok {s : MazeState} {st : AStarState} (hinv : AInv s st) :
    ∀ (gx : Nat) (x : Pos), st.gmap x = some gx →
      openPathFrom s ((0, 0) : Pos) x (buildPath st.parent gx x) ∧
      (buildPath st.parent gx x).length = gx + 1 := by
  intro gx
  induction gx using Nat.strong_induction_on with
  | _ gx ih =>
    intro x hgx
    by_cases hx0 : x = ((0 : Nat), (0 : Nat))
    · subst hx0
      have hg0 : gx = 0 := by
        rw [hinv.g00] at hgx
        exact (Option.some.inj hgx).symm
      subst hg0
      have hb0 : buildPath st.parent 0 ((0 : Nat), (0 : Nat)) =
          [((0 : Nat), (0 : Nat))] := rfl
      rw [hb0]
      refine ⟨⟨by simp, rfl, ?_, List.chain'_singleton _⟩, rfl⟩
      rw [List.getLast?_singleton]
    · obtain ⟨y, gy, hpar, hgy, hgx', hyc, hedge⟩ :=
        hinv.parent_ok x (by rw [hgx]; rfl) hx0
      have hgxe : gx = gy + 1 := Option.some.inj (hgx.symm.trans hgx')
      subst hgxe
      have hbp : buildPath st.parent (gy + 1) x = buildPath st.parent gy y ++ [x] := by
        have h1 : buildPath st.parent (gy + 1) x = (match st.parent x with
          | none => [x]
          | some q => buildPath st.parent gy q ++ [x]) := rfl
        rw [h1, hpar]
      obtain ⟨⟨hne, hhead, hlast, hchain⟩, hlen⟩ := ih gy (by omega) y hgy
      rw [hbp]
      refine ⟨⟨?_, ?_, ?_, ?_⟩, ?_⟩
      · simp
      · rw [head?_append_left _ _ hne]
        exact hhead
      · rw [List.getLast?_concat]
      · rw [List.chain'_append]
        refine ⟨hchain, List.chain'_singleton x, ?_⟩
        intro a ha b hb
        have ha' : a = y := by
          rw [hlast] at ha
          exact (Option.some.inj (Option.mem_def.1 ha)).symm
        have hb' : b = x := (Option.some.inj (Option.mem_def.1 hb)).symm
        subst ha'
        subst hb'
        exact hedge
      · simp [List.length_append, hlen]

/-! ## The A* solver: main loop -/

theorem closed_length_lt {s : MazeState} {st : AStarState} (hinv : AInv s st)
    (hr : 1 ≤ s.num_rows) (hc : 1 ≤ s.num_cols) :
    st.closedL.length < s.num_rows * s.num_cols := by
  have hexv : exitPos s ∈ posFinset s := mem_posFinset.2
    ⟨show s.num_rows - 1 < s.num_rows by omega,
     show s.num_cols - 1 < s.num_cols by omega⟩
  have hsub : st.closedL.toFinset ⊆ (posFinset s).erase (exitPos s) := by
    intro x hx
    rw [List.mem_toFinset] at hx
    refine Finset.mem_erase.2 ⟨?_, mem_posFinset.2 (hinv.closed_valid x hx)⟩
    intro he
    exact hinv.exit_not_closed (he ▸ hx)
  have h1 := Finset.card_le_card hsub
  have h2 : ((posFinset s).erase (exitPos s)).card = (posFinset s).card - 1 :=
    Finset.card_erase_of_mem hexv
  have h3 : (posFinset s).card = s.num_rows * s.num_cols := by
    unfold posFinset
    rw [Finset.card_product, Finset.card_range, Finset.card_range]
  have h4 : st.closedL.toFinset.card = st.closedL.length :=
    List.toFinset_card_of_nodup hinv.closed_nodup
  have h5 : 0 < s.num_rows * s.num_cols := Nat.mul_pos hr hc
  omega

theorem astarLoop_succ_empty {s : MazeState} {fuel : Nat} {st : AStarState}
    (ho : st.openL = []) : astarLoop s (fuel + 1) st = .ok [] := by
  unfold astarLoop
  rw [ho]

theorem astarLoop_succ_found {s : MazeState} {fuel : Nat} {st : AStarState}
    {x : Pos} {rest : List Pos} (ho : st.openL = x :: rest)
    (hpex : pickMin s st x rest = exitPos s) :
    astarLoop s (fuel + 1) st =
      .ok (stepsOfPath (buildPath st.parent
        ((st.gmap (pickMin s st x rest)).getD 0) (pickMin s st x rest))) := by
  unfold astarLoop
  rw [ho]
  exact if_pos hpex

theorem astarLoop_succ_expand {s : MazeState} {fuel : Nat} {st : AStarState}
    {x : Pos} {rest : List Pos} (ho : st.openL = x :: rest)
    (hpex : pickMin s st x rest ≠ exitPos s) :
    astarLoop s (fuel + 1) st =
      astarLoop s fuel (expand s st (pickMin s st x rest)) := by
  have h1 : astarLoop s (fuel + 1) st = (match st.openL with
    | [] => (Except.ok [] : Except String (List Step))
    | x :: rest =>
        let p := pickMin s st x rest
        if p = exitPos s then
          .ok (stepsOfPath (buildPath st.parent ((st.gmap p).getD 0) p))
        else astarLoop s fuel (expand s st p)) := rfl
  rw [h1, ho]
  exact if_neg hpex

theorem astarLoop_ok {s : MazeState} (hout : wallsIntactOutside s)
    (hr : 1 ≤ s.num_rows) (hc : 1 ≤ s.num_cols) :
    ∀ (fuel : Nat) (st : AStarState), AInv s st →
      s.num_rows * s.num_cols ≤ fuel + st.closedL.length →
      ∃ res, astarLoop s fuel st = .ok res ∧
        (∀ stp ∈ res, stp.2.2 = false) ∧
        ((mazeGraph s).Reachable ((0, 0) : Pos) (exitPos s) →
          ∃ l, openPathFrom s ((0, 0) : Pos) (exitPos s) l ∧
            l.length = (mazeGraph s).dist ((0, 0) : Pos) (exitPos s) + 1 ∧
            res = stepsOfPath l) ∧
        (¬ (mazeGraph s).Reachable ((0, 0) : Pos) (exitPos s) → res = []) := by
  intro fuel
  induction fuel with
  | zero =>
    intro st hinv hfuel
    exfalso
    have h1 := closed_length_lt hinv hr hc
    omega
  | succ fuel ih =>
    intro st hinv hfuel
    cases ho : st.openL with
    | nil =>
      refine ⟨[], astarLoop_succ_empty ho, ?_, ?_, fun _ => rfl⟩
      · intro stp hstp
        exact absurd hstp (List.not_mem_nil stp)
      · intro hreach
        exfalso
        obtain ⟨y, gy, hyo, -, -, -⟩ := frontier_exists hinv hreach hinv.exit_not_closed
        rw [ho] at hyo
        exact absurd hyo (List.not_mem_nil y)
    | cons x rest =>
      obtain ⟨hpo, hpe⟩ := pickMin_exact hinv ho
      by_cases hpex : pickMin s st x rest = exitPos s
      · have hgetd : (st.gmap (pickMin s st x rest)).getD 0 =
            (mazeGraph s).dist ((0, 0) : Pos) (pickMin s st x rest) := by
          rw [hpe]
          rfl
        obtain ⟨hopf, hlen⟩ := buildPath_ok hinv _ _ hpe
        refine ⟨_, astarLoop_succ_found ho hpex, stepsOfPath_no_undo _, ?_, ?_⟩
        · intro hreach
          rw [← hpex]
          refine ⟨buildPath st.parent ((st.gmap (pickMin s st x rest)).getD 0)
            (pickMin s st x rest), ?_, ?_, rfl⟩
          · rw [hgetd]
            exact hopf
          · rw [hgetd]
            exact hlen
        · intro hnreach
          exfalso
          exact hnreach (hpex ▸ (hinv.g_lower _ _ hpe).1)
      · obtain ⟨hinv', hcl⟩ := expand_inv hout hinv hpo hpe hpex
        have hfuel' : s.num_rows * s.num_cols ≤
            fuel + (expand s st (pickMin s st x rest)).closedL.length := by
          rw [hcl]
          simp only [List.length_cons]
          omega
        obtain ⟨res, heq, hfw, hre, hnre⟩ :=
          ih (expand s st (pickMin s st x rest)) hinv' hfuel'
        refine ⟨res, ?_, hfw, hre, hnre⟩
        rw [astarLoop_succ_expand ho hpex]
        exact heq

theorem init_inv {s : MazeState} (hr : 1 ≤ s.num_rows) (hc : 1 ≤ s.num_cols)
    (st : AStarState) (ho : st.openL = [((0 : Nat), (0 : Nat))])
    (hcl : st.closedL = [])
    (hg : ∀ q : Pos, st.gmap q = if q = ((0 : Nat), (0 : Nat)) then some 0 else none)
    (hp : ∀ q : Pos, st.parent q = none) : AInv s st := by
  refine ⟨?_, ?_, ?_, ?_, ?_, ?_, ?_, ?_, ?_, ?_, ?_, ?_, ?_, ?_⟩
  · intro x hx
    by_cases hx0 : x = ((0 : Nat), (0 : Nat))
    · subst hx0
      left
      rw [ho]
      exact List.mem_singleton.2 rfl
    · rw [hg x, if_neg hx0] at hx
      exact absurd hx (by simp)
  · intro x hx
    rw [ho] at hx
    obtain rfl := List.mem_singleton.1 hx
    rw [hg, if_pos rfl]
    rfl
  · intro x hx
    rw [hcl] at hx
    exact absurd hx (List.not_mem_nil x)
  · intro x hx
    rw [hcl]
    exact List.not_mem_nil x
  · rw [ho]
    exact List.nodup_singleton _
  · rw [hcl]
    exact List.nodup_nil
  · intro x hx
    rw [ho] at hx
    obtain rfl := List.mem_singleton.1 hx
    exact ⟨hr, hc⟩
  · intro x hx
    rw [hcl] at hx
    exact absurd hx (List.not_mem_nil x)
  · rw [hg, if_pos rfl]
  · intro x hx hx0
    by_cases hxe : x = ((0 : Nat), (0 : Nat))
    · exact absurd hxe hx0
    · rw [hg x, if_neg hxe] at hx
      exact absurd hx (by simp)
  · intro x gx hgx
    by_cases hxe : x = ((0 : Nat), (0 : Nat))
    · subst hxe
      rw [hg, if_pos rfl] at hgx
      obtain rfl := Option.some.inj hgx
      refine ⟨SimpleGraph.Reachable.refl _, ?_⟩
      rw [SimpleGraph.dist_self]
    · rw [hg x, if_neg hxe] at hgx
      exact absurd hgx (by simp)
  · intro x hx
    rw [hcl] at hx
    exact absurd hx (List.not_mem_nil x)
  · intro u hu
    rw [hcl] at hu
    exact absurd hu (List.not_mem_nil u)
  · rw [hcl]
    exact List.not_mem_nil _

theorem SolveAStar_ok {s : MazeState} (hout : wallsIntactOutside s)
    (hr : 1 ≤ s.num_rows) (hc : 1 ≤ s.num_cols) :
    ∃ res, SolveAStar s = .ok res ∧
      (∀ stp ∈ res, stp.2.2 = false) ∧
      ((mazeGraph s).Reachable ((0, 0) : Pos) (exitPos s) →
        ∃ l, openPathFrom s ((0, 0) : Pos) (exitPos s) l ∧
          l.length = (mazeGraph s).dist ((0, 0) : Pos) (exitPos s) + 1 ∧
          res = stepsOfPath l) ∧
      (¬ (mazeGraph s).Reachable ((0, 0) : Pos) (exitPos s) → res = []) := by
  obtain ⟨res, heq, h2, h3, h4⟩ := astarLoop_ok hout hr hc
    (s.num_rows * s.num_cols + 1)
    { openL := [(0, 0)], closedL := [],
      gmap := fun q => if q = (0, 0) then some 0 else none,
      parent := fun _ => none }
    (init_inv hr hc _ rfl rfl (fun q => rfl) (fun q => rfl))
    (by simp)
  exact ⟨res, heq, h2, h3, h4⟩

/-- C5: the spec-modelled A* solver, on any grid with at least one row
and column whose out-of-grid wall flags are intact, returns without error
a forward-only step sequence (no isUndo=true entries); when some path
through broken walls joins the entrance (0,0) to the exit it returns the
steps of a shortest such path, and when no such path exists it returns
the empty step sequence. -/
theorem claim_C5_astar_shortest (s : MazeState) (hr : 1 ≤ s.num_rows)
    (hc : 1 ≤ s.num_cols) (hout : wallsIntactOutside s) :
    ∃ res, SolveAStar s = .ok res ∧
      (∀ stp ∈ res, stp.2.2 = false) ∧
      ((∃ l, openPathFrom s ((0, 0) : Pos) (exitPos s) l) →
        ∃ l, openPathFrom s ((0, 0) : Pos) (exitPos s) l ∧ res = stepsOfPath l ∧
          ∀ l', openPathFrom s ((0, 0) : Pos) (exitPos s) l' →
            l.length ≤ l'.length) ∧
      ((¬ ∃ l, openPathFrom s ((0, 0) : Pos) (exitPos s) l) → res = []) := by
  obtain ⟨res, heq, hfw, hre, hnre⟩ := SolveAStar_ok hout hr hc
  refine ⟨res, heq, hfw, ?_, ?_⟩
  · intro hex
    have hreach := reachable_iff_openPathFrom.2 hex
    obtain ⟨l, hopf, hlen, hres⟩ := hre hreach
    refine ⟨l, hopf, hres, ?_⟩
    intro l' hl'
    have h1 := openPathFrom_length_lower hl'
    omega
  · intro hnex
    exact hnre (fun hreach => hnex (reachable_iff_openPathFrom.1 hreach))

/-- Witness for C5: the A* solver applied to the concrete carved 1x2
maze. -/
theorem claim_C5_astar_shortest_witness :
    1 ≤ demoMaze.num_rows ∧ 1 ≤ demoMaze.num_cols ∧
    wallsIntactOutside demoMaze ∧
    ∃ res, SolveAStar demoMaze = .ok res ∧
      (∀ stp ∈ res, stp.2.2 = false) ∧
      ((∃ l, openPathFrom demoMaze ((0, 0) : Pos) (exitPos demoMaze) l) →
        ∃ l, openPathFrom demoMaze ((0, 0) : Pos) (exitPos demoMaze) l ∧
          res = stepsOfPath l ∧
          ∀ l', openPathFrom demoMaze ((0, 0) : Pos) (exitPos demoMaze) l' →
            l.length ≤ l'.length) ∧
      ((¬ ∃ l, openPathFrom demoMaze ((0, 0) : Pos) (exitPos demoMaze) l) →
        res = []) :=
  ⟨by decide, by decide, demoMaze_walls_intact,
    claim_C5_astar_shortest demoMaze (by decide) (by decide) demoMaze_walls_intact⟩

/-- C4: the spec-modelled dispatching Solve, on any grid with at least
one row and column and intact out-of-grid walls, succeeds with a step
sequence for the algorithm names "dfs" and "astar", and fails with
UnsupportedAlgorithmError for every other algorithm name. -/
theorem claim_C4_solve_dispatch (σ : Pos → List Pos → List Pos)
    (hσ : ∀ p l, (σ p l).Perm l) (s : MazeState)
    (hr : 1 ≤ s.num_rows) (hc : 1 ≤ s.num_cols) (hout : wallsIntactOutside s) :
    (∃ tr : List Step, Solve σ s "dfs" = .ok tr) ∧
    (∃ tr : List Step, Solve σ s "astar" = .ok tr) ∧
    (∀ alg : String, alg ≠ "dfs" → alg ≠ "astar" →
      Solve σ s alg = .error "UnsupportedAlgorithmError") := by
  refine ⟨?_, ?_, ?_⟩
  · obtain ⟨b, s', tr, heq, -⟩ := solve_main σ hσ (s.num_rows * s.num_cols + 1)
      s (0, 0) ⟨hr, hc⟩ (solve_fuel_ok s (0, 0))
    refine ⟨tr, ?_⟩
    unfold Solve
    rw [if_pos rfl]
    rw [show solve σ s = .ok (b, s', tr) from heq]
  · obtain ⟨res, heq, -, -, -⟩ := SolveAStar_ok hout hr hc
    refine ⟨res, ?_⟩
    unfold Solve
    rw [if_neg (by decide), if_pos rfl, heq]
  · intro alg h1 h2
    unfold Solve
    rw [if_neg h1, if_neg h2]

/-- Witness for C4: dispatch on the concrete carved 1x2 maze: "dfs" and
"astar" succeed, "bfs" fails with UnsupportedAlgorithmError. -/
theorem claim_C4_solve_dispatch_witness :
    (∀ (p : Pos) (l : List Pos),
      ((fun _ l => l : Pos → List Pos → List Pos) p l).Perm l) ∧
    1 ≤ demoMaze.num_rows ∧ 1 ≤ demoMaze.num_cols ∧
    wallsIntactOutside demoMaze ∧
    (∃ tr : List Step, Solve (fun _ l => l) demoMaze "dfs" = .ok tr) ∧
    (∃ tr : List Step, Solve (fun _ l => l) demoMaze "astar" = .ok tr) ∧
    Solve (fun _ l => l) demoMaze "bfs" = .error "UnsupportedAlgorithmError" := by
  have hperm : ∀ (p : Pos) (l : List Pos),
      ((fun _ l => l : Pos → List Pos → List Pos) p l).Perm l :=
    fun _ l => List.Perm.refl l
  have h := claim_C4_solve_dispatch (fun _ l => l) hperm demoMaze
    (by decide) (by decide) demoMaze_walls_intact
  exact ⟨hperm, by decide, by decide, demoMaze_walls_intact, h.1, h.2.1,
    h.2.2 "bfs" (by decide) (by decide)⟩

end MazeSolver
